import Mathlib

/-!
modex: static tracing of model references from a Python entrypoint

A shallow embedding of `src/main.go` (repository roks0n/modex) and theorems about it.

Modelling conventions.

* Go `string` is Lean `String`; the helpers of package `strings` that the program uses are
  written over the character list of the string.  All separators the program splits on are
  ASCII, so splitting by characters and splitting by bytes agree.
* A Go `map[string]V` is an association list `List (String × V)` with at most one entry per
  key (`mapSet` keeps that shape).  The order of the list stands for the order in which one
  particular run ranges over the map; Go leaves that order unspecified.
* A Go set `map[K]struct{}` is a list without repetition (`setAdd`); two such lists denote the
  same set when they have the same members.
* The syntax tree comes from the external parser.  A node carries its type tag, the source
  text of its span (what `nodeText` slices out of the source bytes) and its children in
  order, each with the field name under which the parent holds it (`""` when it has none).
* Reading and parsing a file is a function `FileSystem` from file paths to either an error
  text or the root node of the parsed file.
-/

namespace Modex

/-! ## Package `strings` -/

namespace Strings

/-- Unicode white space as decided by Go's `unicode.IsSpace`. -/
def isSpace (c : Char) : Bool :=
  let n := c.toNat
  n = 0x09 || n = 0x0A || n = 0x0B || n = 0x0C || n = 0x0D || n = 0x20 || n = 0x85 || n = 0xA0 ||
  n = 0x1680 || (0x2000 ≤ n && n ≤ 0x200A) || n = 0x2028 || n = 0x2029 || n = 0x202F ||
  n = 0x205F || n = 0x3000

/-- Go `strings.TrimSpace`: white space removed at both ends. -/
def TrimSpace (s : String) : String :=
  ⟨((s.data.dropWhile isSpace).reverse.dropWhile isSpace).reverse⟩

/-- Go `strings.HasPrefix`. -/
def startsWith (s p : String) : Bool :=
  p.data.isPrefixOf s.data

/-- Go `strings.TrimPrefix`: `s` without the leading `p`, or `s` itself. -/
def dropLeading (s p : String) : String :=
  if p.data.isPrefixOf s.data then ⟨s.data.drop p.data.length⟩ else s

/-- Go `strings.HasSuffix`. -/
def endsWith (s p : String) : Bool :=
  p.data.reverse.isPrefixOf s.data.reverse

/-- Go `strings.TrimSuffix`: `s` without the trailing `p`, or `s` itself. -/
def dropTrailing (s p : String) : String :=
  if p.data.reverse.isPrefixOf s.data.reverse then
    ⟨(s.data.reverse.drop p.data.length).reverse⟩
  else s

/-- Whether `sub` occurs in the character list. -/
def containsAux (sub : List Char) : List Char → Bool
  | [] => sub.isEmpty
  | c :: cs => sub.isPrefixOf (c :: cs) || containsAux sub cs

/-- Go `strings.Contains`. -/
def Contains (s sub : String) : Bool :=
  containsAux sub.data s.data

/-- Worker of `Split`: `skip` counts the characters of a separator still to be passed over,
`cur` is the current piece, reversed. -/
def splitAux (sep : List Char) : Nat → List Char → List Char → List (List Char)
  | _, cur, [] => [cur.reverse]
  | k + 1, cur, _ :: cs => splitAux sep k cur cs
  | 0, cur, c :: cs =>
    if sep.isPrefixOf (c :: cs) then cur.reverse :: splitAux sep (sep.length - 1) [] cs
    else splitAux sep 0 (c :: cur) cs

/-- Go `strings.Split` for a non-empty separator: the pieces between the successive
non-overlapping occurrences of `sep`, found from the left. -/
def Split (s sep : String) : List String :=
  (splitAux sep.data 0 [] s.data).map String.mk

/-- Worker of `SplitN2`. -/
def splitN2Aux (sep : List Char) : List Char → List Char → List (List Char)
  | cur, [] => [cur.reverse]
  | cur, c :: cs =>
    if sep.isPrefixOf (c :: cs) then [cur.reverse, (c :: cs).drop sep.length]
    else splitN2Aux sep (c :: cur) cs

/-- Go `strings.SplitN(s, sep, 2)` for a non-empty separator: `s` cut at the first
occurrence of `sep`, or `[s]` when there is none. -/
def SplitN2 (s sep : String) : List String :=
  (splitN2Aux sep.data [] s.data).map String.mk

/-- The pieces of a list, with `sep` between consecutive ones. -/
def joinChars (sep : List Char) : List (List Char) → List Char
  | [] => []
  | [x] => x
  | x :: y :: rest => x ++ sep ++ joinChars sep (y :: rest)

/-- Go `strings.Join`. -/
def Join (parts : List String) (sep : String) : String :=
  ⟨joinChars sep.data (parts.map String.data)⟩

/-- The Go expression `s[:strings.LastIndex(s, ".")]` for a string that contains a dot: what
stands before the last dot. -/
def beforeLastDot (s : String) : String :=
  ⟨((s.data.reverse.dropWhile (fun c => c != '.')).drop 1).reverse⟩

end Strings

/-! ## Maps and sets -/

/-- Go `m[k]` with the `ok` flag: the value stored under `k`, if any. -/
def mapGet {K V : Type} [DecidableEq K] : List (K × V) → K → Option V
  | [], _ => none
  | (k, v) :: rest, key => if k = key then some v else mapGet rest key

/-- Go `m[k] = v`: the entry of `k` is replaced where it stands, or added. -/
def mapSet {K V : Type} [DecidableEq K] : List (K × V) → K → V → List (K × V)
  | [], key, v => [(key, v)]
  | (k, w) :: rest, key, v =>
    if k = key then (key, v) :: rest else (k, w) :: mapSet rest key v

/-- Go `s[x] = struct{}{}` on a set. -/
def setAdd {K : Type} [DecidableEq K] (s : List K) (x : K) : List K :=
  if x ∈ s then s else s ++ [x]

/-! ## Data model -/

/-- A node of the syntax tree handed over by the parser. -/
inductive Node where
  | mk (type : String) (text : String) (children : List (String × Node)) : Node

namespace Node

/-- Go `node.Type()`. -/
def type : Node → String
  | mk t _ _ => t

/-- The source text of the span of the node. -/
def text : Node → String
  | mk _ x _ => x

/-- The children in order, each with its field name. -/
def children : Node → List (String × Node)
  | mk _ _ cs => cs

end Node

/-- Go `nodeText`: the text of a node, empty for the nil node. -/
def nodeText : Option Node → String
  | none => ""
  | some n => n.text

/-- Go `node.ChildByFieldName(name)` on the list of children. -/
def childByFieldName : List (String × Node) → String → Option Node
  | [], _ => none
  | (f, c) :: rest, name => if f = name then some c else childByFieldName rest name

/-- Target of a from-import alias. -/
structure ImportFromTarget where
  Module : String
  Name : String
deriving DecidableEq, Repr

/-- Identity of a model class. -/
structure ModelRef where
  Module : String
  Name : String
deriving DecidableEq, Repr

/-- Go `ModelRef.String`. -/
def ModelRef.String (m : ModelRef) : String :=
  m.Module ++ "." ++ m.Name

/-- One call expression of a function body. -/
structure CallTarget where
  Kind : String
  Name : String
  Base : String
  Attr : String
deriving DecidableEq, Repr

/-- Go `[3]string`: module, class (empty for a module-level function), function. -/
abbrev Triple := String × String × String

/-- Per-module data; `Tree` and `Source` are carried by the nodes themselves. -/
structure ModuleInfo where
  ModulePath : String
  FilePath : String
  Tree : Node
  IsPackage : Bool
  ModuleImports : List (String × String)
  FromImports : List (String × ImportFromTarget)
  Functions : List (String × Node)
  Classes : List (String × List (String × Node))

/-- Go `importAlias`. -/
structure importAlias where
  Name : String
  As : String
deriving DecidableEq, Repr

/-! ## Relative imports and the model marker -/

/-- Go `resolveRelativeImport`.  `level` is the number of leading dots counted by
`parseImportFromStatement`, a natural number. -/
def resolveRelativeImport (currentModule : String) (module : String) (level : Nat)
    (isPackage : Bool) : String :=
  if level = 0 then module
  else
    let base : String :=
      if isPackage then currentModule
      else if Strings.Contains currentModule "." then Strings.beforeLastDot currentModule
      else ""
    let baseParts : List String := if base ≠ "" then Strings.Split base "." else []
    if level - 1 > baseParts.length then ""
    else
      let baseParts := baseParts.take (baseParts.length - (level - 1))
      let baseParts := if module ≠ "" then baseParts ++ Strings.Split module "." else baseParts
      if baseParts.length = 0 then ""
      else Strings.Join baseParts "."

/-- Go `isModelModule`. -/
def isModelModule (modulePath : String) : Bool :=
  if modulePath = "" then false
  else (Strings.Split modulePath ".").any (fun part => part = "models")

/-! ## Import statements -/

/-- Go `splitCommaSeparated`. -/
def splitCommaSeparated (text : String) : List String :=
  (Strings.Split text ",").map Strings.TrimSpace

/-- Go `splitAs`. -/
def splitAs (part : String) : String × String :=
  let part := Strings.TrimSpace part
  if part = "" then ("", "")
  else
    match Strings.Split part " as " with
    | [a, b] => (Strings.TrimSpace a, Strings.TrimSpace b)
    | _ => (part, "")

/-- Go `parseImportTargets`. -/
def parseImportTargets (text : String) : List importAlias :=
  ((splitCommaSeparated text).filter (fun part => part ≠ "")).map
    (fun part => ⟨(splitAs part).1, (splitAs part).2⟩)

/-- Go `parseImportStatement`. -/
def parseImportStatement (text : String) : List importAlias :=
  let text := Strings.TrimSpace text
  if !Strings.startsWith text "import " then []
  else
    let rest := Strings.TrimSpace (Strings.dropLeading text "import ")
    if rest = "" then []
    else
      ((splitCommaSeparated rest).filter (fun part => part ≠ "")).map
        (fun part => ⟨(splitAs part).1, (splitAs part).2⟩)

/-- Go `parseImportFromStatement`; `none` stands for the `ok = false` return. -/
def parseImportFromStatement (text : String) : Option (String × Nat × List importAlias) :=
  let text := Strings.TrimSpace text
  if !Strings.startsWith text "from " then none
  else
    let rest := Strings.TrimSpace (Strings.dropLeading text "from ")
    match Strings.SplitN2 rest " import " with
    | [l, r] =>
      let left := Strings.TrimSpace l
      let right := Strings.TrimSpace r
      let right := Strings.dropTrailing (Strings.dropLeading right "(") ")"
      let level := (left.data.takeWhile (fun c => c = '.')).length
      let module := Strings.TrimSpace ⟨left.data.drop level⟩
      some (module, level, parseImportTargets right)
    | _ => none

/-! ## Walking the tree -/

/-- One call of the visitor of Go `walk`: the node, the type of its parent and the field
name under which the parent holds it (what `fieldName(parent, node)` computes).  The node the
walk starts from is visited with no parent; the program starts its walks at a module root or
at a `function_definition` node, and the visitors look at the parent of `identifier` nodes
only. -/
structure Visit where
  parentType : Option String
  field : String
  node : Node

mutual
/-- Go `walk`: the visits in pre-order. -/
def walkNode : Option String → String → Node → List Visit
  | p, f, .mk t x cs => ⟨p, f, .mk t x cs⟩ :: walkChildren t cs
/-- The walks of the children of a node of type `pt`, in order. -/
def walkChildren : String → List (String × Node) → List Visit
  | _, [] => []
  | pt, (f, c) :: rest => walkNode (some pt) f c ++ walkChildren pt rest
end

/-- The visits of `walk(node, fn)`. -/
def walk (node : Node) : List Visit :=
  walkNode none "" node

/-! ## Import tables -/

/-- The alias under which an import is bound. -/
def importAlias.asname (entry : importAlias) : String :=
  if entry.As = "" then entry.Name else entry.As

/-- The visitor of Go `collectImports` at one node. -/
def importStep (moduleInfo : ModuleInfo)
    (acc : List (String × String) × List (String × ImportFromTarget)) (n : Node) :
    List (String × String) × List (String × ImportFromTarget) :=
  if n.type = "import_statement" then
    ((parseImportStatement n.text).foldl
      (fun m entry => mapSet m entry.asname entry.Name) acc.1, acc.2)
  else if n.type = "import_from_statement" then
    match parseImportFromStatement n.text with
    | none => acc
    | some (module, level, aliases) =>
      if module = "" ∧ level = 0 then acc
      else
        let resolved :=
          resolveRelativeImport moduleInfo.ModulePath module level moduleInfo.IsPackage
        if resolved = "" then acc
        else
          (acc.1, aliases.foldl
            (fun m entry =>
              if entry.Name = "*" then m else mapSet m entry.asname ⟨resolved, entry.Name⟩)
            acc.2)
  else acc

/-- Go `collectImports`. -/
def collectImports (node : Node) (moduleInfo : ModuleInfo) :
    List (String × String) × List (String × ImportFromTarget) :=
  ((walk node).map Visit.node).foldl (importStep moduleInfo) ([], [])

/-! ## Definitions of a module -/

/-- Go `info.Classes[currentClass][name] = node`, creating the class entry when needed. -/
def classSet (classes : List (String × List (String × Node))) (cls name : String)
    (node : Node) : List (String × List (String × Node)) :=
  mapSet classes cls (mapSet ((mapGet classes cls).getD []) name node)

/-- The `function_definition` case of the walk of Go `collectDefinitions`. -/
def recordFunction (node : Node) (currentClass : String)
    (st : List (String × Node) × List (String × List (String × Node))) :
    List (String × Node) × List (String × List (String × Node)) :=
  match childByFieldName node.children "name" with
  | none => st
  | some nameNode =>
    let name := nameNode.text
    if name = "" then st
    else if currentClass ≠ "" then (st.1, classSet st.2 currentClass name node)
    else (mapSet st.1 name node, st.2)

/-- The class entry created by the `class_definition` case of Go `collectDefinitions`. -/
def recordClass (className : String)
    (st : List (String × Node) × List (String × List (String × Node))) :
    List (String × Node) × List (String × List (String × Node)) :=
  if className ≠ "" then
    match mapGet st.2 className with
    | some _ => st
    | none => (st.1, mapSet st.2 className [])
  else st

mutual
/-- The local function `walk` of Go `collectDefinitions`, threading the two indexes. -/
def walkDefs : Node → String → List (String × Node) × List (String × List (String × Node)) →
    List (String × Node) × List (String × List (String × Node))
  | .mk ty tx cs, currentClass, st =>
    if ty = "decorated_definition" then
      match childByFieldName cs "definition" with
      | some _ => walkDefsField cs currentClass st
      | none => walkDefsList cs currentClass st
    else if ty = "class_definition" then
      let className := nodeText (childByFieldName cs "name")
      walkDefsList cs className (recordClass className st)
    else if ty = "function_definition" then
      walkDefsList cs currentClass (recordFunction (.mk ty tx cs) currentClass st)
    else walkDefsList cs currentClass st
/-- The loop over the children of a node. -/
def walkDefsList : List (String × Node) → String →
    List (String × Node) × List (String × List (String × Node)) →
    List (String × Node) × List (String × List (String × Node))
  | [], _, st => st
  | (_, c) :: rest, currentClass, st => walkDefsList rest currentClass (walkDefs c currentClass st)
/-- The walk of the child held under field `definition` (the first such child). -/
def walkDefsField : List (String × Node) → String →
    List (String × Node) × List (String × List (String × Node)) →
    List (String × Node) × List (String × List (String × Node))
  | [], _, st => st
  | (f, c) :: rest, currentClass, st =>
    if f = "definition" then walkDefs c currentClass st else walkDefsField rest currentClass st
end

/-- Go `collectDefinitions`: the function index and the class index of a tree. -/
def collectDefinitions (root : Node) :
    List (String × Node) × List (String × List (String × Node)) :=
  walkDefs root "" ([], [])

/-- Go `filepath.Base` for slash-separated paths. -/
def filepathBase (path : String) : String :=
  if path = "" then "."
  else
    let stripped := (path.data.reverse.dropWhile (fun c => c = '/')).reverse
    if stripped = [] then "/"
    else ⟨(stripped.reverse.takeWhile (fun c => c != '/')).reverse⟩

/-- Reading a file and parsing it: an error text, or the root of the tree. -/
abbrev FileSystem := String → Except String Node

/-- The `ModuleInfo` Go `parseModule` builds from the tree of a file that was read. -/
def buildModuleInfo (modulePath filePath : String) (tree : Node) : ModuleInfo :=
  let info : ModuleInfo :=
    { ModulePath := modulePath, FilePath := filePath, Tree := tree,
      IsPackage := filepathBase filePath = "__init__.py",
      ModuleImports := [], FromImports := [],
      Functions := (collectDefinitions tree).1, Classes := (collectDefinitions tree).2 }
  { info with ModuleImports := (collectImports tree info).1,
              FromImports := (collectImports tree info).2 }

/-- Go `parseModule`. -/
def parseModule (fs : FileSystem) (modulePath filePath : String) : Except String ModuleInfo :=
  match fs filePath with
  | .error e => .error e
  | .ok tree => .ok (buildModuleInfo modulePath filePath tree)

/-! ## Usage of names in a function body -/

/-- Go `usageInfo`. -/
structure usageInfo where
  Names : List String
  Attrs : List (String × String)

/-- Go `shouldCountIdentifier`, on the parent type and field name of the visit. -/
def shouldCountIdentifier (v : Visit) : Bool :=
  match v.parentType with
  | none => true
  | some pt =>
    if pt = "function_definition" ∨ pt = "class_definition" then
      if v.field = "name" then false else true
    else if pt = "import_statement" ∨ pt = "import_from_statement" ∨ pt = "aliased_import" then
      false
    else if pt = "parameters" ∨ pt = "default_parameter" ∨ pt = "typed_parameter" ∨
        pt = "list_splat_pattern" ∨ pt = "dictionary_splat_pattern" then
      false
    else if pt = "keyword_argument" then
      if v.field = "name" then false else true
    else true

/-- The visitor of Go `collectUsage` at one node. -/
def usageStep (usage : usageInfo) (v : Visit) : usageInfo :=
  if v.node.type = "attribute" then
    match childByFieldName v.node.children "object",
        childByFieldName v.node.children "attribute" with
    | some obj, some attr =>
      if obj.type = "identifier" ∧ attr.type = "identifier" then
        { usage with Attrs := usage.Attrs ++ [(obj.text, attr.text)] }
      else usage
    | _, _ => usage
  else if v.node.type = "identifier" then
    if shouldCountIdentifier v then { usage with Names := setAdd usage.Names v.node.text }
    else usage
  else usage

/-- Go `collectUsage`. -/
def collectUsage (functionNode : Node) : usageInfo :=
  (walk functionNode).foldl usageStep ⟨[], []⟩

/-! ## Models referenced by a function body -/

/-- The Go loop `for k, v := range src { dst[k] = v }`. -/
def mapCopy {V : Type} (dst src : List (String × V)) : List (String × V) :=
  src.foldl (fun m kv => mapSet m kv.1 kv.2) dst

/-- The body of the loop over `usage.Names` in Go `analyzeFunctionModels`: the model a bare
name contributes, if any. -/
def nameModel (fromImports : List (String × ImportFromTarget)) (name : String) :
    Option ModelRef :=
  match mapGet fromImports name with
  | some target => if isModelModule target.Module then some ⟨target.Module, target.Name⟩ else none
  | none => none

/-- The body of the loop over `usage.Attrs` in Go `analyzeFunctionModels`: the model an
attribute pair contributes, if any. -/
def attrModel (moduleImports : List (String × String))
    (fromImports : List (String × ImportFromTarget)) (moduleMap : List (String × String))
    (item : String × String) : Option ModelRef :=
  match mapGet moduleImports item.1 with
  | some modulePath => if isModelModule modulePath then some ⟨modulePath, item.2⟩ else none
  | none =>
    match mapGet fromImports item.1 with
    | some target =>
      let modulePath := target.Module ++ "." ++ target.Name
      if isModelModule modulePath then
        match mapGet moduleMap modulePath with
        | some _ => some ⟨modulePath, item.2⟩
        | none => if isModelModule target.Module then some ⟨target.Module, target.Name⟩ else none
      else none
    | none => none

/-- Adds what `f` yields for each item to a set. -/
def addModels {A : Type} (f : A → Option ModelRef) (models : List ModelRef) (items : List A) :
    List ModelRef :=
  items.foldl (fun ms x => match f x with
    | some r => setAdd ms r
    | none => ms) models

/-- The resolution part of Go `analyzeFunctionModels`, on the merged tables. -/
def resolveModels (moduleImports : List (String × String))
    (fromImports : List (String × ImportFromTarget)) (moduleMap : List (String × String))
    (usage : usageInfo) : List ModelRef :=
  addModels (attrModel moduleImports fromImports moduleMap)
    (addModels (nameModel fromImports) [] usage.Names) usage.Attrs

/-- Go `analyzeFunctionModels`. -/
def analyzeFunctionModels (functionNode : Node) (moduleInfo : ModuleInfo)
    (moduleMap : List (String × String)) : List ModelRef :=
  let localImports := collectImports functionNode moduleInfo
  let moduleImports := mapCopy (mapCopy [] moduleInfo.ModuleImports) localImports.1
  let fromImports := mapCopy (mapCopy [] moduleInfo.FromImports) localImports.2
  resolveModels moduleImports fromImports moduleMap (collectUsage functionNode)

/-! ## Calls of a function body -/

/-- The visitor of Go `analyzeFunctionCalls` at one node. -/
def callStep (calls : List CallTarget) (n : Node) : List CallTarget :=
  if n.type ≠ "call" then calls
  else
    match childByFieldName n.children "function" with
    | none => calls
    | some fnNode =>
      if fnNode.type = "identifier" then calls ++ [⟨"name", fnNode.text, "", ""⟩]
      else if fnNode.type = "attribute" then
        match childByFieldName fnNode.children "object",
            childByFieldName fnNode.children "attribute" with
        | some obj, some attr =>
          if obj.type = "identifier" ∧ attr.type = "identifier" then
            calls ++ [⟨"attr", "", obj.text, attr.text⟩]
          else calls
        | _, _ => calls
      else calls

/-- Go `analyzeFunctionCalls`. -/
def analyzeFunctionCalls (functionNode : Node) : List CallTarget :=
  ((walk functionNode).map Visit.node).foldl callStep []

/-- Go `resolveCallTarget`; `none` stands for the `ok = false` return. -/
def resolveCallTarget (call : CallTarget) (moduleInfo : ModuleInfo)
    (moduleMap : List (String × String)) (currentClass : String) : Option Triple :=
  if call.Kind = "name" ∧ call.Name ≠ "" then
    match mapGet moduleInfo.Functions call.Name with
    | some _ => some (moduleInfo.ModulePath, "", call.Name)
    | none =>
      match mapGet moduleInfo.FromImports call.Name with
      | some target =>
        match mapGet moduleMap target.Module with
        | some _ => some (target.Module, "", target.Name)
        | none => none
      | none => none
  else if call.Kind = "attr" ∧ call.Base ≠ "" ∧ call.Attr ≠ "" then
    let viaSelf : Option Triple :=
      if (call.Base = "self" ∨ call.Base = "cls") ∧ currentClass ≠ "" then
        match mapGet ((mapGet moduleInfo.Classes currentClass).getD []) call.Attr with
        | some _ => some (moduleInfo.ModulePath, currentClass, call.Attr)
        | none => none
      else none
    let viaModule : Option Triple :=
      match mapGet moduleInfo.ModuleImports call.Base with
      | some modulePath =>
        match mapGet moduleMap modulePath with
        | some _ => some (modulePath, "", call.Attr)
        | none => none
      | none => none
    let viaFrom : Option Triple :=
      match mapGet moduleInfo.FromImports call.Base with
      | some target =>
        match mapGet moduleMap (target.Module ++ "." ++ target.Name) with
        | some _ => some (target.Module ++ "." ++ target.Name, "", call.Attr)
        | none => none
      | none => none
    let viaClass : Option Triple :=
      match mapGet moduleInfo.Classes call.Base with
      | some methods =>
        match mapGet methods call.Attr with
        | some _ => some (moduleInfo.ModulePath, call.Base, call.Attr)
        | none => none
      | none => none
    viaSelf <|> viaModule <|> viaFrom <|> viaClass
  else none

/-! ## Seeds -/

/-- Go `getEntrySeeds`.  Ranging over a map follows the order of the association list. -/
def getEntrySeeds (moduleInfo : ModuleInfo) (entryObject entryClass entryMethod : String) :
    List Triple :=
  if entryClass ≠ "" then
    if entryMethod ≠ "" then
      match mapGet moduleInfo.Classes entryClass with
      | some methods =>
        match mapGet methods entryMethod with
        | some _ => [(moduleInfo.ModulePath, entryClass, entryMethod)]
        | none => []
      | none => []
    else
      match mapGet moduleInfo.Classes entryClass with
      | some methods => methods.map (fun m => (moduleInfo.ModulePath, entryClass, m.1))
      | none => []
  else if entryObject = "" then
    moduleInfo.Functions.map (fun f => (moduleInfo.ModulePath, "", f.1)) ++
      moduleInfo.Classes.flatMap
        (fun c => c.2.map (fun m => (moduleInfo.ModulePath, c.1, m.1)))
  else
    match mapGet moduleInfo.Functions entryObject with
    | some _ => [(moduleInfo.ModulePath, "", entryObject)]
    | none =>
      match mapGet moduleInfo.Classes entryObject with
      | some methods => methods.map (fun m => (moduleInfo.ModulePath, entryObject, m.1))
      | none => []

/-! ## The traversal -/

/-- Go `funcClassPrefix`. -/
def funcClassPrefix (className : String) : String :=
  if className = "" then "" else className ++ "."

/-- The closure `getModuleInfo` of Go `collectModelsForEntrypoint`.  The Go closure keeps the
result in `moduleCache`; parsing is a function of the path, so the cache only saves work and
is not part of the state here. -/
def getModuleInfo (fs : FileSystem) (moduleMap : List (String × String)) (path : String) :
    Except String ModuleInfo :=
  parseModule fs path ((mapGet moduleMap path).getD "")

/-- The lookup of `funcNode` in the loop of Go `collectModelsForEntrypoint`; `none` is the
nil node. -/
def findBody (moduleInfo : ModuleInfo) (className funcName : String) : Option Node :=
  if className ≠ "" then
    match mapGet moduleInfo.Classes className with
    | some methods => mapGet methods funcName
    | none => none
  else mapGet moduleInfo.Functions funcName

/-- The body of the loop `for model := range foundModels` of the traversal. -/
def recordModel (usageKey : String) (acc : List ModelRef × List (ModelRef × List String))
    (model : ModelRef) : List ModelRef × List (ModelRef × List String) :=
  (setAdd acc.1 model, mapSet acc.2 model (setAdd ((mapGet acc.2 model).getD []) usageKey))

/-- The targets the loop over the calls of a body appends to the queue, in order. -/
def enqueueTargets (calls : List CallTarget) (moduleInfo : ModuleInfo)
    (moduleMap : List (String × String)) (className : String) : List Triple :=
  calls.filterMap (fun call =>
    match resolveCallTarget call moduleInfo moduleMap className with
    | none => none
    | some target =>
      if target.2.2 = "" then none
      else
        match mapGet moduleMap target.1 with
        | some _ => some target
        | none => none)

/-- The variables of the loop of Go `collectModelsForEntrypoint`.  `analysed` is a ghost
variable: it logs, in order, the triples whose body reached `analyzeFunctionModels`; nothing
else reads it. -/
structure State where
  queue : List Triple
  visited : List Triple
  models : List ModelRef
  modelUsage : List (ModelRef × List String)
  errors : List String
  analysed : List Triple

/-- One iteration of the loop `for len(queue) > 0` of Go `collectModelsForEntrypoint`.
`calls` is the call extractor, `analyzeFunctionCalls` in the program. -/
def step (calls : Node → List CallTarget) (fs : FileSystem)
    (moduleMap : List (String × String)) (s : State) : State :=
  match s.queue with
  | [] => s
  | current :: queue =>
    let s := { s with queue := queue }
    let moduleName := current.1
    let className := current.2.1
    let funcName := current.2.2
    if funcName = "" then s
    else if (moduleName, className, funcName) ∈ s.visited then s
    else
      let s := { s with visited := (moduleName, className, funcName) :: s.visited }
      match mapGet moduleMap moduleName with
      | none => s
      | some _ =>
        match getModuleInfo fs moduleMap moduleName with
        | .error e => { s with errors := s.errors ++ [e] }
        | .ok moduleInfo =>
          match findBody moduleInfo className funcName with
          | none =>
            { s with errors := s.errors ++
                ["Function not found: " ++ moduleName ++ ":" ++ className ++ "." ++ funcName] }
          | some funcNode =>
            let foundModels := analyzeFunctionModels funcNode moduleInfo moduleMap
            let usageKey := moduleInfo.ModulePath ++ ":" ++ funcClassPrefix className ++ funcName
            let acc := foundModels.foldl (recordModel usageKey) (s.models, s.modelUsage)
            { s with
              models := acc.1
              modelUsage := acc.2
              queue := s.queue ++ enqueueTargets (calls funcNode) moduleInfo moduleMap className
              analysed := s.analysed ++ [(moduleName, className, funcName)] }

/-- The loop `for len(queue) > 0`, run for at most `fuel` iterations. -/
def loop (calls : Node → List CallTarget) (fs : FileSystem)
    (moduleMap : List (String × String)) : Nat → State → State
  | 0, s => s
  | fuel + 1, s =>
    match s.queue with
    | [] => s
    | _ :: _ => loop calls fs moduleMap fuel (step calls fs moduleMap s)

/-- The triples of one module that have a body, with the number of calls of each body. -/
def moduleBodies (calls : Node → List CallTarget) (moduleInfo : ModuleInfo) (path : String) :
    List (Triple × Nat) :=
  moduleInfo.Functions.map (fun f => ((path, "", f.1), (calls f.2).length)) ++
    moduleInfo.Classes.flatMap
      (fun c => c.2.map (fun m => ((path, c.1, m.1), (calls m.2).length)))

/-- The triples of the indexed modules that have a body, with the number of calls of each. -/
def allBodies (calls : Node → List CallTarget) (fs : FileSystem)
    (moduleMap : List (String × String)) : List (Triple × Nat) :=
  moduleMap.flatMap (fun entry =>
    match getModuleInfo fs moduleMap entry.1 with
    | .error _ => []
    | .ok moduleInfo => moduleBodies calls moduleInfo entry.1)

/-- A number of iterations after which the queue of the traversal is empty: every seed is
popped once, and every call of every body is enqueued at most once. -/
def traversalFuel (calls : Node → List CallTarget) (fs : FileSystem)
    (moduleMap : List (String × String)) (seeds : List Triple) : Nat :=
  seeds.length + ((allBodies calls fs moduleMap).map Prod.snd).sum

/-- The state in which the loop starts. -/
def initState (seeds : List Triple) : State :=
  { queue := seeds, visited := [], models := [], modelUsage := [], errors := [], analysed := [] }

/-- The loop of Go `collectModelsForEntrypoint` from a list of seeds, with the call extractor
as a parameter. -/
def traverseWith (calls : Node → List CallTarget) (fs : FileSystem)
    (moduleMap : List (String × String)) (seeds : List Triple) : State :=
  loop calls fs moduleMap (traversalFuel calls fs moduleMap seeds) (initState seeds)

/-- The loop of Go `collectModelsForEntrypoint` from a list of seeds. -/
def traverse (fs : FileSystem) (moduleMap : List (String × String)) (seeds : List Triple) :
    State :=
  traverseWith analyzeFunctionCalls fs moduleMap seeds

/-- The order in which one run enumerates the seeds.  `getEntrySeeds` ranges over Go maps,
whose iteration order is unspecified, so a run sees some rearrangement of the list the
association lists yield. -/
structure SeedOrder where
  apply : List Triple → List Triple
  perm : ∀ l, (apply l).Perm l

/-- The run that enumerates the maps in the order of the association lists. -/
def SeedOrder.id : SeedOrder :=
  ⟨fun l => l, fun l => List.Perm.refl l⟩

/-- The run that enumerates the maps in the opposite order. -/
def SeedOrder.reversed : SeedOrder :=
  ⟨List.reverse, fun l => List.reverse_perm l⟩

/-- Go `resolveEntrypointModule`.  `pathLookup` stands for the second half of the function,
which treats the spec as a file path and looks it up in the reverse map. -/
def resolveEntrypointModule (moduleSpec : String) (moduleMap : List (String × String))
    (pathLookup : String → Option String) : Option String :=
  if moduleSpec = "" then none
  else
    match mapGet moduleMap moduleSpec with
    | some _ => some moduleSpec
    | none => pathLookup moduleSpec

/-- What Go `collectModelsForEntrypoint` returns. -/
structure Result where
  models : List ModelRef
  modelUsage : List (ModelRef × List String)
  errors : List String

/-- The module spec and the object spec of an entrypoint. -/
def splitEntrypoint (entrypoint : String) : String × String :=
  if Strings.Contains entrypoint ":" then
    match Strings.SplitN2 entrypoint ":" with
    | [a, b] => (a, b)
    | _ => (entrypoint, "")
  else (entrypoint, "")

/-- The object, class and method of an object spec. -/
def splitObject (entryObject : String) : String × String × String :=
  if entryObject ≠ "" ∧ Strings.Contains entryObject "::" then
    match Strings.SplitN2 entryObject "::" with
    | [a, b] => ("", a, b)
    | _ => (entryObject, "", "")
  else (entryObject, "", "")

/-- The module path Go `collectModelsForEntrypoint` looks up for an entrypoint. -/
def entryModulePath (moduleMap : List (String × String)) (pathLookup : String → Option String)
    (entrypoint : String) : String :=
  match resolveEntrypointModule (splitEntrypoint entrypoint).1 moduleMap pathLookup with
  | some resolved => resolved
  | none => (splitEntrypoint entrypoint).1

/-- The label of the entry object in the diagnostic of an empty seed list. -/
def entryLabel (entryObject entryClass entryMethod : String) : String :=
  let label :=
    if entryClass ≠ "" then
      if entryMethod ≠ "" then entryClass ++ "::" ++ entryMethod else entryClass
    else entryObject
  if label = "" then "(module)" else label

/-- Go `collectModelsForEntrypoint`, given the module map that `buildModuleMap` found under
the source root. -/
def collectModelsForEntrypoint (fs : FileSystem) (moduleMap : List (String × String))
    (pathLookup : String → Option String) (order : SeedOrder) (entrypoint : String) : Result :=
  let moduleSpec := (splitEntrypoint entrypoint).1
  let modulePath := entryModulePath moduleMap pathLookup entrypoint
  match mapGet moduleMap modulePath with
  | none => ⟨[], [], ["Module not found: " ++ moduleSpec]⟩
  | some _ =>
    let entry := splitObject (splitEntrypoint entrypoint).2
    match getModuleInfo fs moduleMap modulePath with
    | .error e => ⟨[], [], [e]⟩
    | .ok entryModule =>
      let seeds := order.apply (getEntrySeeds entryModule entry.1 entry.2.1 entry.2.2)
      if seeds.length = 0 then
        ⟨[], [], ["Entrypoint object not found: " ++ entryLabel entry.1 entry.2.1 entry.2.2 ++
          " in " ++ modulePath]⟩
      else
        let final := traverse fs moduleMap seeds
        ⟨final.models, final.modelUsage, final.errors⟩

/-! ## Output -/

/-- Insertion into a sorted list. -/
def insertSorted {A : Type} (less : A → A → Bool) (x : A) : List A → List A
  | [] => [x]
  | y :: ys => if less x y then x :: y :: ys else y :: insertSorted less x ys

/-- The result of Go `sort.Slice` on a list without repetition under a total order: the
sorted rearrangement. -/
def sortBy {A : Type} (less : A → A → Bool) (l : List A) : List A :=
  l.foldr (insertSorted less) []

/-- The comparison Go `main` sorts the models with.  Go compares strings byte by byte; on
valid UTF-8 that is the order of the code points. -/
def modelLess (a b : ModelRef) : Bool :=
  if a.Module = b.Module then decide (a.Name < b.Name) else decide (a.Module < b.Module)

/-- The lines Go `main` prints for one model. -/
def modelLines (explain : Bool) (modelUsage : List (ModelRef × List String))
    (model : ModelRef) : List String :=
  if explain then
    let usageList := sortBy (fun a b => decide (a < b)) ((mapGet modelUsage model).getD [])
    if usageList.length = 0 then [model.String, "  - (unknown)"]
    else model.String :: usageList.map (fun item => "  - " ++ item)
  else [model.String]

/-- What a run leaves behind: the lines on standard output and the exit code. -/
structure Output where
  stdout : List String
  exitCode : Nat
deriving DecidableEq, Repr

/-- The part of Go `main` that follows the call of `collectModelsForEntrypoint`. -/
def report (explain : Bool) (r : Result) : Output :=
  if r.errors.length > 0 then ⟨r.errors.map (fun err => "ERROR: " ++ err), 2⟩
  else ⟨(sortBy modelLess r.models).flatMap (modelLines explain r.modelUsage), 0⟩

/-- Go `main` after `flag.Parse`: `entrypoint` and `explain` are the values of the flags and
`nArg` is `flag.NArg()`.  The module map is the one `buildModuleMap` finds under the root.
What the program writes to standard error (the usage text, and the line
`ERROR: --entrypoint is required`) is not part of `Output`. -/
def main (fs : FileSystem) (moduleMap : List (String × String))
    (pathLookup : String → Option String) (order : SeedOrder) (entrypoint : String)
    (explain : Bool) (nArg : Nat) : Output :=
  if nArg = 0 ∧ entrypoint = "" then ⟨[], 0⟩
  else if entrypoint = "" then ⟨[], 2⟩
  else report explain (collectModelsForEntrypoint fs moduleMap pathLookup order entrypoint)

end Modex

/-! ## Definitions used to state the properties -/

namespace Modex

/-- The dot-separated pieces of a character list, by plain recursion. -/
def pieces : List Char → List (List Char)
  | [] => [[]]
  | c :: cs =>
    if c = '.' then [] :: pieces cs
    else
      match pieces cs with
      | h :: t => (c :: h) :: t
      | [] => [[c]]

/-- The components of a dotted path; the empty path has none. -/
def components (p : String) : List String :=
  if p = "" then [] else (pieces p.data).map String.mk

/-- The base path of a relative import, in the words of the specification: the module's
own path for a package, else the path without its last component. -/
def specBase (current : String) (isPackage : Bool) : String :=
  if isPackage then current else Strings.Join (components current).dropLast "."

/-- The components of the target of a relative import, in the words of the specification:
those of the base without the last `level - 1`, followed by those of the imported path. -/
def specParts (current module : String) (level : Nat) (isPackage : Bool) : List String :=
  ((components (specBase current isPackage)).reverse.drop (level - 1)).reverse ++
    components module

/-- Reference definition of relative-import resolution, in the words of the specification. -/
def resolveRelativeImportSpec (current module : String) (level : Nat) (isPackage : Bool) :
    String :=
  if level = 0 then module
  else if level - 1 > (components (specBase current isPackage)).length then ""
  else Strings.Join (specParts current module level isPackage) "."

/-- The value the last entry of key `k` in a list of bindings gives it, if any. -/
def lastBinding {V : Type} : List (String × V) → String → Option V
  | [], _ => none
  | (k, v) :: rest, key =>
    match lastBinding rest key with
    | some w => some w
    | none => if k = key then some v else none

/-- The bindings one `import` statement adds to the plain-import table, in order. -/
def plainBindings (n : Node) : List (String × String) :=
  if n.type = "import_statement" then
    (parseImportStatement n.text).map (fun entry => (entry.asname, entry.Name))
  else []

/-- The bindings one `from ... import` statement adds to the from-import table, in order. -/
def fromBindings (moduleInfo : ModuleInfo) (n : Node) : List (String × ImportFromTarget) :=
  if n.type = "import_from_statement" then
    match parseImportFromStatement n.text with
    | none => []
    | some (module, level, aliases) =>
      if module = "" ∧ level = 0 then []
      else if resolveRelativeImport moduleInfo.ModulePath module level moduleInfo.IsPackage = ""
      then []
      else
        (aliases.filter (fun entry => entry.Name ≠ "*")).map (fun entry =>
          (entry.asname,
            ⟨resolveRelativeImport moduleInfo.ModulePath module level moduleInfo.IsPackage,
              entry.Name⟩))
  else []

/-- The plain-import table Go `analyzeFunctionModels` resolves a body with: the module-level
table, then the table of the function node copied over it. -/
def mergedModuleImports (functionNode : Node) (moduleInfo : ModuleInfo) :
    List (String × String) :=
  mapCopy (mapCopy [] moduleInfo.ModuleImports) (collectImports functionNode moduleInfo).1

/-- The from-import table Go `analyzeFunctionModels` resolves a body with. -/
def mergedFromImports (functionNode : Node) (moduleInfo : ModuleInfo) :
    List (String × ImportFromTarget) :=
  mapCopy (mapCopy [] moduleInfo.FromImports) (collectImports functionNode moduleInfo).2

/-- The import statements under a node, in document order. -/
def statementsOf (node : Node) : List Node :=
  (walk node).map Visit.node

/-- The module data and the body the loop of the traversal finds for a triple: the module
is a key of the module map, it loads, and its function or class index has the entry. -/
def bodyOf (fs : FileSystem) (moduleMap : List (String × String)) (t : Triple) :
    Option (ModuleInfo × Node) :=
  match mapGet moduleMap t.1 with
  | none => none
  | some _ =>
    match getModuleInfo fs moduleMap t.1 with
    | .error _ => none
    | .ok moduleInfo =>
      match findBody moduleInfo t.2.1 t.2.2 with
      | none => none
      | some funcNode => some (moduleInfo, funcNode)

/-- The edge relation of the call graph: `u` is the result of `resolveCallTarget` on one of
the calls extracted from the body of `t`. -/
def callEdge (calls : Node → List CallTarget) (fs : FileSystem)
    (moduleMap : List (String × String)) (t u : Triple) : Prop :=
  ∃ moduleInfo funcNode call, bodyOf fs moduleMap t = some (moduleInfo, funcNode) ∧
    call ∈ calls funcNode ∧ resolveCallTarget call moduleInfo moduleMap t.2.1 = some u

/-- The triples reachable from the seeds along the edges of the call graph. -/
inductive Reachable (calls : Node → List CallTarget) (fs : FileSystem)
    (moduleMap : List (String × String)) (seeds : List Triple) : Triple → Prop
  | seed (t : Triple) : t ∈ seeds → Reachable calls fs moduleMap seeds t
  | step (t u : Triple) : Reachable calls fs moduleMap seeds t →
      callEdge calls fs moduleMap t u → Reachable calls fs moduleMap seeds u

/-- The targets the traversal enqueues when it analyses a triple. -/
def succs (calls : Node → List CallTarget) (fs : FileSystem)
    (moduleMap : List (String × String)) (t : Triple) : List Triple :=
  match bodyOf fs moduleMap t with
  | none => []
  | some (moduleInfo, funcNode) => enqueueTargets (calls funcNode) moduleInfo moduleMap t.2.1

/-- The models `analyzeFunctionModels` finds in the body of a triple. -/
def modelsOf (fs : FileSystem) (moduleMap : List (String × String)) (t : Triple) :
    List ModelRef :=
  match bodyOf fs moduleMap t with
  | none => []
  | some (moduleInfo, funcNode) => analyzeFunctionModels funcNode moduleInfo moduleMap

/-- The usage key `module:[Class.]function` of a triple. -/
def usageKeyOf (t : Triple) : String :=
  t.1 ++ ":" ++ funcClassPrefix t.2.1 ++ t.2.2

/-- The diagnostic the traversal records when it visits a triple, if any. -/
def errorOf (fs : FileSystem) (moduleMap : List (String × String)) (t : Triple) :
    Option String :=
  match mapGet moduleMap t.1 with
  | none => none
  | some _ =>
    match getModuleInfo fs moduleMap t.1 with
    | .error e => some e
    | .ok moduleInfo =>
      match findBody moduleInfo t.2.1 t.2.2 with
      | none => some ("Function not found: " ++ t.1 ++ ":" ++ t.2.1 ++ "." ++ t.2.2)
      | some _ => none

/-- The seeds `getEntrySeeds` yields for an entrypoint, in the order of the association
lists; empty when the entry module is unknown or does not load. -/
def entrySeeds (fs : FileSystem) (moduleMap : List (String × String))
    (pathLookup : String → Option String) (entrypoint : String) : List Triple :=
  match mapGet moduleMap (entryModulePath moduleMap pathLookup entrypoint) with
  | none => []
  | some _ =>
    match getModuleInfo fs moduleMap (entryModulePath moduleMap pathLookup entrypoint) with
    | .error _ => []
    | .ok entryModule =>
      getEntrySeeds entryModule (splitObject (splitEntrypoint entrypoint).2).1
        (splitObject (splitEntrypoint entrypoint).2).2.1
        (splitObject (splitEntrypoint entrypoint).2).2.2

/-- The seeds `getEntrySeeds` yields for the object spec of an entrypoint, the part after
the first colon. -/
def seedsOfObject (moduleInfo : ModuleInfo) (object : String) : List Triple :=
  getEntrySeeds moduleInfo (splitObject object).1 (splitObject object).2.1
    (splitObject object).2.2

/-- The weight of the bodies not yet visited: the calls that may still be enqueued. -/
def pendingCalls (bodies : List (Triple × Nat)) (visited : List Triple) : Nat :=
  ((bodies.filter (fun e => decide (e.1 ∉ visited))).map Prod.snd).sum

/-- The measure that bounds the remaining iterations of the traversal. -/
def remaining (calls : Node → List CallTarget) (fs : FileSystem)
    (moduleMap : List (String × String)) (s : State) : Nat :=
  s.queue.length + pendingCalls (allBodies calls fs moduleMap) s.visited

/-- How many times the body of a triple reached `analyzeFunctionModels` in a run. -/
def timesAnalysed (s : State) (t : Triple) : Nat :=
  s.analysed.countP (fun u => decide (u = t))

/-- The invariant of the loop of the traversal. -/
structure Inv (calls : Node → List CallTarget) (fs : FileSystem)
    (moduleMap : List (String × String)) (seeds : List Triple) (s : State) : Prop where
  queue_reach : ∀ t ∈ s.queue, Reachable calls fs moduleMap seeds t
  vis_reach : ∀ t ∈ s.visited, Reachable calls fs moduleMap seeds t ∧ t.2.2 ≠ ""
  vis_nodup : s.visited.Nodup
  closed : ∀ t ∈ s.visited, ∀ u ∈ succs calls fs moduleMap t, u ∈ s.visited ∨ u ∈ s.queue
  seeds_cov : ∀ t ∈ seeds, t.2.2 ≠ "" → t ∈ s.visited ∨ t ∈ s.queue
  analysed_eq :
    s.analysed = s.visited.reverse.filter (fun t => (bodyOf fs moduleMap t).isSome)
  errors_eq : s.errors = s.visited.reverse.filterMap (errorOf fs moduleMap)
  models_iff : ∀ r, r ∈ s.models ↔ ∃ t ∈ s.analysed, r ∈ modelsOf fs moduleMap t
  usage_iff : ∀ r k, k ∈ (mapGet s.modelUsage r).getD [] ↔
    ∃ t ∈ s.analysed, r ∈ modelsOf fs moduleMap t ∧ k = usageKeyOf t

/-- The second invariant of the loop of the traversal: the model set and the usage index
are sets, and the usage index has one entry for each model. -/
structure ModelsInv (s : State) : Prop where
  models_nodup : s.models.Nodup
  keys_nodup : (s.modelUsage.map Prod.fst).Nodup
  keys_iff : ∀ r, r ∈ s.modelUsage.map Prod.fst ↔ r ∈ s.models
  usage_nodup : ∀ e ∈ s.modelUsage, e.2.Nodup

/-- The class name and the function name of a triple contain neither a dot nor a colon. -/
def plainNames (t : Triple) : Prop :=
  '.' ∉ t.2.1.data ∧ ':' ∉ t.2.1.data ∧ '.' ∉ t.2.2.data ∧ ':' ∉ t.2.2.data

/-- No key of the function index or of a method index is the empty string. -/
def namedKeys (st : List (String × Node) × List (String × List (String × Node))) : Prop :=
  (∀ e ∈ st.1, e.1 ≠ "") ∧ (∀ c ∈ st.2, ∀ e ∈ c.2, e.1 ≠ "")

/-- No key occurs twice in the function index, in the class index, or in a method index. -/
def uniqueKeys (st : List (String × Node) × List (String × List (String × Node))) : Prop :=
  (st.1.map Prod.fst).Nodup ∧ (st.2.map Prod.fst).Nodup ∧
    ∀ c ∈ st.2, (c.2.map Prod.fst).Nodup

/-- What the walk of `collectDefinitions` records: the entry of a class, or a function
definition together with the class context in which the walk meets it. -/
inductive DefEvent where
  | cls (name : String) : DefEvent
  | func (currentClass : String) (node : Node) : DefEvent

mutual
/-- The records of the walk of `collectDefinitions` under a node, in document order. -/
def defEvents : Node → String → List DefEvent
  | .mk ty tx cs, currentClass =>
    if ty = "decorated_definition" then
      match childByFieldName cs "definition" with
      | some _ => defEventsField cs currentClass
      | none => defEventsList cs currentClass
    else if ty = "class_definition" then
      .cls (nodeText (childByFieldName cs "name")) ::
        defEventsList cs (nodeText (childByFieldName cs "name"))
    else if ty = "function_definition" then
      .func currentClass (.mk ty tx cs) :: defEventsList cs currentClass
    else defEventsList cs currentClass
/-- The records under the children of a node. -/
def defEventsList : List (String × Node) → String → List DefEvent
  | [], _ => []
  | (_, c) :: rest, currentClass => defEvents c currentClass ++ defEventsList rest currentClass
/-- The records under the child held under field `definition`. -/
def defEventsField : List (String × Node) → String → List DefEvent
  | [], _ => []
  | (f, c) :: rest, currentClass =>
    if f = "definition" then defEvents c currentClass else defEventsField rest currentClass
end

/-- The effect of one record on the two indexes. -/
def applyEvent (st : List (String × Node) × List (String × List (String × Node))) :
    DefEvent → List (String × Node) × List (String × List (String × Node))
  | .cls name => recordClass name st
  | .func currentClass node => recordFunction node currentClass st

/-- The name of a function definition, the text of its `name` child. -/
def defName (node : Node) : String :=
  nodeText (childByFieldName node.children "name")

/-- The bindings the records add to the function index: the named function definitions met
outside every class context, in document order. -/
def functionBindings : List DefEvent → List (String × Node)
  | [] => []
  | .cls _ :: rest => functionBindings rest
  | .func currentClass node :: rest =>
    if currentClass = "" ∧ defName node ≠ "" then (defName node, node) :: functionBindings rest
    else functionBindings rest

/-- Every body in the function index and in the method indexes satisfies `S`. -/
def bodiesAmong (S : Node → Prop)
    (st : List (String × Node) × List (String × List (String × Node))) : Prop :=
  (∀ e ∈ st.1, S e.2) ∧ (∀ c ∈ st.2, ∀ e ∈ c.2, S e.2)

/-! ### Example trees -/

namespace Example

/-- An `identifier` node. -/
def ident (t : String) : Node :=
  .mk "identifier" t []

/-- An anonymous token node; its type is its text. -/
def tok (t : String) : Node :=
  .mk t t []

/-- A `module` node with the given statements. -/
def moduleOf (text : String) (stmts : List Node) : Node :=
  .mk "module" text (stmts.map (fun n => ("", n)))

/-- The statement `from . import sibling`. -/
def fromDotImportSibling : Node :=
  .mk "import_from_statement" "from . import sibling"
    [("", tok "from"),
     ("module_name", .mk "relative_import" "." [("", .mk "import_prefix" "." [("", tok ".")])]),
     ("", tok "import"),
     ("name", .mk "dotted_name" "sibling" [("", ident "sibling")])]

/-- The statement `from .. import other`. -/
def fromDotDotImportOther : Node :=
  .mk "import_from_statement" "from .. import other"
    [("", tok "from"),
     ("module_name", .mk "relative_import" ".."
       [("", .mk "import_prefix" ".." [("", tok "."), ("", tok ".")])]),
     ("", tok "import"),
     ("name", .mk "dotted_name" "other" [("", ident "other")])]

/-- A source tree with the relative imports of the examples: `from . import sibling` in
`pkg/__init__.py`, `pkg/sub/__init__.py` and `pkg/sub.py`, and `from .. import other` in
`pkg/sub/mod.py`. -/
def relFs : FileSystem := fun path =>
  if path = "pkg/__init__.py" ∨ path = "pkg/sub/__init__.py" ∨ path = "pkg/sub.py" then
    .ok (moduleOf "from . import sibling" [fromDotImportSibling])
  else if path = "pkg/sub/mod.py" then
    .ok (moduleOf "from .. import other" [fromDotDotImportOther])
  else .error "no such file"

/-- A statement `from <module> import <name>`. -/
def fromImport (module name : String) : Node :=
  .mk "import_from_statement" ("from " ++ module ++ " import " ++ name)
    [("", tok "from"),
     ("module_name", .mk "dotted_name" module []),
     ("", tok "import"),
     ("name", .mk "dotted_name" name [("", ident name)])]

/-- A function `def <name>(): <stmts>` without parameters. -/
def funcDef (name : String) (stmts : List Node) : Node :=
  .mk "function_definition" ("def " ++ name ++ "(): ...")
    [("", tok "def"),
     ("name", ident name),
     ("parameters", .mk "parameters" "()" [("", tok "("), ("", tok ")")]),
     ("", tok ":"),
     ("body", .mk "block" "..." (stmts.map (fun n => ("", n))))]

/-- A statement `return <expr>`. -/
def returnStmt (expr : Node) : Node :=
  .mk "return_statement" ("return " ++ expr.text) [("", tok "return"), ("", expr)]

/-- An attribute access `<base>.<attr>` on a name. -/
def attrOf (base attr : String) : Node :=
  .mk "attribute" (base ++ "." ++ attr)
    [("object", ident base), ("", tok "."), ("attribute", ident attr)]

/-- The function `def show(): return user.User`. -/
def showNode : Node :=
  funcDef "show" [returnStmt (attrOf "user" "User")]

/-- The module `app.views`: `from app.models import user`, then `show`. -/
def viewsInfo : ModuleInfo :=
  buildModuleInfo "app.views" "app/views.py"
    (moduleOf "..." [fromImport "app.models" "user", showNode])

/-- A module map with the package `app.models`, its module `user`, and `app.views`. -/
def viewsMap : List (String × String) :=
  [("app.models", "app/models/__init__.py"), ("app.models.user", "app/models/user.py"),
   ("app.views", "app/views.py")]

/-- The function `def f(): from app.models.b import User; return User`. -/
def localB : Node :=
  funcDef "f" [fromImport "app.models.b" "User", returnStmt (ident "User")]

/-- The function `def g(): from app.models.c import User; return User`. -/
def localC : Node :=
  funcDef "g" [fromImport "app.models.c" "User", returnStmt (ident "User")]

/-- The module `app.handlers`: `from app.models.a import User`, then `f` and `g`. -/
def handlersInfo : ModuleInfo :=
  buildModuleInfo "app.handlers" "app/handlers.py"
    (moduleOf "..." [fromImport "app.models.a" "User", localB, localC])

/-- A statement `<name>()`: a call of a bare name. -/
def callStmt (name : String) : Node :=
  .mk "expression_statement" (name ++ "()")
    [("", .mk "call" (name ++ "()")
      [("function", ident name),
       ("arguments", .mk "argument_list" "()" [("", tok "("), ("", tok ")")])])]

/-- A class `class <name>: pass`. -/
def classDef (name : String) : Node :=
  .mk "class_definition" ("class " ++ name ++ ": pass")
    [("", tok "class"), ("name", ident name), ("", tok ":"),
     ("body", .mk "block" "pass" [("", .mk "pass_statement" "pass" [("", tok "pass")])])]

/-- The tree of `app/models/user.py`: `class User: pass`. -/
def userTree : Node :=
  moduleOf "class User: pass" [classDef "User"]

/-- The function `def load(id): return User.objects.get(id)`. -/
def loadNode : Node :=
  .mk "function_definition" "def load(id): return User.objects.get(id)"
    [("", tok "def"),
     ("name", ident "load"),
     ("parameters", .mk "parameters" "(id)" [("", tok "("), ("", ident "id"), ("", tok ")")]),
     ("", tok ":"),
     ("body", .mk "block" "return User.objects.get(id)"
       [("", .mk "return_statement" "return User.objects.get(id)"
         [("", tok "return"),
          ("", .mk "call" "User.objects.get(id)"
            [("function", .mk "attribute" "User.objects.get"
              [("object", attrOf "User" "objects"), ("", tok "."), ("attribute", ident "get")]),
             ("arguments", .mk "argument_list" "(id)"
               [("", tok "("), ("", ident "id"), ("", tok ")")])])])])]

/-- The tree of `app/service.py`: `from app.models.user import User`, then `load`. -/
def serviceTree : Node :=
  moduleOf "..." [fromImport "app.models.user" "User", loadNode]

/-- The source tree of the scenario: `app/models/user.py` and `app/service.py`. -/
def scenarioFs : FileSystem := fun path =>
  if path = "app/models/user.py" then .ok userTree
  else if path = "app/service.py" then .ok serviceTree
  else .error "no such file"

/-- The module map of the scenario. -/
def scenarioMap : List (String × String) :=
  [("app.models.user", "app/models/user.py"), ("app.service", "app/service.py")]

/-- A source tree with mutual recursion: `m.py` holds `def A(): B()` and `def B(): A()`. -/
def mutualFs : FileSystem := fun path =>
  if path = "m.py" then
    .ok (moduleOf "..." [funcDef "A" [callStmt "B"], funcDef "B" [callStmt "A"]])
  else .error "no such file"

/-- The module map of the mutual recursion. -/
def mutualMap : List (String × String) :=
  [("m", "m.py")]

/-- A source tree with two calls that find no function: `app/service.py` holds
`from app.a import U`, `from app.b import V`, `def f(): U()` and `def g(): V()`, where
`U` and `V` are classes of `app/a.py` and `app/b.py`. -/
def twoErrorsFs : FileSystem := fun path =>
  if path = "app/service.py" then
    .ok (moduleOf "..." [fromImport "app.a" "U", fromImport "app.b" "V",
      funcDef "f" [callStmt "U"], funcDef "g" [callStmt "V"]])
  else if path = "app/a.py" then .ok (moduleOf "class U: pass" [classDef "U"])
  else if path = "app/b.py" then .ok (moduleOf "class V: pass" [classDef "V"])
  else .error "no such file"

/-- The module map of the two calls that find no function. -/
def twoErrorsMap : List (String × String) :=
  [("app.a", "app/a.py"), ("app.b", "app/b.py"), ("app.service", "app/service.py")]

/-- A source tree with two functions that read a model each: `app/jobs.py` holds
`from app.models.a import A`, `from app.models.b import B`, `def f(): g(); return A`
and `def g(): return B`. -/
def jobsFs : FileSystem := fun path =>
  if path = "app/jobs.py" then
    .ok (moduleOf "..." [fromImport "app.models.a" "A", fromImport "app.models.b" "B",
      funcDef "f" [callStmt "g", returnStmt (ident "A")], funcDef "g" [returnStmt (ident "B")]])
  else .error "no such file"

/-- The module map of the two functions that read a model each. -/
def jobsMap : List (String × String) :=
  [("app.jobs", "app/jobs.py")]

/-- A class `class <name>:` with the given statements as its body. -/
def classWith (name : String) (stmts : List Node) : Node :=
  .mk "class_definition" ("class " ++ name ++ ": ...")
    [("", tok "class"), ("name", ident name), ("", tok ":"),
     ("body", .mk "block" "..." (stmts.map (fun n => ("", n))))]

/-- A statement `pass`. -/
def passStmt : Node :=
  .mk "pass_statement" "pass" [("", tok "pass")]

/-- The tree of `pkg/service.py`: class `Handler` with the methods `get` and `post`. -/
def handlerTree : Node :=
  moduleOf "..." [classWith "Handler" [funcDef "get" [passStmt], funcDef "post" [passStmt]]]

/-- The module `pkg.service`. -/
def handlerInfo : ModuleInfo :=
  buildModuleInfo "pkg.service" "pkg/service.py" handlerTree

/-- A source tree that holds `pkg/service.py`. -/
def handlerFs : FileSystem := fun path =>
  if path = "pkg/service.py" then .ok handlerTree else .error "no such file"

/-- The module map of the source tree that holds `pkg/service.py`. -/
def handlerMap : List (String × String) :=
  [("pkg.service", "pkg/service.py")]

/-- A source tree in which two functions read the same model: `app/shared.py` holds
`from app.models.a import A`, `def f(): g(); return A` and `def g(): return A`. -/
def sharedFs : FileSystem := fun path =>
  if path = "app/shared.py" then
    .ok (moduleOf "..." [fromImport "app.models.a" "A",
      funcDef "f" [callStmt "g", returnStmt (ident "A")], funcDef "g" [returnStmt (ident "A")]])
  else .error "no such file"

/-- The module map of the tree in which two functions read the same model. -/
def sharedMap : List (String × String) :=
  [("app.shared", "app/shared.py")]

/-- A function `def <name>(): <stmts>` whose node carries the given source text. -/
def funcDefText (name text : String) (stmts : List Node) : Node :=
  .mk "function_definition" text
    [("", tok "def"),
     ("name", ident name),
     ("parameters", .mk "parameters" "()" [("", tok "("), ("", tok ")")]),
     ("", tok ":"),
     ("body", .mk "block" "..." (stmts.map (fun n => ("", n))))]

/-- The tree of a module with a nested definition that has the name of a top-level one:
`def helper(): pass`, then `def outer():` with the nested `def helper(): return 1`. -/
def shadowTree : Node :=
  moduleOf "..."
    [funcDefText "helper" "def helper(): pass" [passStmt],
     funcDefText "outer" "def outer(): def helper(): return 1"
       [funcDefText "helper" "def helper(): return 1" [returnStmt (ident "one")]]]

/-- The tree of a module with a definition nested in a method: `class K:` with
`def m(self):` holding `def inner(): pass`. -/
def nestedMethodTree : Node :=
  moduleOf "..."
    [classWith "K"
      [funcDefText "m" "def m(self): def inner(): pass"
        [funcDefText "inner" "def inner(): pass" [passStmt]]]]

/-- The function `def f(x=DEFAULT): return g(key=VALUE)`. -/
def defaultParamNode : Node :=
  .mk "function_definition" "def f(x=DEFAULT): return g(key=VALUE)"
    [("", tok "def"),
     ("name", ident "f"),
     ("parameters", .mk "parameters" "(x=DEFAULT)"
       [("", tok "("),
        ("", .mk "default_parameter" "x=DEFAULT"
          [("name", ident "x"), ("", tok "="), ("value", ident "DEFAULT")]),
        ("", tok ")")]),
     ("", tok ":"),
     ("body", .mk "block" "return g(key=VALUE)"
       [("", .mk "return_statement" "return g(key=VALUE)"
         [("", tok "return"),
          ("", .mk "call" "g(key=VALUE)"
            [("function", ident "g"),
             ("arguments", .mk "argument_list" "(key=VALUE)"
               [("", tok "("),
                ("", .mk "keyword_argument" "key=VALUE"
                  [("name", ident "key"), ("", tok "="), ("value", ident "VALUE")]),
                ("", tok ")")])])])])]

/-- The function `def f(m=User): pass`. -/
def defaultModelNode : Node :=
  .mk "function_definition" "def f(m=User): pass"
    [("", tok "def"),
     ("name", ident "f"),
     ("parameters", .mk "parameters" "(m=User)"
       [("", tok "("),
        ("", .mk "default_parameter" "m=User"
          [("name", ident "m"), ("", tok "="), ("value", ident "User")]),
        ("", tok ")")]),
     ("", tok ":"),
     ("body", .mk "block" "pass" [("", passStmt)])]

/-- The module `app.forms`: `from app.models.user import User`, then `def f(m=User): pass`. -/
def formsInfo : ModuleInfo :=
  buildModuleInfo "app.forms" "app/forms.py"
    (moduleOf "..." [fromImport "app.models.user" "User", defaultModelNode])

/-- The from-import entry of an alias in the module parsed from a file. -/
def fromImportOf (fs : FileSystem) (modulePath filePath alias_ : String) :
    Option ImportFromTarget :=
  match parseModule fs modulePath filePath with
  | .ok info => mapGet info.FromImports alias_
  | .error _ => none

/-- A statement `import <name>`. -/
def plainImport (name : String) : Node :=
  .mk "import_statement" ("import " ++ name)
    [("", tok "import"), ("name", .mk "dotted_name" name [("", ident name)])]

/-- A statement holding the expression `<base>.<attr>`. -/
def attrStmt (base attr : String) : Node :=
  .mk "expression_statement" (base ++ "." ++ attr) [("", attrOf base attr)]

/-- The function `def setup(): ...` whose body holds three statements and nothing else:
`from app.models.user import User`, `from app.util import helper`, `import models`. -/
def setupNode : Node :=
  funcDef "setup"
    [fromImport "app.models.user" "User", fromImport "app.util" "helper", plainImport "models"]

/-- The function `def g(): helper(); models.Order; return User`, with no import of its
own. -/
def usesNode : Node :=
  funcDef "g" [callStmt "helper", attrStmt "models" "Order", returnStmt (ident "User")]

/-- The tree of `app/handlers.py` with no import at top level: `setup`, then `g`. -/
def nestedImportsTree : Node :=
  moduleOf "..." [setupNode, usesNode]

/-- The module `app.handlers` parsed from that tree. -/
def nestedImportsInfo : ModuleInfo :=
  buildModuleInfo "app.handlers" "app/handlers.py" nestedImportsTree

/-- A module map with `app.handlers`, `app.util` and `app.models.user`. -/
def nestedImportsMap : List (String × String) :=
  [("app.handlers", "app/handlers.py"), ("app.util", "app/util.py"),
   ("app.models.user", "app/models/user.py")]

/-- The module `app.views` where the name `user` is bound twice, by `import user` and then
by `from app.models import user`; then `show`. -/
def twiceBoundInfo : ModuleInfo :=
  buildModuleInfo "app.views" "app/views.py"
    (moduleOf "..." [plainImport "user", fromImport "app.models" "user", showNode])

end Example

end Modex

/-! ## Lemmas on splitting at dots -/

namespace Modex

theorem pieces_cons (c : Char) (cs : List Char) :
    pieces (c :: cs) =
      if c = '.' then [] :: pieces cs
      else
        match pieces cs with
        | h :: t => (c :: h) :: t
        | [] => [[c]] := by
  rw [pieces]

theorem pieces_ne_nil (s : List Char) : pieces s ≠ [] := by
  cases s with
  | nil => simp [pieces]
  | cons c cs =>
    rw [pieces_cons]
    split
    · simp
    · split <;> simp

theorem dot_isPrefixOf (c : Char) (cs : List Char) :
    List.isPrefixOf ['.'] (c :: cs) = decide (c = '.') := by
  by_cases h : c = '.'
  · subst h; simp [List.isPrefixOf]
  · have h2 : ¬ ('.' = c) := fun e => h e.symm
    simp [List.isPrefixOf, h, h2]

theorem splitAux_dot (s cur : List Char) :
    Strings.splitAux ['.'] 0 cur s =
      match pieces s with
      | h :: t => (cur.reverse ++ h) :: t
      | [] => [] := by
  induction s generalizing cur with
  | nil => simp [Strings.splitAux, pieces]
  | cons c cs ih =>
    unfold Strings.splitAux
    rw [dot_isPrefixOf, pieces_cons]
    have hlen : ['.'].length - 1 = 0 := rfl
    rw [hlen]
    cases hp : pieces cs with
    | nil => exact absurd hp (pieces_ne_nil cs)
    | cons a b =>
      by_cases h : c = '.'
      · simp only [h, decide_True, if_true]
        rw [ih, hp]
        simp
      · simp only [h, decide_False, Bool.false_eq_true, if_false]
        rw [ih, hp]
        simp

theorem splitAux_dot_nil (s : List Char) : Strings.splitAux ['.'] 0 [] s = pieces s := by
  rw [splitAux_dot]
  cases hp : pieces s with
  | nil => rfl
  | cons a b => simp

theorem pieces_no_dot (s : List Char) : ∀ x ∈ pieces s, '.' ∉ x := by
  induction s with
  | nil => simp [pieces]
  | cons c cs ih =>
    rw [pieces_cons]
    by_cases h : c = '.'
    · simp only [h, if_true]
      intro x hx
      rcases List.mem_cons.mp hx with rfl | hx
      · simp
      · exact ih x hx
    · simp only [h, if_false]
      cases hp : pieces cs with
      | nil => exact absurd hp (pieces_ne_nil cs)
      | cons a b =>
        rw [hp] at ih
        intro x hx
        rcases List.mem_cons.mp hx with rfl | hx
        · intro hmem
          rcases List.mem_cons.mp hmem with e | hmem
          · exact h e.symm
          · exact ih a (List.mem_cons_self _ _) hmem
        · exact ih x (List.mem_cons_of_mem _ hx)

theorem joinChars_pieces (s : List Char) : Strings.joinChars ['.'] (pieces s) = s := by
  induction s with
  | nil => simp [pieces, Strings.joinChars]
  | cons c cs ih =>
    rw [pieces_cons]
    by_cases h : c = '.'
    · simp only [h, if_true]
      cases hp : pieces cs with
      | nil => exact absurd hp (pieces_ne_nil cs)
      | cons a b =>
        rw [hp] at ih
        simp [Strings.joinChars, ih]
    · simp only [h, if_false]
      cases hp : pieces cs with
      | nil => exact absurd hp (pieces_ne_nil cs)
      | cons a b =>
        rw [hp] at ih
        cases b with
        | nil => simpa [Strings.joinChars] using ih
        | cons b1 b2 =>
          simp only [Strings.joinChars] at ih ⊢
          simp [ih]

theorem pieces_append_dot (a b : List Char) : pieces (a ++ '.' :: b) = pieces a ++ pieces b := by
  induction a with
  | nil => simp [pieces]
  | cons c cs ih =>
    simp only [List.cons_append]
    rw [pieces_cons, pieces_cons]
    by_cases h : c = '.'
    · simp [h, ih]
    · simp only [h, if_false]
      rw [ih]
      cases hp : pieces cs with
      | nil => exact absurd hp (pieces_ne_nil cs)
      | cons x y => simp

theorem pieces_of_no_dot (x : List Char) (h : '.' ∉ x) : pieces x = [x] := by
  induction x with
  | nil => simp [pieces]
  | cons c cs ih =>
    have hc : c ≠ '.' := fun e => h (by simp [e])
    have hcs : '.' ∉ cs := fun e => h (List.mem_cons_of_mem _ e)
    rw [pieces_cons]
    simp [hc, ih hcs]

theorem pieces_joinChars (parts : List (List Char)) (hne : parts ≠ [])
    (hdot : ∀ x ∈ parts, '.' ∉ x) : pieces (Strings.joinChars ['.'] parts) = parts := by
  induction parts with
  | nil => exact absurd rfl hne
  | cons x rest ih =>
    cases rest with
    | nil => simpa [Strings.joinChars] using pieces_of_no_dot x (hdot x (List.mem_cons_self _ _))
    | cons y r =>
      have h1 : Strings.joinChars ['.'] (x :: y :: r) = x ++ '.' :: Strings.joinChars ['.'] (y :: r) := by
        simp [Strings.joinChars]
      rw [h1, pieces_append_dot, pieces_of_no_dot x (hdot x (List.mem_cons_self _ _)),
        ih (by simp) (fun z hz => hdot z (List.mem_cons_of_mem _ hz))]
      simp

theorem Split_dot (p : String) : Strings.Split p "." = (pieces p.data).map String.mk := by
  show (Strings.splitAux ['.'] 0 [] p.data).map String.mk = _
  rw [splitAux_dot_nil]

end Modex

namespace Modex

theorem map_data_map_mk (l : List (List Char)) : (l.map String.mk).map String.data = l := by
  induction l with
  | nil => rfl
  | cons a b ih => simp only [List.map_cons, ih]

theorem map_mk_map_data (l : List String) : (l.map String.data).map String.mk = l := by
  induction l with
  | nil => rfl
  | cons a b ih => simp only [List.map_cons, ih]

theorem Join_Split_dot (p : String) : Strings.Join (Strings.Split p ".") "." = p := by
  rw [Split_dot]
  show String.mk (Strings.joinChars ['.'] (((pieces p.data).map String.mk).map String.data)) = p
  rw [map_data_map_mk, joinChars_pieces]

theorem Split_dot_no_dot (p : String) : ∀ x ∈ Strings.Split p ".", '.' ∉ x.data := by
  intro x hx
  rw [Split_dot] at hx
  rcases List.mem_map.mp hx with ⟨y, hy, rfl⟩
  exact pieces_no_dot p.data y hy

theorem Split_dot_Join (parts : List String) (hne : parts ≠ [])
    (hdot : ∀ x ∈ parts, '.' ∉ x.data) : Strings.Split (Strings.Join parts ".") "." = parts := by
  rw [Split_dot]
  show (pieces (Strings.joinChars ['.'] (parts.map String.data))).map String.mk = parts
  rw [pieces_joinChars, map_mk_map_data]
  · simpa using hne
  · intro x hx
    rcases List.mem_map.mp hx with ⟨y, hy, rfl⟩
    exact hdot y hy

theorem isModelModule_iff_mem (p : String) :
    isModelModule p = true ↔ "models" ∈ Strings.Split p "." := by
  unfold isModelModule
  by_cases h : p = ""
  · subst h
    simp only [if_true]
    constructor
    · intro h; cases h
    · intro h; revert h; decide
  · simp only [h, if_false, List.any_eq_true, decide_eq_true_eq]
    constructor
    · rintro ⟨x, hx, rfl⟩; exact hx
    · intro hx; exact ⟨_, hx, rfl⟩

end Modex

namespace Modex

theorem containsAux_dot (l : List Char) : Strings.containsAux ['.'] l = decide ('.' ∈ l) := by
  induction l with
  | nil => simp [Strings.containsAux]
  | cons c cs ih =>
    rw [Strings.containsAux, dot_isPrefixOf, ih]
    by_cases h : c = '.'
    · subst h; simp
    · have h2 : ¬ ('.' = c) := fun e => h e.symm
      by_cases h3 : '.' ∈ cs <;> simp [h, h2, h3]

theorem Contains_dot (s : String) : Strings.Contains s "." = decide ('.' ∈ s.data) :=
  containsAux_dot s.data

theorem last_dot_split (s : List Char) (h : '.' ∈ s) :
    ∃ a b, s = a ++ '.' :: b ∧ '.' ∉ b := by
  induction s with
  | nil => cases h
  | cons c cs ih =>
    by_cases hcs : '.' ∈ cs
    · obtain ⟨a, b, hab, hb⟩ := ih hcs
      exact ⟨c :: a, b, by rw [hab]; rfl, hb⟩
    · rcases List.mem_cons.mp h with e | e
      · exact ⟨[], cs, by rw [← e]; rfl, hcs⟩
      · exact absurd e hcs

theorem dropWhile_append_all (p : Char → Bool) (u v : List Char) (h : ∀ x ∈ u, p x = true) :
    (u ++ v).dropWhile p = v.dropWhile p := by
  induction u with
  | nil => rfl
  | cons c cs ih =>
    have hc : p c = true := h c (List.mem_cons_self _ _)
    simp only [List.cons_append, List.dropWhile_cons, hc, if_true]
    exact ih (fun x hx => h x (List.mem_cons_of_mem _ hx))

theorem beforeLastDot_append (a b : List Char) (hb : '.' ∉ b) :
    Strings.beforeLastDot ⟨a ++ '.' :: b⟩ = ⟨a⟩ := by
  unfold Strings.beforeLastDot
  have h1 : (a ++ '.' :: b).reverse = b.reverse ++ ('.' :: a.reverse) := by simp
  have h2 : ∀ x ∈ b.reverse, (fun c : Char => c != '.') x = true := by
    intro x hx
    have : x ≠ '.' := fun e => hb (by rw [← e]; exact List.mem_reverse.mp hx)
    simpa using this
  show String.mk _ = _
  rw [h1, dropWhile_append_all _ _ _ h2]
  simp

theorem pieces_dropLast_append (a b : List Char) (hb : '.' ∉ b) :
    (pieces (a ++ '.' :: b)).dropLast = pieces a := by
  rw [pieces_append_dot, pieces_of_no_dot b hb]
  simp

theorem Join_nil : Strings.Join [] "." = "" := rfl

theorem components_eq (p : String) :
    components p = if p ≠ "" then Strings.Split p "." else [] := by
  unfold components
  by_cases h : p = ""
  · simp [h]
  · simp [h, Split_dot]

theorem string_mk_eq_empty (l : List Char) : String.mk l = "" ↔ l = [] := by
  constructor
  · intro h
    exact congrArg String.data h
  · intro h
    rw [h]

theorem specBase_eq (current : String) (isPackage : Bool) :
    specBase current isPackage =
      if isPackage then current
      else if Strings.Contains current "." then Strings.beforeLastDot current
      else "" := by
  unfold specBase
  cases isPackage with
  | true => simp
  | false =>
    simp only [Bool.false_eq_true, if_false]
    rw [Contains_dot]
    by_cases h : '.' ∈ current.data
    · simp only [h, decide_True, if_true]
      obtain ⟨a, b, hab, hb⟩ := last_dot_split current.data h
      have hc : current = ⟨a ++ '.' :: b⟩ := by
        rw [← hab]
      have hne : current ≠ "" := by
        intro e
        rw [e] at h
        cases h
      rw [hc, beforeLastDot_append a b hb]
      unfold components
      rw [← hc]
      simp only [hne, if_false]
      rw [← List.map_dropLast, hab, pieces_dropLast_append a b hb]
      show String.mk (Strings.joinChars ['.'] (((pieces a).map String.mk).map String.data)) = _
      rw [map_data_map_mk, joinChars_pieces]
    · simp only [h, decide_False, Bool.false_eq_true, if_false]
      unfold components
      by_cases he : current = ""
      · simp [he, Join_nil]
      · simp only [he, if_false]
        rw [pieces_of_no_dot _ h]
        rfl


theorem joinChars_eq_nil (l : List (List Char)) :
    Strings.joinChars ['.'] l = [] ↔ l = [] ∨ l = [[]] := by
  cases l with
  | nil => simp [Strings.joinChars]
  | cons x rest =>
    cases rest with
    | nil => simp [Strings.joinChars]
    | cons y r => simp [Strings.joinChars]

theorem Join_eq_empty (l : List String) :
    Strings.Join l "." = "" ↔ l = [] ∨ l = [""] := by
  show String.mk (Strings.joinChars ['.'] (l.map String.data)) = "" ↔ _
  rw [string_mk_eq_empty, joinChars_eq_nil]
  constructor
  · rintro (h | h)
    · left; simpa using h
    · right
      cases l with
      | nil => cases h
      | cons a r =>
        cases r with
        | nil =>
          simp only [List.map_cons, List.map_nil, List.cons.injEq, and_true] at h
          have : a = ⟨a.data⟩ := rfl
          rw [this, h]
        | cons b r2 => simp at h
  · rintro (h | h)
    · left; simp [h]
    · right; rw [h]; rfl

theorem resolveRelativeImport_eq_spec (current module : String) (level : Nat)
    (isPackage : Bool) :
    resolveRelativeImport current module level isPackage =
      resolveRelativeImportSpec current module level isPackage := by
  unfold resolveRelativeImport resolveRelativeImportSpec
  by_cases h0 : level = 0
  · simp [h0]
  · simp only [h0, if_false]
    rw [← specBase_eq, ← components_eq]
    by_cases h1 : level - 1 > (components (specBase current isPackage)).length
    · simp [h1]
    · simp only [h1, if_false]
      have hm : (if module ≠ "" then
            (components (specBase current isPackage)).take
                ((components (specBase current isPackage)).length - (level - 1)) ++
              Strings.Split module "."
          else (components (specBase current isPackage)).take
                ((components (specBase current isPackage)).length - (level - 1))) =
          specParts current module level isPackage := by
        unfold specParts
        rw [components_eq module]
        have ht : ∀ (l : List String) (n : Nat),
            l.take (l.length - n) = (l.reverse.drop n).reverse := by
          intro l n
          exact List.rdrop_eq_reverse_drop_reverse (l := l) (n := n)
        rw [ht]
        by_cases hmod : module = ""
        · simp [hmod]
        · simp [hmod]
      rw [hm]
      by_cases hl : (specParts current module level isPackage).length = 0
      · have : specParts current module level isPackage = [] := List.length_eq_zero.mp hl
        simp [this, Join_nil]
      · simp [hl]

end Modex

namespace Modex

/-! ## Lemmas on maps and import tables -/

theorem mapGet_mapSet {K V : Type} [DecidableEq K] (m : List (K × V)) (k k2 : K) (v : V) :
    mapGet (mapSet m k v) k2 = if k = k2 then some v else mapGet m k2 := by
  induction m with
  | nil => simp [mapSet, mapGet]
  | cons e rest ih =>
    obtain ⟨a, b⟩ := e
    by_cases h : a = k
    · subst h
      simp only [mapSet, if_true, mapGet]
      by_cases h2 : a = k2 <;> simp [h2]
    · simp only [mapSet, h, if_false, mapGet, ih]
      by_cases h2 : a = k2
      · have : ¬ k = k2 := fun e => h (h2.trans e.symm)
        simp [h2, this]
      · simp [h2]

theorem mem_mapSet {K V : Type} [DecidableEq K] (m : List (K × V)) (k : K) (v : V)
    (e : K × V) (h : e ∈ mapSet m k v) : e ∈ m ∨ e = (k, v) := by
  induction m with
  | nil =>
    simp only [mapSet, List.mem_singleton] at h
    exact Or.inr h
  | cons x rest ih =>
    obtain ⟨a, b⟩ := x
    by_cases hk : a = k
    · simp only [mapSet, hk, if_true, List.mem_cons] at h
      rcases h with h | h
      · exact Or.inr h
      · exact Or.inl (List.mem_cons_of_mem _ h)
    · simp only [mapSet, hk, if_false, List.mem_cons] at h
      rcases h with h | h
      · exact Or.inl (by rw [h]; exact List.mem_cons_self _ _)
      · rcases ih h with h | h
        · exact Or.inl (List.mem_cons_of_mem _ h)
        · exact Or.inr h

theorem mapCopy_nil {V : Type} (m : List (String × V)) : mapCopy m [] = m := rfl

theorem mapCopy_cons {V : Type} (m : List (String × V)) (e : String × V)
    (rest : List (String × V)) : mapCopy m (e :: rest) = mapCopy (mapSet m e.1 e.2) rest := rfl

theorem mapCopy_append {V : Type} (m a b : List (String × V)) :
    mapCopy m (a ++ b) = mapCopy (mapCopy m a) b := by
  unfold mapCopy
  rw [List.foldl_append]

theorem mem_mapCopy {V : Type} (bs m : List (String × V)) (e : String × V)
    (h : e ∈ mapCopy m bs) : e ∈ m ∨ e ∈ bs := by
  induction bs generalizing m with
  | nil => exact Or.inl h
  | cons x rest ih =>
    rw [mapCopy_cons] at h
    rcases ih _ h with h | h
    · rcases mem_mapSet m x.1 x.2 e h with h | h
      · exact Or.inl h
      · exact Or.inr (by rw [h]; exact List.mem_cons_self _ _)
    · exact Or.inr (List.mem_cons_of_mem _ h)

theorem mapGet_mapCopy {V : Type} (bs m : List (String × V)) (k : String) :
    mapGet (mapCopy m bs) k =
      match lastBinding bs k with
      | some v => some v
      | none => mapGet m k := by
  induction bs generalizing m with
  | nil => rfl
  | cons x rest ih =>
    obtain ⟨a, b⟩ := x
    rw [mapCopy_cons, ih, lastBinding]
    cases lastBinding rest k with
    | some w => rfl
    | none =>
      simp only [mapGet_mapSet]
      by_cases h : a = k <;> simp [h]

theorem mapGet_mapCopy_nil {V : Type} (bs : List (String × V)) (k : String) :
    mapGet (mapCopy [] bs) k = lastBinding bs k := by
  rw [mapGet_mapCopy]
  cases h : lastBinding bs k <;> rfl

theorem mapGet_mapCopy_local {V : Type} (m bs : List (String × V)) (k : String) :
    mapGet (mapCopy m bs) k =
      match mapGet (mapCopy [] bs) k with
      | some v => some v
      | none => mapGet m k := by
  rw [mapGet_mapCopy_nil, mapGet_mapCopy]

theorem mapSet_keys {K V : Type} [DecidableEq K] (m : List (K × V)) (k : K) (v : V) :
    (mapSet m k v).map Prod.fst =
      if k ∈ m.map Prod.fst then m.map Prod.fst else m.map Prod.fst ++ [k] := by
  induction m with
  | nil => simp [mapSet]
  | cons e rest ih =>
    obtain ⟨a, b⟩ := e
    by_cases h : a = k
    · subst h
      simp [mapSet]
    · have h2 : ¬ k = a := fun e => h e.symm
      simp only [mapSet, h, if_false, List.map_cons, ih, List.mem_cons, h2, false_or]
      by_cases h3 : k ∈ rest.map Prod.fst
      · simp only [h3, if_true]
      · simp only [h3, if_false, List.cons_append]

theorem mapSet_nodup {K V : Type} [DecidableEq K] (m : List (K × V)) (k : K) (v : V)
    (h : (m.map Prod.fst).Nodup) : ((mapSet m k v).map Prod.fst).Nodup := by
  rw [mapSet_keys]
  by_cases h3 : k ∈ m.map Prod.fst
  · simp only [h3, if_true]
    exact h
  · simp only [h3, if_false]
    exact List.Nodup.append h (List.nodup_singleton k)
      (by
        intro x hx hk
        rw [List.mem_singleton] at hk
        exact h3 (hk ▸ hx))

theorem mapCopy_nodup {V : Type} (bs m : List (String × V)) (h : (m.map Prod.fst).Nodup) :
    ((mapCopy m bs).map Prod.fst).Nodup := by
  induction bs generalizing m with
  | nil => exact h
  | cons x rest ih =>
    rw [mapCopy_cons]
    exact ih _ (mapSet_nodup m x.1 x.2 h)

theorem mapGet_eq_none_of_not_mem {V : Type} (m : List (String × V)) (k : String)
    (h : k ∉ m.map Prod.fst) : mapGet m k = none := by
  induction m with
  | nil => rfl
  | cons e rest ih =>
    obtain ⟨a, b⟩ := e
    have h1 : ¬ a = k := fun e => h (by simp [e])
    have h2 : k ∉ rest.map Prod.fst := fun e => h (by
      rw [List.map_cons]
      exact List.mem_cons_of_mem _ e)
    simp only [mapGet, h1, if_false]
    exact ih h2

theorem lastBinding_eq_mapGet {V : Type} (m : List (String × V)) (k : String)
    (h : (m.map Prod.fst).Nodup) : lastBinding m k = mapGet m k := by
  induction m with
  | nil => rfl
  | cons e rest ih =>
    obtain ⟨a, b⟩ := e
    rw [List.map_cons, List.nodup_cons] at h
    rw [lastBinding, ih h.2, mapGet]
    by_cases h1 : a = k
    · have : mapGet rest k = none := mapGet_eq_none_of_not_mem rest k (h1 ▸ h.1)
      simp [h1, this]
    · simp only [h1, if_false]
      cases mapGet rest k <;> rfl

theorem mapGet_mapCopy_table {V : Type} (m bs : List (String × V)) (k : String) :
    mapGet (mapCopy m (mapCopy [] bs)) k =
      match mapGet (mapCopy [] bs) k with
      | some v => some v
      | none => mapGet m k := by
  rw [mapGet_mapCopy, lastBinding_eq_mapGet _ _ (mapCopy_nodup bs [] List.nodup_nil)]

theorem lastBinding_append {V : Type} (a b : List (String × V)) (k : String) :
    lastBinding (a ++ b) k =
      match lastBinding b k with
      | some v => some v
      | none => lastBinding a k := by
  induction a with
  | nil => cases h : lastBinding b k <;> simp [h, lastBinding]
  | cons x rest ih =>
    obtain ⟨c, d⟩ := x
    have hc : lastBinding ((c, d) :: rest ++ b) k =
        match lastBinding (rest ++ b) k with
        | some w => some w
        | none => if c = k then some d else none := rfl
    rw [hc, ih, lastBinding]
    cases h : lastBinding b k <;> simp

theorem foldl_aliases (resolved : String) (aliases : List importAlias)
    (m : List (String × ImportFromTarget)) :
    aliases.foldl (fun m entry =>
        if entry.Name = "*" then m else mapSet m entry.asname ⟨resolved, entry.Name⟩) m =
      mapCopy m ((aliases.filter (fun entry => entry.Name ≠ "*")).map (fun entry =>
        (entry.asname, (⟨resolved, entry.Name⟩ : ImportFromTarget)))) := by
  induction aliases generalizing m with
  | nil => rfl
  | cons e rest ih =>
    by_cases h5 : e.Name = "*"
    · simp only [List.foldl_cons, h5, if_true]
      rw [ih]
      simp [List.filter, h5]
    · simp only [List.foldl_cons, h5, if_false]
      rw [ih]
      simp [List.filter, h5, mapCopy_cons]

theorem importStep_eq (moduleInfo : ModuleInfo)
    (acc : List (String × String) × List (String × ImportFromTarget)) (n : Node) :
    (importStep moduleInfo acc n) =
      (mapCopy acc.1 (plainBindings n), mapCopy acc.2 (fromBindings moduleInfo n)) := by
  unfold importStep plainBindings fromBindings
  by_cases h1 : n.type = "import_statement"
  · have h2 : ¬ n.type = "import_from_statement" := by rw [h1]; decide
    simp only [h1, h2, if_true, if_false, mapCopy_nil]
    congr 1
    unfold mapCopy
    rw [List.foldl_map]
  · simp only [h1, if_false, mapCopy_nil]
    by_cases h2 : n.type = "import_from_statement"
    · simp only [h2, if_true]
      cases hp : parseImportFromStatement n.text with
      | none => rfl
      | some r =>
        obtain ⟨module, level, aliases⟩ := r
        simp only
        by_cases h3 : module = "" ∧ level = 0
        · simp only [h3, and_self, if_true, mapCopy_nil]
        · simp only [h3, if_false]
          by_cases h4 : resolveRelativeImport moduleInfo.ModulePath module level
              moduleInfo.IsPackage = ""
          · simp only [h4, if_true, mapCopy_nil]
          · simp only [h4, if_false]
            congr 1
            exact foldl_aliases _ aliases acc.2
    · simp only [h2, if_false, mapCopy_nil]

theorem foldl_importStep (moduleInfo : ModuleInfo) (nodes : List Node)
    (acc : List (String × String) × List (String × ImportFromTarget)) :
    nodes.foldl (importStep moduleInfo) acc =
      (mapCopy acc.1 (nodes.flatMap plainBindings),
        mapCopy acc.2 (nodes.flatMap (fromBindings moduleInfo))) := by
  induction nodes generalizing acc with
  | nil => rfl
  | cons n rest ih =>
    rw [List.foldl_cons, ih, importStep_eq]
    simp only [List.flatMap_cons, mapCopy_append]

theorem collectImports_eq (node : Node) (moduleInfo : ModuleInfo) :
    collectImports node moduleInfo =
      (mapCopy [] (((walk node).map Visit.node).flatMap plainBindings),
        mapCopy [] (((walk node).map Visit.node).flatMap (fromBindings moduleInfo))) := by
  unfold collectImports
  rw [foldl_importStep]

theorem fromBindings_module_ne (moduleInfo : ModuleInfo) (n : Node)
    (e : String × ImportFromTarget) (h : e ∈ fromBindings moduleInfo n) : e.2.Module ≠ "" := by
  unfold fromBindings at h
  by_cases h2 : n.type = "import_from_statement"
  · simp only [h2, if_true] at h
    cases hp : parseImportFromStatement n.text with
    | none => rw [hp] at h; cases h
    | some r =>
      obtain ⟨module, level, aliases⟩ := r
      rw [hp] at h
      simp only at h
      by_cases h3 : module = "" ∧ level = 0
      · simp only [h3, and_self, if_true] at h; cases h
      · simp only [h3, if_false] at h
        by_cases h4 : resolveRelativeImport moduleInfo.ModulePath module level
            moduleInfo.IsPackage = ""
        · simp only [h4, if_true] at h; cases h
        · simp only [h4, if_false] at h
          rcases List.mem_map.mp h with ⟨x, _, rfl⟩
          exact h4
  · simp only [h2, if_false] at h; cases h

theorem collectImports_module_ne (node : Node) (moduleInfo : ModuleInfo)
    (e : String × ImportFromTarget) (h : e ∈ (collectImports node moduleInfo).2) :
    e.2.Module ≠ "" := by
  rw [collectImports_eq] at h
  rcases mem_mapCopy _ _ e h with h | h
  · cases h
  · rcases List.mem_flatMap.mp h with ⟨n, _, hn⟩
    exact fromBindings_module_ne moduleInfo n e hn

end Modex

namespace Modex

/-! ## Lemmas on model resolution -/

theorem mem_setAdd {K : Type} [DecidableEq K] (s : List K) (x r : K) :
    r ∈ setAdd s x ↔ r ∈ s ∨ r = x := by
  unfold setAdd
  by_cases h : x ∈ s
  · simp only [h, if_true]
    constructor
    · exact Or.inl
    · rintro (h1 | h1)
      · exact h1
      · rw [h1]; exact h
  · simp [h]

theorem mem_addModels {A : Type} (f : A → Option ModelRef) (items : List A)
    (ms : List ModelRef) (r : ModelRef) :
    r ∈ addModels f ms items ↔ r ∈ ms ∨ ∃ x ∈ items, f x = some r := by
  induction items generalizing ms with
  | nil => simp [addModels]
  | cons y rest ih =>
    have hstep : addModels f ms (y :: rest) =
        addModels f (match f y with
          | some r => setAdd ms r
          | none => ms) rest := rfl
    rw [hstep, ih]
    cases hy : f y with
    | none =>
      simp only [List.mem_cons, exists_eq_or_imp, hy]
      simp
    | some q =>
      simp only [List.mem_cons, exists_eq_or_imp, hy, mem_setAdd, Option.some.injEq]
      constructor
      · rintro ((h | h) | h)
        · exact Or.inl h
        · exact Or.inr (Or.inl h.symm)
        · exact Or.inr (Or.inr h)
      · rintro (h | h | h)
        · exact Or.inl (Or.inl h)
        · exact Or.inl (Or.inr h.symm)
        · exact Or.inr h

theorem mem_resolveModels (moduleImports : List (String × String))
    (fromImports : List (String × ImportFromTarget)) (moduleMap : List (String × String))
    (usage : usageInfo) (r : ModelRef) :
    r ∈ resolveModels moduleImports fromImports moduleMap usage ↔
      (∃ name ∈ usage.Names, nameModel fromImports name = some r) ∨
      (∃ item ∈ usage.Attrs, attrModel moduleImports fromImports moduleMap item = some r) := by
  unfold resolveModels
  rw [mem_addModels, mem_addModels]
  simp

theorem analyzeFunctionModels_eq (functionNode : Node) (moduleInfo : ModuleInfo)
    (moduleMap : List (String × String)) :
    analyzeFunctionModels functionNode moduleInfo moduleMap =
      resolveModels (mergedModuleImports functionNode moduleInfo)
        (mergedFromImports functionNode moduleInfo) moduleMap (collectUsage functionNode) :=
  rfl

theorem mem_analyzeFunctionModels (functionNode : Node) (moduleInfo : ModuleInfo)
    (moduleMap : List (String × String)) (r : ModelRef) :
    r ∈ analyzeFunctionModels functionNode moduleInfo moduleMap ↔
      (∃ name ∈ (collectUsage functionNode).Names,
        nameModel (mergedFromImports functionNode moduleInfo) name = some r) ∨
      (∃ item ∈ (collectUsage functionNode).Attrs,
        attrModel (mergedModuleImports functionNode moduleInfo)
          (mergedFromImports functionNode moduleInfo) moduleMap item = some r) := by
  rw [analyzeFunctionModels_eq, mem_resolveModels]

theorem Split_append_dot (a b : String) :
    Strings.Split (a ++ "." ++ b) "." = Strings.Split a "." ++ Strings.Split b "." := by
  rw [Split_dot, Split_dot, Split_dot]
  have h : (a ++ "." ++ b).data = a.data ++ '.' :: b.data := by
    simp [String.data_append]
  rw [h, pieces_append_dot, List.map_append]

theorem isModelModule_compound (M N : String) (h : isModelModule M = true) :
    isModelModule (M ++ "." ++ N) = true := by
  rw [isModelModule_iff_mem] at h ⊢
  rw [Split_append_dot]
  exact List.mem_append_left _ h

theorem attrModel_of_from (moduleImports : List (String × String))
    (fromImports : List (String × ImportFromTarget)) (moduleMap : List (String × String))
    (base attr M N : String) (hplain : mapGet moduleImports base = none)
    (hfrom : mapGet fromImports base = some ⟨M, N⟩) :
    attrModel moduleImports fromImports moduleMap (base, attr) =
      if (mapGet moduleMap (M ++ "." ++ N)).isSome = true ∧
          isModelModule (M ++ "." ++ N) = true then
        some ⟨M ++ "." ++ N, attr⟩
      else if isModelModule M = true then some ⟨M, N⟩
      else none := by
  unfold attrModel
  simp only [hplain, hfrom]
  by_cases h1 : isModelModule (M ++ "." ++ N) = true
  · simp only [h1, if_true, and_true]
    cases hm : mapGet moduleMap (M ++ "." ++ N) with
    | some p => simp
    | none => simp
  · have h2 : ¬ isModelModule M = true := fun h => h1 (isModelModule_compound M N h)
    simp [h1, h2]

end Modex

namespace Modex

/-! ## The definitions of a module have names -/

theorem mem_of_mapGet {K V : Type} [DecidableEq K] (m : List (K × V)) (k : K) (v : V)
    (h : mapGet m k = some v) : (k, v) ∈ m := by
  induction m with
  | nil => cases h
  | cons e rest ih =>
    obtain ⟨a, b⟩ := e
    by_cases h1 : a = k
    · simp only [mapGet, h1, if_true, Option.some.injEq] at h
      rw [h1, h]
      exact List.mem_cons_self _ _
    · simp only [mapGet, h1, if_false] at h
      exact List.mem_cons_of_mem _ (ih h)

theorem namedKeys_recordClass (className : String)
    (st : List (String × Node) × List (String × List (String × Node))) (h : namedKeys st) :
    namedKeys (recordClass className st) := by
  unfold recordClass
  by_cases h1 : className ≠ ""
  · rw [if_pos h1]
    cases hg : mapGet st.2 className with
    | some ms => exact h
    | none =>
      refine ⟨h.1, ?_⟩
      intro c hc e he
      rcases mem_mapSet _ _ _ _ hc with hc | hc
      · exact h.2 c hc e he
      · rw [hc] at he
        cases he
  · rw [if_neg h1]
    exact h

theorem namedKeys_recordFunction (node : Node) (currentClass : String)
    (st : List (String × Node) × List (String × List (String × Node))) (h : namedKeys st) :
    namedKeys (recordFunction node currentClass st) := by
  unfold recordFunction
  cases hc : childByFieldName node.children "name" with
  | none => exact h
  | some nameNode =>
    simp only
    by_cases h1 : nameNode.text = ""
    · simp only [h1, if_true]
      exact h
    · simp only [h1, if_false]
      by_cases h2 : currentClass ≠ ""
      · rw [if_pos h2]
        refine ⟨h.1, ?_⟩
        intro c hc2 e he
        unfold classSet at hc2
        rcases mem_mapSet _ _ _ _ hc2 with hc2 | hc2
        · exact h.2 c hc2 e he
        · rw [hc2] at he
          rcases mem_mapSet _ _ _ _ he with he | he
          · cases hg : mapGet st.2 currentClass with
            | none =>
              rw [hg] at he
              cases he
            | some ms =>
              rw [hg] at he
              exact h.2 _ (mem_of_mapGet _ _ _ hg) e he
          · rw [he]
            exact h1
      · rw [if_neg h2]
        refine ⟨?_, h.2⟩
        intro e he
        rcases mem_mapSet _ _ _ _ he with he | he
        · exact h.1 e he
        · rw [he]
          exact h1

mutual
theorem namedKeys_walkDefs : ∀ (n : Node) (currentClass : String)
    (st : List (String × Node) × List (String × List (String × Node))),
    namedKeys st → namedKeys (walkDefs n currentClass st)
  | .mk ty tx cs, currentClass, st, h => by
    rw [walkDefs]
    split
    · split
      · exact namedKeys_walkDefsField cs currentClass st h
      · exact namedKeys_walkDefsList cs currentClass st h
    · split
      · exact namedKeys_walkDefsList cs _ _ (namedKeys_recordClass _ st h)
      · split
        · exact namedKeys_walkDefsList cs _ _ (namedKeys_recordFunction _ _ st h)
        · exact namedKeys_walkDefsList cs currentClass st h
theorem namedKeys_walkDefsList : ∀ (cs : List (String × Node)) (currentClass : String)
    (st : List (String × Node) × List (String × List (String × Node))),
    namedKeys st → namedKeys (walkDefsList cs currentClass st)
  | [], _, st, h => by
    rw [walkDefsList]
    exact h
  | (_, c) :: rest, currentClass, st, h => by
    rw [walkDefsList]
    exact namedKeys_walkDefsList rest currentClass _ (namedKeys_walkDefs c currentClass st h)
theorem namedKeys_walkDefsField : ∀ (cs : List (String × Node)) (currentClass : String)
    (st : List (String × Node) × List (String × List (String × Node))),
    namedKeys st → namedKeys (walkDefsField cs currentClass st)
  | [], _, st, h => by
    rw [walkDefsField]
    exact h
  | (f, c) :: rest, currentClass, st, h => by
    rw [walkDefsField]
    split
    · exact namedKeys_walkDefs c currentClass st h
    · exact namedKeys_walkDefsField rest currentClass st h
end

theorem namedKeys_collectDefinitions (root : Node) : namedKeys (collectDefinitions root) :=
  namedKeys_walkDefs root "" ([], []) ⟨fun _ h => (by cases h), fun _ h _ _ => (by cases h)⟩

theorem findBody_name_ne (modulePath filePath : String) (tree : Node)
    (className funcName : String) (node : Node)
    (h : findBody (buildModuleInfo modulePath filePath tree) className funcName = some node) :
    funcName ≠ "" := by
  have hk := namedKeys_collectDefinitions tree
  unfold findBody at h
  by_cases hc : className ≠ ""
  · rw [if_pos hc] at h
    cases hg : mapGet (buildModuleInfo modulePath filePath tree).Classes className with
    | none => rw [hg] at h; cases h
    | some ms =>
      rw [hg] at h
      exact hk.2 _ (mem_of_mapGet _ _ _ hg) _ (mem_of_mapGet _ _ _ h)
  · rw [if_neg hc] at h
    exact hk.1 _ (mem_of_mapGet _ _ _ h)

end Modex

namespace Modex

/-! ## One iteration of the traversal -/

theorem getModuleInfo_path (fs : FileSystem) (moduleMap : List (String × String))
    (path : String) (moduleInfo : ModuleInfo)
    (h : getModuleInfo fs moduleMap path = .ok moduleInfo) : moduleInfo.ModulePath = path := by
  unfold getModuleInfo parseModule at h
  cases hf : fs ((mapGet moduleMap path).getD "") with
  | error e => rw [hf] at h; cases h
  | ok tree =>
    rw [hf] at h
    simp only [Except.ok.injEq] at h
    rw [← h]
    rfl

theorem getModuleInfo_findBody (fs : FileSystem) (moduleMap : List (String × String))
    (path : String) (moduleInfo : ModuleInfo) (className funcName : String) (node : Node)
    (h : getModuleInfo fs moduleMap path = .ok moduleInfo)
    (hb : findBody moduleInfo className funcName = some node) : funcName ≠ "" := by
  unfold getModuleInfo parseModule at h
  cases hf : fs ((mapGet moduleMap path).getD "") with
  | error e => rw [hf] at h; cases h
  | ok tree =>
    rw [hf] at h
    simp only [Except.ok.injEq] at h
    rw [← h] at hb
    exact findBody_name_ne _ _ _ _ _ _ hb

theorem bodyOf_some (fs : FileSystem) (moduleMap : List (String × String)) (t : Triple)
    (moduleInfo : ModuleInfo) (funcNode : Node)
    (h : bodyOf fs moduleMap t = some (moduleInfo, funcNode)) :
    (∃ f, mapGet moduleMap t.1 = some f) ∧ getModuleInfo fs moduleMap t.1 = .ok moduleInfo ∧
      findBody moduleInfo t.2.1 t.2.2 = some funcNode := by
  unfold bodyOf at h
  cases hm : mapGet moduleMap t.1 with
  | none => rw [hm] at h; cases h
  | some f =>
    rw [hm] at h
    simp only at h
    cases hg : getModuleInfo fs moduleMap t.1 with
    | error e => rw [hg] at h; cases h
    | ok info =>
      rw [hg] at h
      simp only at h
      cases hb : findBody info t.2.1 t.2.2 with
      | none => rw [hb] at h; cases h
      | some node =>
        rw [hb] at h
        simp only [Option.some.injEq, Prod.mk.injEq] at h
        refine ⟨⟨f, rfl⟩, ?_, ?_⟩
        · rw [← h.1]
        · rw [← h.1, ← h.2, hb]

theorem bodyOf_name_ne (fs : FileSystem) (moduleMap : List (String × String)) (t : Triple)
    (moduleInfo : ModuleInfo) (funcNode : Node)
    (h : bodyOf fs moduleMap t = some (moduleInfo, funcNode)) : t.2.2 ≠ "" := by
  obtain ⟨_, hg, hb⟩ := bodyOf_some fs moduleMap t moduleInfo funcNode h
  exact getModuleInfo_findBody fs moduleMap t.1 moduleInfo t.2.1 t.2.2 funcNode hg hb

theorem step_nil (calls : Node → List CallTarget) (fs : FileSystem)
    (moduleMap : List (String × String)) (s : State) (hq : s.queue = []) :
    step calls fs moduleMap s = s := by
  unfold step
  rw [hq]

theorem step_skip (calls : Node → List CallTarget) (fs : FileSystem)
    (moduleMap : List (String × String)) (s : State) (t : Triple) (q : List Triple)
    (hq : s.queue = t :: q) (h : t.2.2 = "" ∨ t ∈ s.visited) :
    step calls fs moduleMap s = { s with queue := q } := by
  unfold step
  rw [hq]
  simp only [Prod.mk.eta]
  by_cases h1 : t.2.2 = ""
  · simp only [h1, if_true]
  · have h2 : t ∈ s.visited := by
      rcases h with h | h
      · exact absurd h h1
      · exact h
    simp only [h1, if_false, h2, if_true]

theorem step_nobody (calls : Node → List CallTarget) (fs : FileSystem)
    (moduleMap : List (String × String)) (s : State) (t : Triple) (q : List Triple)
    (hq : s.queue = t :: q) (h1 : t.2.2 ≠ "") (h2 : t ∉ s.visited)
    (h3 : bodyOf fs moduleMap t = none) :
    step calls fs moduleMap s =
      { s with queue := q, visited := t :: s.visited,
               errors := s.errors ++ (errorOf fs moduleMap t).toList } := by
  unfold step
  rw [hq]
  simp only [Prod.mk.eta, h1, if_false, h2]
  unfold bodyOf at h3
  unfold errorOf
  cases hm : mapGet moduleMap t.1 with
  | none => simp
  | some f =>
    rw [hm] at h3
    simp only at h3 ⊢
    cases hg : getModuleInfo fs moduleMap t.1 with
    | error e => simp
    | ok info =>
      rw [hg] at h3
      simp only at h3 ⊢
      cases hb : findBody info t.2.1 t.2.2 with
      | none => simp
      | some node => rw [hb] at h3; cases h3

theorem step_body (calls : Node → List CallTarget) (fs : FileSystem)
    (moduleMap : List (String × String)) (s : State) (t : Triple) (q : List Triple)
    (moduleInfo : ModuleInfo) (funcNode : Node)
    (hq : s.queue = t :: q) (h2 : t ∉ s.visited)
    (h3 : bodyOf fs moduleMap t = some (moduleInfo, funcNode)) :
    step calls fs moduleMap s =
      { s with
        queue := q ++ succs calls fs moduleMap t
        visited := t :: s.visited
        models := ((modelsOf fs moduleMap t).foldl (recordModel (usageKeyOf t))
          (s.models, s.modelUsage)).1
        modelUsage := ((modelsOf fs moduleMap t).foldl (recordModel (usageKeyOf t))
          (s.models, s.modelUsage)).2
        analysed := s.analysed ++ [t] } := by
  have h1 : t.2.2 ≠ "" := bodyOf_name_ne fs moduleMap t moduleInfo funcNode h3
  obtain ⟨⟨f, hm⟩, hg, hb⟩ := bodyOf_some fs moduleMap t moduleInfo funcNode h3
  have hp := getModuleInfo_path fs moduleMap t.1 moduleInfo hg
  unfold step
  rw [hq]
  simp only [Prod.mk.eta, h1, if_false, h2, hm, hg, hb]
  unfold succs modelsOf usageKeyOf
  rw [h3]
  simp only [hp]

end Modex

namespace Modex

/-! ## Recording models, enqueued targets, and the measure -/

theorem foldl_recordModel_models (key : String) (found : List ModelRef)
    (ms : List ModelRef) (us : List (ModelRef × List String)) (r : ModelRef) :
    r ∈ (found.foldl (recordModel key) (ms, us)).1 ↔ r ∈ ms ∨ r ∈ found := by
  induction found generalizing ms us with
  | nil => simp
  | cons m rest ih =>
    have hstep : (m :: rest).foldl (recordModel key) (ms, us) =
        rest.foldl (recordModel key)
          (setAdd ms m, mapSet us m (setAdd ((mapGet us m).getD []) key)) := rfl
    rw [hstep, ih, mem_setAdd, List.mem_cons]
    constructor
    · rintro ((h | h) | h)
      · exact Or.inl h
      · exact Or.inr (Or.inl h)
      · exact Or.inr (Or.inr h)
    · rintro (h | h | h)
      · exact Or.inl (Or.inl h)
      · exact Or.inl (Or.inr h)
      · exact Or.inr h

theorem foldl_recordModel_usage (key : String) (found : List ModelRef)
    (ms : List ModelRef) (us : List (ModelRef × List String)) (r : ModelRef) (k : String) :
    k ∈ (mapGet (found.foldl (recordModel key) (ms, us)).2 r).getD [] ↔
      k ∈ (mapGet us r).getD [] ∨ (r ∈ found ∧ k = key) := by
  induction found generalizing ms us with
  | nil => simp
  | cons m rest ih =>
    have hstep : (m :: rest).foldl (recordModel key) (ms, us) =
        rest.foldl (recordModel key)
          (setAdd ms m, mapSet us m (setAdd ((mapGet us m).getD []) key)) := rfl
    rw [hstep, ih, mapGet_mapSet, List.mem_cons]
    by_cases hm : m = r
    · subst hm
      simp only [if_true, Option.getD_some, mem_setAdd, true_or, true_and]
      constructor
      · rintro ((h | h) | h)
        · exact Or.inl h
        · exact Or.inr h
        · exact Or.inr h.2
      · rintro (h | h)
        · exact Or.inl (Or.inl h)
        · exact Or.inl (Or.inr h)
    · have hm2 : ¬ r = m := fun e => hm e.symm
      simp only [hm, if_false, hm2, false_or]

theorem orElse_eq_some {α : Type} (a b : Option α) (u : α) (h : (a <|> b) = some u) :
    a = some u ∨ b = some u := by
  cases a with
  | none => exact Or.inr (by simpa using h)
  | some x => exact Or.inl (by simpa using h)

theorem resolveCallTarget_module (call : CallTarget) (moduleInfo : ModuleInfo)
    (moduleMap : List (String × String)) (currentClass : String) (u : Triple)
    (f : String) (hm : mapGet moduleMap moduleInfo.ModulePath = some f)
    (h : resolveCallTarget call moduleInfo moduleMap currentClass = some u) :
    ∃ g, mapGet moduleMap u.1 = some g := by
  unfold resolveCallTarget at h
  split at h
  · split at h
    · simp only [Option.some.injEq] at h
      rw [← h]
      exact ⟨f, hm⟩
    · split at h
      · split at h
        · rename_i g hg
          simp only [Option.some.injEq] at h
          rw [← h]
          exact ⟨g, hg⟩
        · cases h
      · cases h
  · split at h
    · simp only at h
      rcases orElse_eq_some _ _ _ h with h | h
      · split at h
        · split at h
          · simp only [Option.some.injEq] at h
            rw [← h]
            exact ⟨f, hm⟩
          · cases h
        · cases h
      · rcases orElse_eq_some _ _ _ h with h | h
        · split at h
          · split at h
            · rename_i g hg
              simp only [Option.some.injEq] at h
              rw [← h]
              exact ⟨g, hg⟩
            · cases h
          · cases h
        · rcases orElse_eq_some _ _ _ h with h | h
          · split at h
            · split at h
              · rename_i g hg
                simp only [Option.some.injEq] at h
                rw [← h]
                exact ⟨g, hg⟩
              · cases h
            · cases h
          · split at h
            · split at h
              · simp only [Option.some.injEq] at h
                rw [← h]
                exact ⟨f, hm⟩
              · cases h
            · cases h
    · cases h

theorem mem_succs (calls : Node → List CallTarget) (fs : FileSystem)
    (moduleMap : List (String × String)) (t u : Triple) :
    u ∈ succs calls fs moduleMap t ↔ callEdge calls fs moduleMap t u ∧ u.2.2 ≠ "" := by
  unfold succs callEdge
  cases hb : bodyOf fs moduleMap t with
  | none => simp
  | some p =>
    obtain ⟨info, node⟩ := p
    obtain ⟨⟨f, hm⟩, hg, _⟩ := bodyOf_some fs moduleMap t info node hb
    have hp := getModuleInfo_path fs moduleMap t.1 info hg
    simp only [enqueueTargets, List.mem_filterMap, Option.some.injEq, Prod.mk.injEq]
    constructor
    · rintro ⟨call, hc, hr⟩
      cases hres : resolveCallTarget call info moduleMap t.2.1 with
      | none => rw [hres] at hr; cases hr
      | some target =>
        rw [hres] at hr
        simp only at hr
        by_cases h0 : target.2.2 = ""
        · simp only [h0, if_true] at hr
          cases hr
        · simp only [h0, if_false] at hr
          cases hmt : mapGet moduleMap target.1 with
          | none => rw [hmt] at hr; cases hr
          | some g =>
            rw [hmt] at hr
            simp only [Option.some.injEq] at hr
            subst hr
            exact ⟨⟨info, node, call, ⟨rfl, rfl⟩, hc, hres⟩, h0⟩
    · rintro ⟨⟨info2, node2, call, ⟨hi, hn⟩, hc, hres⟩, h0⟩
      subst hi hn
      refine ⟨call, hc, ?_⟩
      rw [hres]
      simp only [h0, if_false]
      obtain ⟨g, hg2⟩ := resolveCallTarget_module call info moduleMap t.2.1 u f
        (by rw [hp]; exact hm) hres
      rw [hg2]

theorem pendingCalls_cons_le (bodies : List (Triple × Nat)) (visited : List Triple)
    (t : Triple) : pendingCalls bodies (t :: visited) ≤ pendingCalls bodies visited := by
  unfold pendingCalls
  induction bodies with
  | nil => simp
  | cons e rest ih =>
    by_cases h1 : e.1 ∈ visited
    · have h2 : e.1 ∈ t :: visited := List.mem_cons_of_mem _ h1
      simpa [List.filter, h1, h2] using ih
    · by_cases h2 : e.1 ∈ t :: visited
      · simp only [List.filter, h1, h2, not_true_eq_false, decide_False, not_false_eq_true,
          decide_True, List.map_cons, List.sum_cons]
        omega
      · simp only [List.filter, h1, h2, not_false_eq_true, decide_True, List.map_cons,
          List.sum_cons]
        omega

theorem pendingCalls_cons_mem (bodies : List (Triple × Nat)) (visited : List Triple)
    (t : Triple) (n : Nat) (hmem : (t, n) ∈ bodies) (hv : t ∉ visited) :
    pendingCalls bodies (t :: visited) + n ≤ pendingCalls bodies visited := by
  induction bodies with
  | nil => cases hmem
  | cons e rest ih =>
    have hle := pendingCalls_cons_le rest visited t
    unfold pendingCalls at ih hle ⊢
    rcases List.mem_cons.mp hmem with hm | hm
    · subst hm
      have ht : t ∈ t :: visited := List.mem_cons_self _ _
      simp only [List.filter, ht, not_true_eq_false, decide_False, hv,
        not_false_eq_true, decide_True, List.map_cons, List.sum_cons]
      omega
    · have ih2 := ih hm
      by_cases h1 : e.1 ∈ visited
      · have h2 : e.1 ∈ t :: visited := List.mem_cons_of_mem _ h1
        simpa [List.filter, h1, h2] using ih2
      · by_cases h2 : e.1 ∈ t :: visited
        · simp only [List.filter, h1, h2, not_true_eq_false, decide_False, not_false_eq_true,
            decide_True, List.map_cons, List.sum_cons]
          omega
        · simp only [List.filter, h1, h2, not_false_eq_true, decide_True, List.map_cons,
            List.sum_cons]
          omega

theorem mem_allBodies (calls : Node → List CallTarget) (fs : FileSystem)
    (moduleMap : List (String × String)) (t : Triple) (moduleInfo : ModuleInfo)
    (funcNode : Node) (h : bodyOf fs moduleMap t = some (moduleInfo, funcNode)) :
    (t, (calls funcNode).length) ∈ allBodies calls fs moduleMap := by
  obtain ⟨⟨f, hm⟩, hg, hb⟩ := bodyOf_some fs moduleMap t moduleInfo funcNode h
  unfold allBodies
  rw [List.mem_flatMap]
  refine ⟨(t.1, f), mem_of_mapGet _ _ _ hm, ?_⟩
  simp only [hg]
  unfold moduleBodies
  unfold findBody at hb
  obtain ⟨m, c, fn⟩ := t
  simp only at hb hm hg ⊢
  by_cases hc : c ≠ ""
  · rw [if_pos hc] at hb
    cases hcl : mapGet moduleInfo.Classes c with
    | none => rw [hcl] at hb; cases hb
    | some ms =>
      rw [hcl] at hb
      simp only at hb
      apply List.mem_append_right
      rw [List.mem_flatMap]
      refine ⟨(c, ms), mem_of_mapGet _ _ _ hcl, ?_⟩
      rw [List.mem_map]
      exact ⟨(fn, funcNode), mem_of_mapGet _ _ _ hb, rfl⟩
  · rw [if_neg hc] at hb
    have hc2 : c = "" := by
      by_contra hne
      exact hc hne
    subst hc2
    apply List.mem_append_left
    rw [List.mem_map]
    exact ⟨(fn, funcNode), mem_of_mapGet _ _ _ hb, rfl⟩

theorem succs_length_le (calls : Node → List CallTarget) (fs : FileSystem)
    (moduleMap : List (String × String)) (t : Triple) (moduleInfo : ModuleInfo)
    (funcNode : Node) (h : bodyOf fs moduleMap t = some (moduleInfo, funcNode)) :
    (succs calls fs moduleMap t).length ≤ (calls funcNode).length := by
  unfold succs
  rw [h]
  exact List.length_filterMap_le _ _

end Modex

namespace Modex

/-! ## The invariant of the traversal -/

theorem errorOf_of_body (fs : FileSystem) (moduleMap : List (String × String)) (t : Triple)
    (moduleInfo : ModuleInfo) (funcNode : Node)
    (h : bodyOf fs moduleMap t = some (moduleInfo, funcNode)) : errorOf fs moduleMap t = none := by
  obtain ⟨⟨f, hm⟩, hg, hb⟩ := bodyOf_some fs moduleMap t moduleInfo funcNode h
  unfold errorOf
  simp only [hm, hg, hb]

theorem succs_of_no_body (calls : Node → List CallTarget) (fs : FileSystem)
    (moduleMap : List (String × String)) (t : Triple) (h : bodyOf fs moduleMap t = none) :
    succs calls fs moduleMap t = [] := by
  unfold succs
  rw [h]

theorem inv_init (calls : Node → List CallTarget) (fs : FileSystem)
    (moduleMap : List (String × String)) (seeds : List Triple) :
    Inv calls fs moduleMap seeds (initState seeds) where
  queue_reach := fun t ht => Reachable.seed t ht
  vis_reach := fun t ht => by cases ht
  vis_nodup := List.nodup_nil
  closed := fun t ht => by cases ht
  seeds_cov := fun t ht _ => Or.inr ht
  analysed_eq := rfl
  errors_eq := rfl
  models_iff := fun r => by simp [initState]
  usage_iff := fun r k => by simp [initState, mapGet]

theorem inv_step (calls : Node → List CallTarget) (fs : FileSystem)
    (moduleMap : List (String × String)) (seeds : List Triple) (s : State)
    (h : Inv calls fs moduleMap seeds s) : Inv calls fs moduleMap seeds (step calls fs moduleMap s) := by
  cases hq : s.queue with
  | nil => rw [step_nil calls fs moduleMap s hq]; exact h
  | cons t q =>
    have htq : t ∈ s.queue := by rw [hq]; exact List.mem_cons_self _ _
    have hqsub : ∀ u, u ∈ q → u ∈ s.queue := fun u hu => by
      rw [hq]; exact List.mem_cons_of_mem _ hu
    have hsplit : ∀ u, u ∈ s.queue → u = t ∨ u ∈ q := fun u hu => by
      rw [hq] at hu; exact List.mem_cons.mp hu
    by_cases hskip : t.2.2 = "" ∨ t ∈ s.visited
    · rw [step_skip calls fs moduleMap s t q hq hskip]
      refine ⟨fun u hu => h.queue_reach u (hqsub u hu), h.vis_reach, h.vis_nodup, ?_, ?_,
        h.analysed_eq, h.errors_eq, h.models_iff, h.usage_iff⟩
      · intro v hv u hu
        rcases h.closed v hv u hu with h1 | h1
        · exact Or.inl h1
        · rcases hsplit u h1 with h2 | h2
          · rcases hskip with h3 | h3
            · exact absurd (h2 ▸ h3) ((mem_succs calls fs moduleMap v u).mp hu).2
            · exact Or.inl (h2 ▸ h3)
          · exact Or.inr h2
      · intro u hu hne
        rcases h.seeds_cov u hu hne with h1 | h1
        · exact Or.inl h1
        · rcases hsplit u h1 with h2 | h2
          · rcases hskip with h3 | h3
            · exact absurd (h2 ▸ h3) hne
            · exact Or.inl (h2 ▸ h3)
          · exact Or.inr h2
    · have h1 : t.2.2 ≠ "" := fun e => hskip (Or.inl e)
      have h2 : t ∉ s.visited := fun e => hskip (Or.inr e)
      have hreach : Reachable calls fs moduleMap seeds t := h.queue_reach t htq
      have hvis : ∀ u, u ∈ t :: s.visited →
          Reachable calls fs moduleMap seeds u ∧ u.2.2 ≠ "" := by
        intro u hu
        rcases List.mem_cons.mp hu with e | e
        · rw [e]; exact ⟨hreach, h1⟩
        · exact h.vis_reach u e
      have hrev : (t :: s.visited).reverse = s.visited.reverse ++ [t] := by simp
      cases hb : bodyOf fs moduleMap t with
      | none =>
        rw [step_nobody calls fs moduleMap s t q hq h1 h2 hb]
        refine ⟨fun u hu => h.queue_reach u (hqsub u hu), hvis,
          List.nodup_cons.mpr ⟨h2, h.vis_nodup⟩, ?_, ?_, ?_, ?_, h.models_iff, h.usage_iff⟩
        · intro v hv u hu
          rcases List.mem_cons.mp hv with e | e
          · rw [e, succs_of_no_body calls fs moduleMap t hb] at hu
            cases hu
          · rcases h.closed v e u hu with h3 | h3
            · exact Or.inl (List.mem_cons_of_mem _ h3)
            · rcases hsplit u h3 with h4 | h4
              · exact Or.inl (h4 ▸ List.mem_cons_self _ _)
              · exact Or.inr h4
        · intro u hu hne
          rcases h.seeds_cov u hu hne with h3 | h3
          · exact Or.inl (List.mem_cons_of_mem _ h3)
          · rcases hsplit u h3 with h4 | h4
            · exact Or.inl (h4 ▸ List.mem_cons_self _ _)
            · exact Or.inr h4
        · show s.analysed = (t :: s.visited).reverse.filter _
          rw [hrev, List.filter_append, ← h.analysed_eq]
          simp [List.filter, hb]
        · show s.errors ++ (errorOf fs moduleMap t).toList =
            (t :: s.visited).reverse.filterMap _
          rw [hrev, List.filterMap_append, ← h.errors_eq]
          cases he : errorOf fs moduleMap t <;> simp [List.filterMap, he]
      | some p =>
        obtain ⟨info, node⟩ := p
        rw [step_body calls fs moduleMap s t q info node hq h2 hb]
        have hana : s.analysed ++ [t] =
            (t :: s.visited).reverse.filter (fun t => (bodyOf fs moduleMap t).isSome) := by
          rw [hrev, List.filter_append, ← h.analysed_eq]
          simp [List.filter, hb]
        refine ⟨?_, hvis, List.nodup_cons.mpr ⟨h2, h.vis_nodup⟩, ?_, ?_, hana, ?_, ?_, ?_⟩
        · intro u hu
          rcases List.mem_append.mp hu with e | e
          · exact h.queue_reach u (hqsub u e)
          · exact Reachable.step t u hreach ((mem_succs calls fs moduleMap t u).mp e).1
        · intro v hv u hu
          rcases List.mem_cons.mp hv with e | e
          · rw [e] at hu
            exact Or.inr (List.mem_append_right _ hu)
          · rcases h.closed v e u hu with h3 | h3
            · exact Or.inl (List.mem_cons_of_mem _ h3)
            · rcases hsplit u h3 with h4 | h4
              · exact Or.inl (h4 ▸ List.mem_cons_self _ _)
              · exact Or.inr (List.mem_append_left _ h4)
        · intro u hu hne
          rcases h.seeds_cov u hu hne with h3 | h3
          · exact Or.inl (List.mem_cons_of_mem _ h3)
          · rcases hsplit u h3 with h4 | h4
            · exact Or.inl (h4 ▸ List.mem_cons_self _ _)
            · exact Or.inr (List.mem_append_left _ h4)
        · show s.errors = (t :: s.visited).reverse.filterMap _
          rw [hrev, List.filterMap_append, ← h.errors_eq,
            show [t].filterMap (errorOf fs moduleMap) = [] by
              simp [List.filterMap, errorOf_of_body fs moduleMap t info node hb]]
          simp
        · intro r
          show r ∈ ((modelsOf fs moduleMap t).foldl (recordModel (usageKeyOf t))
            (s.models, s.modelUsage)).1 ↔ ∃ u ∈ s.analysed ++ [t], r ∈ modelsOf fs moduleMap u
          rw [foldl_recordModel_models, h.models_iff]
          constructor
          · rintro (⟨u, hu, hr⟩ | hr)
            · exact ⟨u, List.mem_append_left _ hu, hr⟩
            · exact ⟨t, List.mem_append_right _ (List.mem_singleton_self t), hr⟩
          · rintro ⟨u, hu, hr⟩
            rcases List.mem_append.mp hu with e | e
            · exact Or.inl ⟨u, e, hr⟩
            · rw [List.mem_singleton] at e
              exact Or.inr (e ▸ hr)
        · intro r k
          show k ∈ (mapGet ((modelsOf fs moduleMap t).foldl (recordModel (usageKeyOf t))
            (s.models, s.modelUsage)).2 r).getD [] ↔
            ∃ u ∈ s.analysed ++ [t], r ∈ modelsOf fs moduleMap u ∧ k = usageKeyOf u
          rw [foldl_recordModel_usage, h.usage_iff]
          constructor
          · rintro (⟨u, hu, hr⟩ | hr)
            · exact ⟨u, List.mem_append_left _ hu, hr⟩
            · exact ⟨t, List.mem_append_right _ (List.mem_singleton_self t), hr⟩
          · rintro ⟨u, hu, hr⟩
            rcases List.mem_append.mp hu with e | e
            · exact Or.inl ⟨u, e, hr⟩
            · rw [List.mem_singleton] at e
              exact Or.inr (e ▸ hr)

theorem inv_loop (calls : Node → List CallTarget) (fs : FileSystem)
    (moduleMap : List (String × String)) (seeds : List Triple) (fuel : Nat) (s : State)
    (h : Inv calls fs moduleMap seeds s) :
    Inv calls fs moduleMap seeds (loop calls fs moduleMap fuel s) := by
  induction fuel generalizing s with
  | zero => exact h
  | succ n ih =>
    unfold loop
    cases hq : s.queue with
    | nil => exact h
    | cons t q => exact ih _ (inv_step calls fs moduleMap seeds s h)

theorem remaining_step (calls : Node → List CallTarget) (fs : FileSystem)
    (moduleMap : List (String × String)) (s : State) (hne : s.queue ≠ []) :
    remaining calls fs moduleMap (step calls fs moduleMap s) + 1 ≤
      remaining calls fs moduleMap s := by
  cases hq : s.queue with
  | nil => exact absurd hq hne
  | cons t q =>
    unfold remaining
    rw [hq]
    by_cases hskip : t.2.2 = "" ∨ t ∈ s.visited
    · rw [step_skip calls fs moduleMap s t q hq hskip]
      simp only [List.length_cons]
      omega
    · have h1 : t.2.2 ≠ "" := fun e => hskip (Or.inl e)
      have h2 : t ∉ s.visited := fun e => hskip (Or.inr e)
      cases hb : bodyOf fs moduleMap t with
      | none =>
        rw [step_nobody calls fs moduleMap s t q hq h1 h2 hb]
        have := pendingCalls_cons_le (allBodies calls fs moduleMap) s.visited t
        simp only [List.length_cons]
        omega
      | some p =>
        obtain ⟨info, node⟩ := p
        rw [step_body calls fs moduleMap s t q info node hq h2 hb]
        have hmem := pendingCalls_cons_mem (allBodies calls fs moduleMap) s.visited t _
          (mem_allBodies calls fs moduleMap t info node hb) h2
        have hlen := succs_length_le calls fs moduleMap t info node hb
        simp only [List.length_cons, List.length_append]
        omega

theorem loop_queue_nil (calls : Node → List CallTarget) (fs : FileSystem)
    (moduleMap : List (String × String)) (fuel : Nat) (s : State)
    (h : remaining calls fs moduleMap s ≤ fuel) :
    (loop calls fs moduleMap fuel s).queue = [] := by
  induction fuel generalizing s with
  | zero =>
    unfold remaining at h
    have : s.queue.length = 0 := by omega
    exact List.length_eq_zero.mp this
  | succ n ih =>
    unfold loop
    cases hq : s.queue with
    | nil => exact hq
    | cons t q =>
      simp only
      apply ih
      have := remaining_step calls fs moduleMap s (by rw [hq]; simp)
      omega

theorem remaining_init (calls : Node → List CallTarget) (fs : FileSystem)
    (moduleMap : List (String × String)) (seeds : List Triple) :
    remaining calls fs moduleMap (initState seeds) = traversalFuel calls fs moduleMap seeds := by
  unfold remaining traversalFuel pendingCalls initState
  simp

theorem traverseWith_queue (calls : Node → List CallTarget) (fs : FileSystem)
    (moduleMap : List (String × String)) (seeds : List Triple) :
    (traverseWith calls fs moduleMap seeds).queue = [] :=
  loop_queue_nil calls fs moduleMap _ _ (le_of_eq (remaining_init calls fs moduleMap seeds))

theorem traverseWith_inv (calls : Node → List CallTarget) (fs : FileSystem)
    (moduleMap : List (String × String)) (seeds : List Triple) :
    Inv calls fs moduleMap seeds (traverseWith calls fs moduleMap seeds) :=
  inv_loop calls fs moduleMap seeds _ _ (inv_init calls fs moduleMap seeds)

theorem traverseWith_visited (calls : Node → List CallTarget) (fs : FileSystem)
    (moduleMap : List (String × String)) (seeds : List Triple) (t : Triple) :
    t ∈ (traverseWith calls fs moduleMap seeds).visited ↔
      Reachable calls fs moduleMap seeds t ∧ t.2.2 ≠ "" := by
  have hinv := traverseWith_inv calls fs moduleMap seeds
  have hq := traverseWith_queue calls fs moduleMap seeds
  constructor
  · exact hinv.vis_reach t
  · rintro ⟨hr, hne⟩
    induction hr with
    | seed u hu =>
      rcases hinv.seeds_cov u hu hne with h | h
      · exact h
      · rw [hq] at h; cases h
    | step u v hu hedge ih =>
      obtain ⟨info, node, call, hb, hc, hres⟩ := hedge
      have hune : u.2.2 ≠ "" := bodyOf_name_ne fs moduleMap u info node hb
      have hmem : v ∈ succs calls fs moduleMap u :=
        (mem_succs calls fs moduleMap u v).mpr ⟨⟨info, node, call, hb, hc, hres⟩, hne⟩
      rcases hinv.closed u (ih hune) v hmem with h | h
      · exact h
      · rw [hq] at h; cases h

theorem traverseWith_analysed (calls : Node → List CallTarget) (fs : FileSystem)
    (moduleMap : List (String × String)) (seeds : List Triple) (t : Triple) :
    t ∈ (traverseWith calls fs moduleMap seeds).analysed ↔
      Reachable calls fs moduleMap seeds t ∧ (bodyOf fs moduleMap t).isSome = true := by
  have hinv := traverseWith_inv calls fs moduleMap seeds
  rw [hinv.analysed_eq, List.mem_filter, List.mem_reverse, traverseWith_visited]
  constructor
  · rintro ⟨⟨h1, _⟩, h2⟩
    exact ⟨h1, h2⟩
  · rintro ⟨h1, h2⟩
    refine ⟨⟨h1, ?_⟩, h2⟩
    cases hb : bodyOf fs moduleMap t with
    | none => rw [hb] at h2; cases h2
    | some p => exact bodyOf_name_ne fs moduleMap t p.1 p.2 hb

theorem traverseWith_analysed_nodup (calls : Node → List CallTarget) (fs : FileSystem)
    (moduleMap : List (String × String)) (seeds : List Triple) :
    (traverseWith calls fs moduleMap seeds).analysed.Nodup := by
  have hinv := traverseWith_inv calls fs moduleMap seeds
  rw [hinv.analysed_eq]
  exact List.Nodup.filter _ (List.nodup_reverse.mpr hinv.vis_nodup)

end Modex

namespace Modex

/-! ## What the traversal returns -/

theorem loop_of_nil (calls : Node → List CallTarget) (fs : FileSystem)
    (moduleMap : List (String × String)) (fuel : Nat) (s : State) (h : s.queue = []) :
    loop calls fs moduleMap fuel s = s := by
  cases fuel with
  | zero => rfl
  | succ n =>
    unfold loop
    rw [h]

theorem loop_add (calls : Node → List CallTarget) (fs : FileSystem)
    (moduleMap : List (String × String)) (fuel extra : Nat) (s : State)
    (h : (loop calls fs moduleMap fuel s).queue = []) :
    loop calls fs moduleMap (fuel + extra) s = loop calls fs moduleMap fuel s := by
  induction fuel generalizing s with
  | zero =>
    have hs : s.queue = [] := h
    rw [Nat.zero_add, loop_of_nil calls fs moduleMap extra s hs]
    rfl
  | succ n ih =>
    rw [Nat.succ_add]
    cases hq : s.queue with
    | nil =>
      rw [loop_of_nil calls fs moduleMap _ s hq, loop_of_nil calls fs moduleMap _ s hq]
    | cons t q =>
      have h1 : ∀ k, loop calls fs moduleMap (k + 1) s =
          loop calls fs moduleMap k (step calls fs moduleMap s) := by
        intro k
        conv => lhs; unfold loop
        rw [hq]
      rw [h1] at h ⊢
      rw [h1]
      exact ih _ h

theorem reachable_mono (calls calls2 : Node → List CallTarget) (fs : FileSystem)
    (moduleMap : List (String × String)) (seeds seeds2 : List Triple)
    (hs : ∀ t, t ∈ seeds → t ∈ seeds2) (hc : ∀ n c, c ∈ calls n → c ∈ calls2 n) (t : Triple)
    (h : Reachable calls fs moduleMap seeds t) : Reachable calls2 fs moduleMap seeds2 t := by
  induction h with
  | seed u hu => exact Reachable.seed u (hs u hu)
  | step u v _ hedge ih =>
    obtain ⟨info, node, call, hb, hcall, hres⟩ := hedge
    exact Reachable.step u v ih ⟨info, node, call, hb, hc node call hcall, hres⟩

theorem reachable_nil (calls : Node → List CallTarget) (fs : FileSystem)
    (moduleMap : List (String × String)) (t : Triple) :
    ¬ Reachable calls fs moduleMap [] t := by
  intro h
  induction h with
  | seed u hu => cases hu
  | step u v _ _ ih => exact ih

theorem traverseWith_models (calls : Node → List CallTarget) (fs : FileSystem)
    (moduleMap : List (String × String)) (seeds : List Triple) (r : ModelRef) :
    r ∈ (traverseWith calls fs moduleMap seeds).models ↔
      ∃ t moduleInfo funcNode, Reachable calls fs moduleMap seeds t ∧
        bodyOf fs moduleMap t = some (moduleInfo, funcNode) ∧
        r ∈ analyzeFunctionModels funcNode moduleInfo moduleMap := by
  rw [(traverseWith_inv calls fs moduleMap seeds).models_iff]
  constructor
  · rintro ⟨t, ht, hr⟩
    obtain ⟨hreach, hsome⟩ := (traverseWith_analysed calls fs moduleMap seeds t).mp ht
    cases hb : bodyOf fs moduleMap t with
    | none => rw [hb] at hsome; cases hsome
    | some p =>
      obtain ⟨info, node⟩ := p
      refine ⟨t, info, node, hreach, hb, ?_⟩
      unfold modelsOf at hr
      rw [hb] at hr
      exact hr
  · rintro ⟨t, info, node, hreach, hb, hr⟩
    refine ⟨t, (traverseWith_analysed calls fs moduleMap seeds t).mpr ⟨hreach, by rw [hb]; rfl⟩,
      ?_⟩
    unfold modelsOf
    rw [hb]
    exact hr

theorem traverseWith_usage (calls : Node → List CallTarget) (fs : FileSystem)
    (moduleMap : List (String × String)) (seeds : List Triple) (r : ModelRef) (k : String) :
    k ∈ (mapGet (traverseWith calls fs moduleMap seeds).modelUsage r).getD [] ↔
      ∃ t moduleInfo funcNode, Reachable calls fs moduleMap seeds t ∧
        bodyOf fs moduleMap t = some (moduleInfo, funcNode) ∧
        r ∈ analyzeFunctionModels funcNode moduleInfo moduleMap ∧ k = usageKeyOf t := by
  rw [(traverseWith_inv calls fs moduleMap seeds).usage_iff]
  constructor
  · rintro ⟨t, ht, hr, hk⟩
    obtain ⟨hreach, hsome⟩ := (traverseWith_analysed calls fs moduleMap seeds t).mp ht
    cases hb : bodyOf fs moduleMap t with
    | none => rw [hb] at hsome; cases hsome
    | some p =>
      obtain ⟨info, node⟩ := p
      refine ⟨t, info, node, hreach, hb, ?_, hk⟩
      unfold modelsOf at hr
      rw [hb] at hr
      exact hr
  · rintro ⟨t, info, node, hreach, hb, hr, hk⟩
    refine ⟨t, (traverseWith_analysed calls fs moduleMap seeds t).mpr ⟨hreach, by rw [hb]; rfl⟩,
      ?_, hk⟩
    unfold modelsOf
    rw [hb]
    exact hr

theorem timesAnalysed_pos (s : State) (t : Triple) :
    0 < timesAnalysed s t ↔ t ∈ s.analysed := by
  unfold timesAnalysed
  rw [List.countP_pos_iff]
  constructor
  · rintro ⟨u, hu, he⟩
    have : u = t := by simpa using he
    exact this ▸ hu
  · intro h
    exact ⟨t, h, by simp⟩

theorem countP_eq_le_one (l : List Triple) (t : Triple) (h : l.Nodup) :
    l.countP (fun u => decide (u = t)) ≤ 1 := by
  induction l with
  | nil => simp
  | cons a rest ih =>
    rw [List.nodup_cons] at h
    rw [List.countP_cons]
    by_cases e : a = t
    · have h0 : rest.countP (fun u => decide (u = t)) = 0 := by
        rw [List.countP_eq_zero]
        intro u hu
        have : u ≠ t := fun e2 => h.1 (e ▸ e2 ▸ hu)
        simpa using this
      simp [e, h0]
    · have := ih h.2
      simp [e]
      exact this

theorem timesAnalysed_le_one (s : State) (t : Triple) (h : s.analysed.Nodup) :
    timesAnalysed s t ≤ 1 :=
  countP_eq_le_one s.analysed t h

theorem traverse_nil (fs : FileSystem) (moduleMap : List (String × String)) :
    traverse fs moduleMap [] = initState [] :=
  loop_of_nil _ fs moduleMap _ _ rfl

theorem seedOrder_nil (order : SeedOrder) : order.apply [] = [] :=
  List.Perm.eq_nil (order.perm [])

theorem seedOrder_mem (order : SeedOrder) (l : List Triple) (t : Triple) :
    t ∈ order.apply l ↔ t ∈ l :=
  (order.perm l).mem_iff

theorem collect_models (fs : FileSystem) (moduleMap : List (String × String))
    (pathLookup : String → Option String) (order : SeedOrder) (entrypoint : String) :
    (collectModelsForEntrypoint fs moduleMap pathLookup order entrypoint).models =
      (traverse fs moduleMap
        (order.apply (entrySeeds fs moduleMap pathLookup entrypoint))).models ∧
    (collectModelsForEntrypoint fs moduleMap pathLookup order entrypoint).modelUsage =
      (traverse fs moduleMap
        (order.apply (entrySeeds fs moduleMap pathLookup entrypoint))).modelUsage := by
  unfold collectModelsForEntrypoint entrySeeds
  dsimp only
  cases hm : mapGet moduleMap (entryModulePath moduleMap pathLookup entrypoint) with
  | none =>
    simp only [seedOrder_nil, traverse_nil]
    exact ⟨rfl, rfl⟩
  | some f =>
    simp only
    cases hg : getModuleInfo fs moduleMap (entryModulePath moduleMap pathLookup entrypoint) with
    | error e =>
      simp only [seedOrder_nil, traverse_nil]
      exact ⟨rfl, rfl⟩
    | ok info =>
      simp only
      split
      · rename_i hlen
        rw [List.length_eq_zero.mp hlen, traverse_nil]
        exact ⟨rfl, rfl⟩
      · exact ⟨rfl, rfl⟩

theorem collect_of_seeds (fs : FileSystem) (moduleMap : List (String × String))
    (pathLookup : String → Option String) (order : SeedOrder) (entrypoint : String)
    (h : entrySeeds fs moduleMap pathLookup entrypoint ≠ []) :
    (collectModelsForEntrypoint fs moduleMap pathLookup order entrypoint).errors =
      (traverse fs moduleMap
        (order.apply (entrySeeds fs moduleMap pathLookup entrypoint))).errors := by
  unfold collectModelsForEntrypoint
  unfold entrySeeds at h ⊢
  dsimp only
  cases hm : mapGet moduleMap (entryModulePath moduleMap pathLookup entrypoint) with
  | none => rw [hm] at h; exact absurd rfl h
  | some f =>
    rw [hm] at h
    simp only at h ⊢
    cases hg : getModuleInfo fs moduleMap (entryModulePath moduleMap pathLookup entrypoint) with
    | error e => rw [hg] at h; exact absurd rfl h
    | ok info =>
      rw [hg] at h
      simp only at h ⊢
      split
      · rename_i hlen
        have h0 := List.length_eq_zero.mp hlen
        have hp := order.perm (getEntrySeeds info
          (splitObject (splitEntrypoint entrypoint).2).1
          (splitObject (splitEntrypoint entrypoint).2).2.1
          (splitObject (splitEntrypoint entrypoint).2).2.2)
        rw [h0] at hp
        exact absurd (List.Perm.nil_eq hp).symm h
      · rfl

end Modex

namespace Modex

/-! ## The indexes of a module have no repeated key -/

theorem uniqueKeys_recordClass (className : String)
    (st : List (String × Node) × List (String × List (String × Node))) (h : uniqueKeys st) :
    uniqueKeys (recordClass className st) := by
  unfold recordClass
  by_cases h1 : className ≠ ""
  · rw [if_pos h1]
    cases hg : mapGet st.2 className with
    | some ms => exact h
    | none =>
      refine ⟨h.1, mapSet_nodup _ _ _ h.2.1, ?_⟩
      intro c hc
      rcases mem_mapSet _ _ _ _ hc with hc | hc
      · exact h.2.2 c hc
      · rw [hc]
        exact List.nodup_nil
  · rw [if_neg h1]
    exact h

theorem uniqueKeys_recordFunction (node : Node) (currentClass : String)
    (st : List (String × Node) × List (String × List (String × Node))) (h : uniqueKeys st) :
    uniqueKeys (recordFunction node currentClass st) := by
  unfold recordFunction
  cases hc : childByFieldName node.children "name" with
  | none => exact h
  | some nameNode =>
    simp only
    by_cases h1 : nameNode.text = ""
    · simp only [h1, if_true]
      exact h
    · simp only [h1, if_false]
      by_cases h2 : currentClass ≠ ""
      · rw [if_pos h2]
        unfold classSet
        refine ⟨h.1, mapSet_nodup _ _ _ h.2.1, ?_⟩
        intro c hc2
        rcases mem_mapSet _ _ _ _ hc2 with hc2 | hc2
        · exact h.2.2 c hc2
        · rw [hc2]
          apply mapSet_nodup
          cases hg : mapGet st.2 currentClass with
          | none => exact List.nodup_nil
          | some ms => exact h.2.2 _ (mem_of_mapGet _ _ _ hg)
      · rw [if_neg h2]
        exact ⟨mapSet_nodup _ _ _ h.1, h.2.1, h.2.2⟩

mutual
theorem uniqueKeys_walkDefs : ∀ (n : Node) (currentClass : String)
    (st : List (String × Node) × List (String × List (String × Node))),
    uniqueKeys st → uniqueKeys (walkDefs n currentClass st)
  | .mk ty tx cs, currentClass, st, h => by
    rw [walkDefs]
    split
    · split
      · exact uniqueKeys_walkDefsField cs currentClass st h
      · exact uniqueKeys_walkDefsList cs currentClass st h
    · split
      · exact uniqueKeys_walkDefsList cs _ _ (uniqueKeys_recordClass _ st h)
      · split
        · exact uniqueKeys_walkDefsList cs _ _ (uniqueKeys_recordFunction _ _ st h)
        · exact uniqueKeys_walkDefsList cs currentClass st h
theorem uniqueKeys_walkDefsList : ∀ (cs : List (String × Node)) (currentClass : String)
    (st : List (String × Node) × List (String × List (String × Node))),
    uniqueKeys st → uniqueKeys (walkDefsList cs currentClass st)
  | [], _, st, h => by
    rw [walkDefsList]
    exact h
  | (_, c) :: rest, currentClass, st, h => by
    rw [walkDefsList]
    exact uniqueKeys_walkDefsList rest currentClass _ (uniqueKeys_walkDefs c currentClass st h)
theorem uniqueKeys_walkDefsField : ∀ (cs : List (String × Node)) (currentClass : String)
    (st : List (String × Node) × List (String × List (String × Node))),
    uniqueKeys st → uniqueKeys (walkDefsField cs currentClass st)
  | [], _, st, h => by
    rw [walkDefsField]
    exact h
  | (f, c) :: rest, currentClass, st, h => by
    rw [walkDefsField]
    split
    · exact uniqueKeys_walkDefs c currentClass st h
    · exact uniqueKeys_walkDefsField rest currentClass st h
end

theorem uniqueKeys_collectDefinitions (root : Node) : uniqueKeys (collectDefinitions root) :=
  uniqueKeys_walkDefs root "" ([], [])
    ⟨List.nodup_nil, List.nodup_nil, fun _ h => (by cases h)⟩

theorem method_seeds_nodup (path C : String) (methods : List (String × Node))
    (h : (methods.map Prod.fst).Nodup) :
    (methods.map (fun m => ((path, C, m.1) : Triple))).Nodup := by
  have : methods.map (fun m => ((path, C, m.1) : Triple)) =
      (methods.map Prod.fst).map (fun k => ((path, C, k) : Triple)) := by
    rw [List.map_map]
    rfl
  rw [this]
  apply List.Nodup.map _ h
  intro a b hab
  simp only [Prod.mk.injEq, true_and] at hab
  exact hab

end Modex

namespace Modex

/-! ## The walk of `collectDefinitions` as a list of records -/

mutual
theorem walkDefs_eq_events : ∀ (n : Node) (currentClass : String)
    (st : List (String × Node) × List (String × List (String × Node))),
    walkDefs n currentClass st = (defEvents n currentClass).foldl applyEvent st
  | .mk ty tx cs, currentClass, st => by
    rw [walkDefs, defEvents]
    by_cases h1 : ty = "decorated_definition"
    · rw [if_pos h1, if_pos h1]
      cases hc : childByFieldName cs "definition" with
      | some d => exact walkDefsField_eq_events cs currentClass st
      | none => exact walkDefsList_eq_events cs currentClass st
    · rw [if_neg h1, if_neg h1]
      by_cases h2 : ty = "class_definition"
      · rw [if_pos h2, if_pos h2, List.foldl_cons]
        exact walkDefsList_eq_events cs _ _
      · rw [if_neg h2, if_neg h2]
        by_cases h3 : ty = "function_definition"
        · rw [if_pos h3, if_pos h3, List.foldl_cons]
          exact walkDefsList_eq_events cs _ _
        · rw [if_neg h3, if_neg h3]
          exact walkDefsList_eq_events cs currentClass st
theorem walkDefsList_eq_events : ∀ (cs : List (String × Node)) (currentClass : String)
    (st : List (String × Node) × List (String × List (String × Node))),
    walkDefsList cs currentClass st = (defEventsList cs currentClass).foldl applyEvent st
  | [], _, st => by
    rw [walkDefsList, defEventsList]
    rfl
  | (_, c) :: rest, currentClass, st => by
    rw [walkDefsList, defEventsList, List.foldl_append, ← walkDefs_eq_events c currentClass st]
    exact walkDefsList_eq_events rest currentClass _
theorem walkDefsField_eq_events : ∀ (cs : List (String × Node)) (currentClass : String)
    (st : List (String × Node) × List (String × List (String × Node))),
    walkDefsField cs currentClass st = (defEventsField cs currentClass).foldl applyEvent st
  | [], _, st => by
    rw [walkDefsField, defEventsField]
    rfl
  | (f, c) :: rest, currentClass, st => by
    rw [walkDefsField, defEventsField]
    by_cases h : f = "definition"
    · rw [if_pos h, if_pos h]
      exact walkDefs_eq_events c currentClass st
    · rw [if_neg h, if_neg h]
      exact walkDefsField_eq_events rest currentClass st
end

theorem recordClass_functions (name : String)
    (st : List (String × Node) × List (String × List (String × Node))) :
    (recordClass name st).1 = st.1 := by
  unfold recordClass
  by_cases h : name ≠ ""
  · rw [if_pos h]
    cases mapGet st.2 name <;> rfl
  · rw [if_neg h]

theorem recordFunction_functions (node : Node) (currentClass : String)
    (st : List (String × Node) × List (String × List (String × Node))) :
    (recordFunction node currentClass st).1 =
      if currentClass = "" ∧ defName node ≠ "" then mapSet st.1 (defName node) node
      else st.1 := by
  unfold recordFunction defName
  cases hc : childByFieldName node.children "name" with
  | none => simp [nodeText]
  | some nameNode =>
    simp only [nodeText]
    by_cases h1 : nameNode.text = ""
    · simp [h1]
    · by_cases h2 : currentClass = ""
      · simp [h1, h2]
      · simp [h1, h2]

theorem foldl_applyEvent_functions (events : List DefEvent)
    (st : List (String × Node) × List (String × List (String × Node))) :
    (events.foldl applyEvent st).1 = mapCopy st.1 (functionBindings events) := by
  induction events generalizing st with
  | nil => rfl
  | cons e rest ih =>
    rw [List.foldl_cons, ih]
    cases e with
    | cls name =>
      show mapCopy (recordClass name st).1 _ = mapCopy st.1 (functionBindings rest)
      rw [recordClass_functions]
    | func currentClass node =>
      show mapCopy (recordFunction node currentClass st).1 _ = _
      rw [recordFunction_functions, functionBindings]
      by_cases h : currentClass = "" ∧ defName node ≠ ""
      · rw [if_pos h, if_pos h, mapCopy_cons]
      · rw [if_neg h, if_neg h]

theorem collectDefinitions_functions (root : Node) (name : String) :
    mapGet (collectDefinitions root).1 name =
      lastBinding (functionBindings (defEvents root "")) name := by
  unfold collectDefinitions
  rw [walkDefs_eq_events, foldl_applyEvent_functions, mapGet_mapCopy_nil]

theorem recordFunction_module_level (node : Node)
    (st : List (String × Node) × List (String × List (String × Node)))
    (h : defName node ≠ "") :
    mapGet (recordFunction node "" st).1 (defName node) = some node := by
  rw [recordFunction_functions, if_pos ⟨rfl, h⟩, mapGet_mapSet, if_pos rfl]

theorem recordFunction_in_class (node : Node) (currentClass : String)
    (st : List (String × Node) × List (String × List (String × Node)))
    (h : defName node ≠ "") (hc : currentClass ≠ "") :
    mapGet ((mapGet (recordFunction node currentClass st).2 currentClass).getD [])
      (defName node) = some node := by
  unfold recordFunction
  unfold defName at h ⊢
  cases hn : childByFieldName node.children "name" with
  | none =>
    rw [hn] at h
    exact absurd rfl h
  | some nameNode =>
    rw [hn] at h
    simp only [nodeText] at h ⊢
    rw [if_neg h, if_pos hc]
    unfold classSet
    simp only [mapGet_mapSet, if_true, Option.getD_some]

end Modex

namespace Modex

/-! ## Every model comes from a model module -/

theorem nameModel_module (fromImports : List (String × ImportFromTarget)) (name : String)
    (r : ModelRef) (h : nameModel fromImports name = some r) :
    isModelModule r.Module = true := by
  unfold nameModel at h
  cases hg : mapGet fromImports name with
  | none => rw [hg] at h; cases h
  | some target =>
    rw [hg] at h
    simp only at h
    by_cases hm : isModelModule target.Module = true
    · rw [if_pos hm] at h
      simp only [Option.some.injEq] at h
      rw [← h]
      exact hm
    · rw [if_neg hm] at h
      cases h

theorem attrModel_module (moduleImports : List (String × String))
    (fromImports : List (String × ImportFromTarget)) (moduleMap : List (String × String))
    (item : String × String) (r : ModelRef)
    (h : attrModel moduleImports fromImports moduleMap item = some r) :
    isModelModule r.Module = true := by
  unfold attrModel at h
  cases hp : mapGet moduleImports item.1 with
  | some modulePath =>
    rw [hp] at h
    simp only at h
    by_cases hm : isModelModule modulePath = true
    · rw [if_pos hm] at h
      simp only [Option.some.injEq] at h
      rw [← h]
      exact hm
    · rw [if_neg hm] at h
      cases h
  | none =>
    rw [hp] at h
    simp only at h
    cases hf : mapGet fromImports item.1 with
    | none => rw [hf] at h; cases h
    | some target =>
      rw [hf] at h
      simp only at h
      by_cases hm : isModelModule (target.Module ++ "." ++ target.Name) = true
      · rw [if_pos hm] at h
        cases hk : mapGet moduleMap (target.Module ++ "." ++ target.Name) with
        | some p =>
          rw [hk] at h
          simp only [Option.some.injEq] at h
          rw [← h]
          exact hm
        | none =>
          rw [hk] at h
          simp only at h
          by_cases hm2 : isModelModule target.Module = true
          · rw [if_pos hm2] at h
            simp only [Option.some.injEq] at h
            rw [← h]
            exact hm2
          · rw [if_neg hm2] at h
            cases h
      · rw [if_neg hm] at h
        cases h

theorem resolveModels_module (moduleImports : List (String × String))
    (fromImports : List (String × ImportFromTarget)) (moduleMap : List (String × String))
    (usage : usageInfo) (r : ModelRef)
    (h : r ∈ resolveModels moduleImports fromImports moduleMap usage) :
    isModelModule r.Module = true := by
  rcases (mem_resolveModels _ _ _ _ r).mp h with ⟨n, _, hn⟩ | ⟨it, _, hi⟩
  · exact nameModel_module _ n r hn
  · exact attrModel_module _ _ _ it r hi

theorem analyzeFunctionModels_module (functionNode : Node) (moduleInfo : ModuleInfo)
    (moduleMap : List (String × String)) (r : ModelRef)
    (h : r ∈ analyzeFunctionModels functionNode moduleInfo moduleMap) :
    isModelModule r.Module = true := by
  rw [analyzeFunctionModels_eq] at h
  exact resolveModels_module _ _ _ _ r h

end Modex

namespace Modex

/-! ## Object specs -/

theorem colons_isPrefixOf_of_ne (c : Char) (cs : List Char) (h : c ≠ ':') :
    List.isPrefixOf [':', ':'] (c :: cs) = false := by
  have h2 : ¬ (':' = c) := fun e => h e.symm
  simp [List.isPrefixOf, h2]

theorem splitN2Aux_colons (a cur rest : List Char) (h : ':' ∉ a) :
    Strings.splitN2Aux [':', ':'] cur (a ++ ':' :: ':' :: rest) = [cur.reverse ++ a, rest] := by
  induction a generalizing cur with
  | nil => simp [Strings.splitN2Aux, List.isPrefixOf]
  | cons c cs ih =>
    have hc : c ≠ ':' := fun e => h (by simp [e])
    have hcs : ':' ∉ cs := fun e => h (List.mem_cons_of_mem _ e)
    rw [List.cons_append, Strings.splitN2Aux, colons_isPrefixOf_of_ne c _ hc]
    simp only [Bool.false_eq_true, if_false]
    rw [ih _ hcs]
    simp

theorem containsAux_colons_append (a rest : List Char) :
    Strings.containsAux [':', ':'] (a ++ ':' :: ':' :: rest) = true := by
  induction a with
  | nil => simp [Strings.containsAux, List.isPrefixOf]
  | cons c cs ih =>
    rw [List.cons_append, Strings.containsAux, ih]
    simp

theorem containsAux_colons_none (a : List Char) (h : ':' ∉ a) :
    Strings.containsAux [':', ':'] a = false := by
  induction a with
  | nil => simp [Strings.containsAux]
  | cons c cs ih =>
    have hc : c ≠ ':' := fun e => h (by simp [e])
    have hcs : ':' ∉ cs := fun e => h (List.mem_cons_of_mem _ e)
    rw [Strings.containsAux, colons_isPrefixOf_of_ne c _ hc, ih hcs]
    rfl

theorem splitObject_plain (C : String) (h : ':' ∉ C.data) : splitObject C = (C, "", "") := by
  unfold splitObject
  have hc : Strings.Contains C "::" = false := containsAux_colons_none C.data h
  simp [hc]

theorem splitObject_method (C m : String) (h : ':' ∉ C.data) :
    splitObject (C ++ "::" ++ m) = ("", C, m) := by
  unfold splitObject
  have hdata : (C ++ "::" ++ m).data = C.data ++ ':' :: ':' :: m.data := by
    simp [String.data_append]
  have hc : Strings.Contains (C ++ "::" ++ m) "::" = true := by
    unfold Strings.Contains
    rw [hdata]
    exact containsAux_colons_append _ _
  have hne : C ++ "::" ++ m ≠ "" := by
    intro e
    have := congrArg String.data e
    rw [hdata] at this
    have h2 := congrArg List.length this
    simp at h2
  have hs : Strings.SplitN2 (C ++ "::" ++ m) "::" = [C, m] := by
    unfold Strings.SplitN2
    rw [hdata]
    show (Strings.splitN2Aux [':', ':'] [] _).map String.mk = _
    rw [splitN2Aux_colons _ _ _ h]
    simp
  simp only [hc, hne, ne_eq, not_false_eq_true, and_self, if_true, hs]

theorem mapGet_isSome_iff {V : Type} (m : List (String × V)) (k : String) :
    (mapGet m k).isSome = true ↔ k ∈ m.map Prod.fst := by
  induction m with
  | nil => simp [mapGet]
  | cons e rest ih =>
    obtain ⟨a, b⟩ := e
    by_cases h : a = k
    · simp [mapGet, h]
    · have h2 : ¬ k = a := fun e => h e.symm
      simp only [mapGet, h, if_false, ih, List.map_cons, List.mem_cons, h2, false_or]

theorem buildModuleInfo_path (modulePath filePath : String) (tree : Node) :
    (buildModuleInfo modulePath filePath tree).ModulePath = modulePath := rfl

theorem buildModuleInfo_classes (modulePath filePath : String) (tree : Node) :
    (buildModuleInfo modulePath filePath tree).Classes = (collectDefinitions tree).2 := rfl

theorem buildModuleInfo_functions (modulePath filePath : String) (tree : Node) :
    (buildModuleInfo modulePath filePath tree).Functions = (collectDefinitions tree).1 := rfl

end Modex

namespace Modex

/-! ## Every queued triple has an indexed module and a function name -/

theorem getModuleInfo_namedKeys (fs : FileSystem) (moduleMap : List (String × String))
    (path : String) (moduleInfo : ModuleInfo)
    (h : getModuleInfo fs moduleMap path = .ok moduleInfo) :
    namedKeys (moduleInfo.Functions, moduleInfo.Classes) := by
  unfold getModuleInfo parseModule at h
  cases hf : fs ((mapGet moduleMap path).getD "") with
  | error e => rw [hf] at h; cases h
  | ok tree =>
    rw [hf] at h
    simp only [Except.ok.injEq] at h
    rw [← h]
    exact namedKeys_collectDefinitions tree

theorem mem_getEntrySeeds (moduleInfo : ModuleInfo)
    (entryObject entryClass entryMethod : String)
    (hk : namedKeys (moduleInfo.Functions, moduleInfo.Classes)) (t : Triple)
    (h : t ∈ getEntrySeeds moduleInfo entryObject entryClass entryMethod) :
    t.1 = moduleInfo.ModulePath ∧ t.2.2 ≠ "" := by
  unfold getEntrySeeds at h
  by_cases hc : entryClass ≠ ""
  · rw [if_pos hc] at h
    by_cases hm : entryMethod ≠ ""
    · rw [if_pos hm] at h
      cases hg : mapGet moduleInfo.Classes entryClass with
      | none => rw [hg] at h; cases h
      | some methods =>
        rw [hg] at h
        simp only at h
        cases hg2 : mapGet methods entryMethod with
        | none => rw [hg2] at h; cases h
        | some node =>
          rw [hg2] at h
          simp only [List.mem_singleton] at h
          rw [h]
          exact ⟨rfl, hm⟩
    · rw [if_neg hm] at h
      cases hg : mapGet moduleInfo.Classes entryClass with
      | none => rw [hg] at h; cases h
      | some methods =>
        rw [hg] at h
        simp only [List.mem_map] at h
        obtain ⟨m, hmem, rfl⟩ := h
        exact ⟨rfl, hk.2 _ (mem_of_mapGet _ _ _ hg) m hmem⟩
  · rw [if_neg hc] at h
    by_cases ho : entryObject = ""
    · rw [if_pos ho] at h
      simp only [List.mem_append, List.mem_map, List.mem_flatMap] at h
      rcases h with ⟨f, hf, rfl⟩ | ⟨c, hcm, m, hmem, rfl⟩
      · exact ⟨rfl, hk.1 f hf⟩
      · exact ⟨rfl, hk.2 c hcm m hmem⟩
    · rw [if_neg ho] at h
      cases hg : mapGet moduleInfo.Functions entryObject with
      | some node =>
        rw [hg] at h
        simp only [List.mem_singleton] at h
        rw [h]
        exact ⟨rfl, ho⟩
      | none =>
        rw [hg] at h
        simp only at h
        cases hg2 : mapGet moduleInfo.Classes entryObject with
        | none => rw [hg2] at h; cases h
        | some methods =>
          rw [hg2] at h
          simp only [List.mem_map] at h
          obtain ⟨m, hmem, rfl⟩ := h
          exact ⟨rfl, hk.2 _ (mem_of_mapGet _ _ _ hg2) m hmem⟩

theorem mem_entrySeeds (fs : FileSystem) (moduleMap : List (String × String))
    (pathLookup : String → Option String) (entrypoint : String) (t : Triple)
    (h : t ∈ entrySeeds fs moduleMap pathLookup entrypoint) :
    (mapGet moduleMap t.1).isSome = true ∧ t.2.2 ≠ "" := by
  unfold entrySeeds at h
  cases hm : mapGet moduleMap (entryModulePath moduleMap pathLookup entrypoint) with
  | none => rw [hm] at h; cases h
  | some f =>
    rw [hm] at h
    simp only at h
    cases hg : getModuleInfo fs moduleMap (entryModulePath moduleMap pathLookup entrypoint) with
    | error e => rw [hg] at h; cases h
    | ok info =>
      rw [hg] at h
      simp only at h
      obtain ⟨h1, h2⟩ := mem_getEntrySeeds info _ _ _
        (getModuleInfo_namedKeys fs moduleMap _ info hg) t h
      refine ⟨?_, h2⟩
      rw [h1, getModuleInfo_path fs moduleMap _ info hg, hm]
      rfl

theorem mem_enqueueTargets (calls : List CallTarget) (moduleInfo : ModuleInfo)
    (moduleMap : List (String × String)) (className : String) (t : Triple)
    (h : t ∈ enqueueTargets calls moduleInfo moduleMap className) :
    (mapGet moduleMap t.1).isSome = true ∧ t.2.2 ≠ "" := by
  unfold enqueueTargets at h
  simp only [List.mem_filterMap] at h
  obtain ⟨call, _, hr⟩ := h
  cases hres : resolveCallTarget call moduleInfo moduleMap className with
  | none => rw [hres] at hr; cases hr
  | some target =>
    rw [hres] at hr
    simp only at hr
    by_cases h0 : target.2.2 = ""
    · rw [if_pos h0] at hr
      cases hr
    · rw [if_neg h0] at hr
      cases hmt : mapGet moduleMap target.1 with
      | none => rw [hmt] at hr; cases hr
      | some g =>
        rw [hmt] at hr
        simp only [Option.some.injEq] at hr
        subst hr
        refine ⟨?_, h0⟩
        rw [hmt]
        rfl

theorem mem_succs_known (calls : Node → List CallTarget) (fs : FileSystem)
    (moduleMap : List (String × String)) (u t : Triple)
    (h : t ∈ succs calls fs moduleMap u) :
    (mapGet moduleMap t.1).isSome = true ∧ t.2.2 ≠ "" := by
  unfold succs at h
  cases hb : bodyOf fs moduleMap u with
  | none => rw [hb] at h; cases h
  | some p =>
    rw [hb] at h
    exact mem_enqueueTargets _ _ _ _ t h

theorem step_queue_known (calls : Node → List CallTarget) (fs : FileSystem)
    (moduleMap : List (String × String)) (s : State)
    (h : ∀ t ∈ s.queue, (mapGet moduleMap t.1).isSome = true ∧ t.2.2 ≠ "") :
    ∀ t ∈ (step calls fs moduleMap s).queue,
      (mapGet moduleMap t.1).isSome = true ∧ t.2.2 ≠ "" := by
  cases hq : s.queue with
  | nil =>
    rw [step_nil calls fs moduleMap s hq]
    exact h
  | cons c q =>
    have hrest : ∀ t ∈ q, (mapGet moduleMap t.1).isSome = true ∧ t.2.2 ≠ "" := by
      intro t ht
      exact h t (by rw [hq]; exact List.mem_cons_of_mem _ ht)
    by_cases hskip : c.2.2 = "" ∨ c ∈ s.visited
    · rw [step_skip calls fs moduleMap s c q hq hskip]
      exact hrest
    · have h1 : c.2.2 ≠ "" := fun e => hskip (Or.inl e)
      have h2 : c ∉ s.visited := fun e => hskip (Or.inr e)
      cases hb : bodyOf fs moduleMap c with
      | none =>
        rw [step_nobody calls fs moduleMap s c q hq h1 h2 hb]
        exact hrest
      | some p =>
        obtain ⟨info, node⟩ := p
        rw [step_body calls fs moduleMap s c q info node hq h2 hb]
        intro t ht
        rcases List.mem_append.mp ht with ht | ht
        · exact hrest t ht
        · exact mem_succs_known calls fs moduleMap c t ht

theorem loop_queue_known (calls : Node → List CallTarget) (fs : FileSystem)
    (moduleMap : List (String × String)) (fuel : Nat) (s : State)
    (h : ∀ t ∈ s.queue, (mapGet moduleMap t.1).isSome = true ∧ t.2.2 ≠ "") :
    ∀ t ∈ (loop calls fs moduleMap fuel s).queue,
      (mapGet moduleMap t.1).isSome = true ∧ t.2.2 ≠ "" := by
  induction fuel generalizing s with
  | zero => exact h
  | succ n ih =>
    unfold loop
    cases hq : s.queue with
    | nil =>
      simp only
      rw [hq]
      intro t ht
      cases ht
    | cons c q => exact ih _ (step_queue_known calls fs moduleMap s h)

end Modex

namespace Modex

/-! ## The model set and the usage index are sets -/

theorem setAdd_nodup {K : Type} [DecidableEq K] (s : List K) (x : K) (h : s.Nodup) :
    (setAdd s x).Nodup := by
  unfold setAdd
  by_cases hx : x ∈ s
  · rw [if_pos hx]
    exact h
  · rw [if_neg hx]
    exact List.Nodup.append h (List.nodup_singleton x)
      (by
        intro y hy hk
        rw [List.mem_singleton] at hk
        exact hx (hk ▸ hy))

theorem mem_keys_mapSet {K V : Type} [DecidableEq K] (m : List (K × V)) (k : K) (v : V)
    (r : K) : r ∈ (mapSet m k v).map Prod.fst ↔ r ∈ m.map Prod.fst ∨ r = k := by
  rw [mapSet_keys]
  by_cases h : k ∈ m.map Prod.fst
  · rw [if_pos h]
    constructor
    · exact Or.inl
    · rintro (h1 | h1)
      · exact h1
      · rw [h1]; exact h
  · rw [if_neg h]
    simp

theorem recordModel_inv (key : String) (found : List ModelRef)
    (ms : List ModelRef) (us : List (ModelRef × List String))
    (h1 : ms.Nodup) (h2 : (us.map Prod.fst).Nodup)
    (h3 : ∀ r, r ∈ us.map Prod.fst ↔ r ∈ ms) (h4 : ∀ e ∈ us, e.2.Nodup) :
    ((found.foldl (recordModel key) (ms, us)).1).Nodup ∧
    (((found.foldl (recordModel key) (ms, us)).2).map Prod.fst).Nodup ∧
    (∀ r, r ∈ ((found.foldl (recordModel key) (ms, us)).2).map Prod.fst ↔
      r ∈ (found.foldl (recordModel key) (ms, us)).1) ∧
    (∀ e ∈ (found.foldl (recordModel key) (ms, us)).2, e.2.Nodup) := by
  induction found generalizing ms us with
  | nil => exact ⟨h1, h2, h3, h4⟩
  | cons m rest ih =>
    have hstep : (m :: rest).foldl (recordModel key) (ms, us) =
        rest.foldl (recordModel key)
          (setAdd ms m, mapSet us m (setAdd ((mapGet us m).getD []) key)) := rfl
    rw [hstep]
    apply ih
    · exact setAdd_nodup ms m h1
    · exact mapSet_nodup us m _ h2
    · intro r
      rw [mem_keys_mapSet, mem_setAdd, h3]
    · intro e he
      rcases mem_mapSet _ _ _ _ he with he | he
      · exact h4 e he
      · rw [he]
        apply setAdd_nodup
        cases hg : mapGet us m with
        | none => exact List.nodup_nil
        | some l => exact h4 _ (mem_of_mapGet _ _ _ hg)

theorem modelsInv_init (seeds : List Triple) : ModelsInv (initState seeds) where
  models_nodup := List.nodup_nil
  keys_nodup := List.nodup_nil
  keys_iff := fun r => Iff.rfl
  usage_nodup := fun e he => by cases he

theorem modelsInv_step (calls : Node → List CallTarget) (fs : FileSystem)
    (moduleMap : List (String × String)) (s : State) (h : ModelsInv s) :
    ModelsInv (step calls fs moduleMap s) := by
  cases hq : s.queue with
  | nil => rw [step_nil calls fs moduleMap s hq]; exact h
  | cons t q =>
    by_cases hskip : t.2.2 = "" ∨ t ∈ s.visited
    · rw [step_skip calls fs moduleMap s t q hq hskip]
      exact ⟨h.models_nodup, h.keys_nodup, h.keys_iff, h.usage_nodup⟩
    · have h1 : t.2.2 ≠ "" := fun e => hskip (Or.inl e)
      have h2 : t ∉ s.visited := fun e => hskip (Or.inr e)
      cases hb : bodyOf fs moduleMap t with
      | none =>
        rw [step_nobody calls fs moduleMap s t q hq h1 h2 hb]
        exact ⟨h.models_nodup, h.keys_nodup, h.keys_iff, h.usage_nodup⟩
      | some p =>
        obtain ⟨info, node⟩ := p
        rw [step_body calls fs moduleMap s t q info node hq h2 hb]
        have hr := recordModel_inv (usageKeyOf t) (modelsOf fs moduleMap t) s.models
          s.modelUsage h.models_nodup h.keys_nodup h.keys_iff h.usage_nodup
        exact ⟨hr.1, hr.2.1, hr.2.2.1, hr.2.2.2⟩

theorem modelsInv_loop (calls : Node → List CallTarget) (fs : FileSystem)
    (moduleMap : List (String × String)) (fuel : Nat) (s : State) (h : ModelsInv s) :
    ModelsInv (loop calls fs moduleMap fuel s) := by
  induction fuel generalizing s with
  | zero => exact h
  | succ n ih =>
    unfold loop
    cases hq : s.queue with
    | nil => exact h
    | cons t q => exact ih _ (modelsInv_step calls fs moduleMap s h)

theorem traverseWith_modelsInv (calls : Node → List CallTarget) (fs : FileSystem)
    (moduleMap : List (String × String)) (seeds : List Triple) :
    ModelsInv (traverseWith calls fs moduleMap seeds) :=
  modelsInv_loop calls fs moduleMap _ _ (modelsInv_init seeds)

theorem usage_list_nodup (us : List (ModelRef × List String)) (r : ModelRef)
    (h : ∀ e ∈ us, e.2.Nodup) : ((mapGet us r).getD []).Nodup := by
  cases hg : mapGet us r with
  | none => exact List.nodup_nil
  | some l => exact h _ (mem_of_mapGet _ _ _ hg)

/-! ## Usage keys determine the triple -/

theorem append_sep_inj (x : Char) (a a2 r r2 : List Char) (hr : x ∉ r) (hr2 : x ∉ r2)
    (h : a ++ x :: r = a2 ++ x :: r2) : a = a2 ∧ r = r2 := by
  induction a generalizing a2 with
  | nil =>
    cases a2 with
    | nil =>
      simp only [List.nil_append, List.cons.injEq, true_and] at h
      exact ⟨rfl, h⟩
    | cons y a3 =>
      simp only [List.nil_append, List.cons_append, List.cons.injEq] at h
      exact absurd (h.2 ▸ (by simp : x ∈ a3 ++ x :: r2)) hr
  | cons c a1 ih =>
    cases a2 with
    | nil =>
      simp only [List.nil_append, List.cons_append, List.cons.injEq] at h
      exact absurd (h.2 ▸ (by simp : x ∈ a1 ++ x :: r)) hr2
    | cons y a3 =>
      simp only [List.cons_append, List.cons.injEq] at h
      obtain ⟨e1, e2⟩ := ih a3 h.2
      exact ⟨by rw [h.1, e1], e2⟩

theorem funcClassPrefix_data (c : String) :
    (funcClassPrefix c).data = if c = "" then [] else c.data ++ ['.'] := by
  unfold funcClassPrefix
  by_cases h : c = ""
  · simp [h]
  · simp [h, String.data_append]

theorem rest_inj (c f c2 f2 : String) (hf : '.' ∉ f.data) (hf2 : '.' ∉ f2.data)
    (h : (funcClassPrefix c).data ++ f.data = (funcClassPrefix c2).data ++ f2.data) :
    c = c2 ∧ f = f2 := by
  rw [funcClassPrefix_data, funcClassPrefix_data] at h
  by_cases e1 : c = ""
  · by_cases e2 : c2 = ""
    · simp only [e1, e2, if_true, List.nil_append] at h
      exact ⟨by rw [e1, e2], String.ext h⟩
    · simp only [e1, e2, if_true, if_false, List.nil_append, List.append_assoc,
        List.singleton_append] at h
      exact absurd (h ▸ (by simp : '.' ∈ c2.data ++ '.' :: f2.data)) hf
  · by_cases e2 : c2 = ""
    · simp only [e1, e2, if_true, if_false, List.nil_append, List.append_assoc,
        List.singleton_append] at h
      exact absurd (h ▸ (by simp : '.' ∈ c.data ++ '.' :: f.data)) hf2
    · simp only [e1, e2, if_false, List.append_assoc, List.singleton_append] at h
      obtain ⟨h1, h2⟩ := append_sep_inj '.' _ _ _ _ hf hf2 h
      exact ⟨String.ext h1, String.ext h2⟩

theorem usageKeyOf_inj (t u : Triple) (ht : plainNames t) (hu : plainNames u)
    (h : usageKeyOf t = usageKeyOf u) : t = u := by
  obtain ⟨m, c, f⟩ := t
  obtain ⟨m2, c2, f2⟩ := u
  unfold plainNames at ht hu
  simp only at ht hu
  have hd : ∀ (m c f : String), (usageKeyOf (m, c, f)).data =
      m.data ++ ':' :: ((funcClassPrefix c).data ++ f.data) := by
    intro m c f
    unfold usageKeyOf
    simp [String.data_append]
  have hrest : ∀ (c f : String), ':' ∉ c.data → ':' ∉ f.data →
      ':' ∉ (funcClassPrefix c).data ++ f.data := by
    intro c f h1 h2
    rw [funcClassPrefix_data]
    by_cases e : c = ""
    · simpa [e] using h2
    · simp only [e, if_false, List.mem_append, List.mem_singleton, not_or]
      exact ⟨⟨h1, by decide⟩, h2⟩
  have hdata := congrArg String.data h
  rw [hd, hd] at hdata
  obtain ⟨h1, h2⟩ := append_sep_inj ':' _ _ _ _ (hrest c f ht.2.1 ht.2.2.2)
    (hrest c2 f2 hu.2.1 hu.2.2.2) hdata
  obtain ⟨h3, h4⟩ := rest_inj c f c2 f2 ht.2.2.1 hu.2.2.1 h2
  rw [String.ext h1, h3, h4]

end Modex

namespace Modex

/-! ## The walk of a tree contains the walk of each of its nodes -/

theorem statementsOf_mk (t x : String) (cs : List (String × Node)) :
    statementsOf (.mk t x cs) = .mk t x cs :: (walkChildren t cs).map Visit.node := by
  unfold statementsOf walk
  rw [walkNode]
  rfl

theorem walkNode_nodes (p : Option String) (f : String) (n : Node) :
    (walkNode p f n).map Visit.node = statementsOf n := by
  cases n with
  | mk t x cs =>
    rw [walkNode, statementsOf_mk]
    rfl

theorem walkNode_head (p : Option String) (f : String) (n : Node) :
    (⟨p, f, n⟩ : Visit) ∈ walkNode p f n := by
  cases n with
  | mk t x cs =>
    rw [walkNode]
    exact List.mem_cons_self _ _

theorem walkNode_children (p : Option String) (f : String) (n : Node) (w : Visit)
    (h : w ∈ walkChildren n.type n.children) : w ∈ walkNode p f n := by
  cases n with
  | mk t x cs =>
    rw [walkNode]
    exact List.mem_cons_of_mem _ h

theorem walkChildren_child (pt : String) (cs : List (String × Node)) (f : String) (c : Node)
    (h : (f, c) ∈ cs) : (⟨some pt, f, c⟩ : Visit) ∈ walkChildren pt cs := by
  induction cs with
  | nil => cases h
  | cons e rest ih =>
    obtain ⟨g, d⟩ := e
    rw [walkChildren]
    rcases List.mem_cons.mp h with h | h
    · simp only [Prod.mk.injEq] at h
      rw [h.1, h.2]
      exact List.mem_append_left _ (walkNode_head _ _ _)
    · exact List.mem_append_right _ (ih h)

theorem childByFieldName_mem (cs : List (String × Node)) (name : String) (c : Node)
    (h : childByFieldName cs name = some c) : (name, c) ∈ cs := by
  induction cs with
  | nil => cases h
  | cons e rest ih =>
    obtain ⟨g, d⟩ := e
    unfold childByFieldName at h
    by_cases hg : g = name
    · simp only [hg, if_true, Option.some.injEq] at h
      rw [hg, h]
      exact List.mem_cons_self _ _
    · simp only [hg, if_false] at h
      exact List.mem_cons_of_mem _ (ih h)

mutual
theorem walkNode_closed : ∀ (n : Node) (p : Option String) (f : String) (v : Visit),
    v ∈ walkNode p f n → ∀ w ∈ walkNode v.parentType v.field v.node, w ∈ walkNode p f n
  | .mk t x cs, p, f, v, hv => by
    rw [walkNode] at hv
    rcases List.mem_cons.mp hv with hv | hv
    · intro w hw
      rw [hv] at hw
      exact hw
    · intro w hw
      rw [walkNode]
      exact List.mem_cons_of_mem _ (walkChildren_closed cs t v hv w hw)
theorem walkChildren_closed : ∀ (cs : List (String × Node)) (pt : String) (v : Visit),
    v ∈ walkChildren pt cs → ∀ w ∈ walkNode v.parentType v.field v.node, w ∈ walkChildren pt cs
  | [], pt, v, hv => by
    rw [walkChildren] at hv
    cases hv
  | (g, c) :: rest, pt, v, hv => by
    rw [walkChildren] at hv
    intro w hw
    rw [walkChildren]
    rcases List.mem_append.mp hv with hv | hv
    · exact List.mem_append_left _ (walkNode_closed c (some pt) g v hv w hw)
    · exact List.mem_append_right _ (walkChildren_closed rest pt v hv w hw)
end

theorem walk_child (root : Node) (v : Visit) (f : String) (c : Node)
    (hv : v ∈ walk root) (hc : (f, c) ∈ v.node.children) :
    (⟨some v.node.type, f, c⟩ : Visit) ∈ walk root :=
  walkNode_closed root none "" v hv _
    (walkNode_children _ _ _ _ (walkChildren_child _ _ f c hc))

theorem statementsOf_closed (root m x : Node) (hm : m ∈ statementsOf root)
    (hx : x ∈ statementsOf m) : x ∈ statementsOf root := by
  unfold statementsOf at hm
  obtain ⟨v, hv, hvm⟩ := List.mem_map.mp hm
  rw [← hvm, ← walkNode_nodes v.parentType v.field v.node] at hx
  obtain ⟨w, hw, hwx⟩ := List.mem_map.mp hx
  exact List.mem_map.mpr ⟨w, walkNode_closed root none "" v hv w hw, hwx⟩

theorem statementsOf_self (n : Node) : n ∈ statementsOf n :=
  List.mem_map.mpr ⟨⟨none, "", n⟩, walkNode_head none "" n, rfl⟩

/-! ## The bodies in the indexes of a module are nodes of its tree -/

theorem bodiesAmong_recordClass (S : Node → Prop) (className : String)
    (st : List (String × Node) × List (String × List (String × Node)))
    (h : bodiesAmong S st) : bodiesAmong S (recordClass className st) := by
  unfold recordClass
  by_cases h1 : className ≠ ""
  · rw [if_pos h1]
    cases hg : mapGet st.2 className with
    | some ms => exact h
    | none =>
      refine ⟨h.1, ?_⟩
      intro c hc e he
      rcases mem_mapSet _ _ _ _ hc with hc | hc
      · exact h.2 c hc e he
      · rw [hc] at he
        cases he
  · rw [if_neg h1]
    exact h

theorem bodiesAmong_recordFunction (S : Node → Prop) (node : Node) (currentClass : String)
    (st : List (String × Node) × List (String × List (String × Node)))
    (hn : S node) (h : bodiesAmong S st) :
    bodiesAmong S (recordFunction node currentClass st) := by
  unfold recordFunction
  cases hc : childByFieldName node.children "name" with
  | none => exact h
  | some nameNode =>
    simp only
    by_cases h1 : nameNode.text = ""
    · simp only [h1, if_true]
      exact h
    · simp only [h1, if_false]
      by_cases h2 : currentClass ≠ ""
      · rw [if_pos h2]
        refine ⟨h.1, ?_⟩
        intro c hc2 e he
        unfold classSet at hc2
        rcases mem_mapSet _ _ _ _ hc2 with hc2 | hc2
        · exact h.2 c hc2 e he
        · rw [hc2] at he
          rcases mem_mapSet _ _ _ _ he with he | he
          · cases hg : mapGet st.2 currentClass with
            | none =>
              rw [hg] at he
              cases he
            | some ms =>
              rw [hg] at he
              exact h.2 _ (mem_of_mapGet _ _ _ hg) e he
          · rw [he]
            exact hn
      · rw [if_neg h2]
        refine ⟨?_, h.2⟩
        intro e he
        rcases mem_mapSet _ _ _ _ he with he | he
        · exact h.1 e he
        · rw [he]
          exact hn

mutual
theorem bodiesAmong_walkDefs (S : Node → Prop) : ∀ (n : Node) (currentClass : String)
    (st : List (String × Node) × List (String × List (String × Node))),
    (∀ m ∈ statementsOf n, S m) → bodiesAmong S st →
    bodiesAmong S (walkDefs n currentClass st)
  | .mk ty tx cs, currentClass, st, hn, h => by
    have hcs : ∀ c ∈ cs, ∀ m ∈ statementsOf c.2, S m := by
      intro c hc m hm
      refine hn m (statementsOf_closed _ c.2 m ?_ hm)
      exact List.mem_map.mpr ⟨⟨some ty, c.1, c.2⟩,
        walkNode_children none "" (.mk ty tx cs) _ (walkChildren_child ty cs c.1 c.2 hc), rfl⟩
    rw [walkDefs]
    split
    · split
      · exact bodiesAmong_walkDefsField S cs currentClass st hcs h
      · exact bodiesAmong_walkDefsList S cs currentClass st hcs h
    · split
      · exact bodiesAmong_walkDefsList S cs _ _ hcs (bodiesAmong_recordClass S _ st h)
      · split
        · exact bodiesAmong_walkDefsList S cs currentClass _ hcs
            (bodiesAmong_recordFunction S _ currentClass st
              (hn _ (statementsOf_self _)) h)
        · exact bodiesAmong_walkDefsList S cs currentClass st hcs h
theorem bodiesAmong_walkDefsList (S : Node → Prop) : ∀ (cs : List (String × Node))
    (currentClass : String)
    (st : List (String × Node) × List (String × List (String × Node))),
    (∀ c ∈ cs, ∀ m ∈ statementsOf c.2, S m) → bodiesAmong S st →
    bodiesAmong S (walkDefsList cs currentClass st)
  | [], _, st, _, h => by
    rw [walkDefsList]
    exact h
  | (f, c) :: rest, currentClass, st, hcs, h => by
    rw [walkDefsList]
    exact bodiesAmong_walkDefsList S rest currentClass _
      (fun d hd => hcs d (List.mem_cons_of_mem _ hd))
      (bodiesAmong_walkDefs S c currentClass st (hcs (f, c) (List.mem_cons_self _ _)) h)
theorem bodiesAmong_walkDefsField (S : Node → Prop) : ∀ (cs : List (String × Node))
    (currentClass : String)
    (st : List (String × Node) × List (String × List (String × Node))),
    (∀ c ∈ cs, ∀ m ∈ statementsOf c.2, S m) → bodiesAmong S st →
    bodiesAmong S (walkDefsField cs currentClass st)
  | [], _, st, _, h => by
    rw [walkDefsField]
    exact h
  | (f, c) :: rest, currentClass, st, hcs, h => by
    rw [walkDefsField]
    split
    · exact bodiesAmong_walkDefs S c currentClass st (hcs (f, c) (List.mem_cons_self _ _)) h
    · exact bodiesAmong_walkDefsField S rest currentClass st
        (fun d hd => hcs d (List.mem_cons_of_mem _ hd)) h
end

theorem bodiesAmong_collectDefinitions (root : Node) :
    bodiesAmong (fun m => m ∈ statementsOf root) (collectDefinitions root) :=
  bodiesAmong_walkDefs _ root "" ([], []) (fun _ h => h)
    ⟨fun _ h => (by cases h), fun _ h _ _ => (by cases h)⟩

theorem findBody_mem_statementsOf (modulePath filePath : String) (tree : Node)
    (className funcName : String) (node : Node)
    (h : findBody (buildModuleInfo modulePath filePath tree) className funcName = some node) :
    node ∈ statementsOf tree := by
  have hk := bodiesAmong_collectDefinitions tree
  unfold findBody at h
  by_cases hc : className ≠ ""
  · rw [if_pos hc] at h
    cases hg : mapGet (buildModuleInfo modulePath filePath tree).Classes className with
    | none => rw [hg] at h; cases h
    | some ms =>
      rw [hg] at h
      exact hk.2 _ (mem_of_mapGet _ _ _ hg) _ (mem_of_mapGet _ _ _ h)
  · rw [if_neg hc] at h
    exact hk.1 _ (mem_of_mapGet _ _ _ h)

/-! ## The import tables of a module -/

theorem fromBindings_congr (a b : ModuleInfo) (h1 : a.ModulePath = b.ModulePath)
    (h2 : a.IsPackage = b.IsPackage) (n : Node) : fromBindings a n = fromBindings b n := by
  unfold fromBindings
  rw [h1, h2]

theorem buildModuleInfo_moduleImports (modulePath filePath : String) (tree : Node)
    (k : String) :
    mapGet (buildModuleInfo modulePath filePath tree).ModuleImports k =
      lastBinding ((statementsOf tree).flatMap plainBindings) k := by
  show mapGet (collectImports tree _).1 k = _
  rw [collectImports_eq]
  exact mapGet_mapCopy_nil _ k

theorem buildModuleInfo_fromImports (modulePath filePath : String) (tree : Node)
    (k : String) :
    mapGet (buildModuleInfo modulePath filePath tree).FromImports k =
      lastBinding ((statementsOf tree).flatMap
        (fromBindings (buildModuleInfo modulePath filePath tree))) k := by
  show mapGet (collectImports tree _).2 k = _
  rw [collectImports_eq, mapGet_mapCopy_nil]
  have hfun : ∀ a : ModuleInfo, a.ModulePath = modulePath →
      a.IsPackage = decide (filepathBase filePath = "__init__.py") →
      fromBindings a = fromBindings (buildModuleInfo modulePath filePath tree) :=
    fun a h1 h2 => funext (fun n => fromBindings_congr _ _ h1 h2 n)
  rw [hfun _ rfl rfl]
  rfl

theorem lastBinding_of_mem {V : Type} (l : List (String × V)) (e : String × V) (h : e ∈ l) :
    ∃ v, lastBinding l e.1 = some v := by
  induction l with
  | nil => cases h
  | cons x rest ih =>
    obtain ⟨a, b⟩ := x
    rw [lastBinding]
    rcases List.mem_cons.mp h with h | h
    · cases hr : lastBinding rest e.1 with
      | some w => exact ⟨w, rfl⟩
      | none =>
        refine ⟨b, ?_⟩
        rw [h]
        simp
    · obtain ⟨v, hv⟩ := ih h
      exact ⟨v, by rw [hv]⟩

/-! ## What the walk of `collectUsage` records -/

theorem usageStep_names_mono (usage : usageInfo) (v : Visit) (x : String)
    (h : x ∈ usage.Names) : x ∈ (usageStep usage v).Names := by
  unfold usageStep
  split
  · split
    · split
      · exact h
      · exact h
    · exact h
  · split
    · split
      · exact (mem_setAdd _ _ _).mpr (Or.inl h)
      · exact h
    · exact h

theorem usageStep_attrs_mono (usage : usageInfo) (v : Visit) (x : String × String)
    (h : x ∈ usage.Attrs) : x ∈ (usageStep usage v).Attrs := by
  unfold usageStep
  split
  · split
    · split
      · exact List.mem_append_left _ h
      · exact h
    · exact h
  · split
    · split
      · exact h
      · exact h
    · exact h

theorem foldl_usageStep_names_mono (vs : List Visit) (usage : usageInfo) (x : String)
    (h : x ∈ usage.Names) : x ∈ (vs.foldl usageStep usage).Names := by
  induction vs generalizing usage with
  | nil => exact h
  | cons a rest ih =>
    rw [List.foldl_cons]
    exact ih _ (usageStep_names_mono usage a x h)

theorem foldl_usageStep_attrs_mono (vs : List Visit) (usage : usageInfo) (x : String × String)
    (h : x ∈ usage.Attrs) : x ∈ (vs.foldl usageStep usage).Attrs := by
  induction vs generalizing usage with
  | nil => exact h
  | cons a rest ih =>
    rw [List.foldl_cons]
    exact ih _ (usageStep_attrs_mono usage a x h)

theorem usageStep_names_add (usage : usageInfo) (v : Visit)
    (hty : v.node.type = "identifier") (hc : shouldCountIdentifier v = true) :
    v.node.text ∈ (usageStep usage v).Names := by
  have hne : ¬ v.node.type = "attribute" := by rw [hty]; decide
  unfold usageStep
  rw [if_neg hne, if_pos hty, if_pos hc]
  exact (mem_setAdd _ _ _).mpr (Or.inr rfl)

theorem usageStep_attrs_add (usage : usageInfo) (v : Visit) (obj attr : Node)
    (hty : v.node.type = "attribute")
    (hobj : childByFieldName v.node.children "object" = some obj)
    (hattr : childByFieldName v.node.children "attribute" = some attr)
    (hoty : obj.type = "identifier") (haty : attr.type = "identifier") :
    (obj.text, attr.text) ∈ (usageStep usage v).Attrs := by
  unfold usageStep
  rw [if_pos hty, hobj, hattr]
  simp only
  rw [if_pos ⟨hoty, haty⟩]
  exact List.mem_append_right _ (List.mem_singleton.mpr rfl)

theorem foldl_usageStep_names_add (vs : List Visit) (usage : usageInfo) (v : Visit)
    (hv : v ∈ vs) (hty : v.node.type = "identifier") (hc : shouldCountIdentifier v = true) :
    v.node.text ∈ (vs.foldl usageStep usage).Names := by
  induction vs generalizing usage with
  | nil => cases hv
  | cons a rest ih =>
    rw [List.foldl_cons]
    rcases List.mem_cons.mp hv with h | h
    · rw [← h]
      exact foldl_usageStep_names_mono rest _ _ (usageStep_names_add usage v hty hc)
    · exact ih _ h

theorem mem_collectUsage_names (functionNode : Node) (v : Visit) (hv : v ∈ walk functionNode)
    (hty : v.node.type = "identifier") (hc : shouldCountIdentifier v = true) :
    v.node.text ∈ (collectUsage functionNode).Names :=
  foldl_usageStep_names_add _ _ v hv hty hc

theorem foldl_usageStep_attrs_add (vs : List Visit) (usage : usageInfo) (v : Visit)
    (obj attr : Node) (hv : v ∈ vs) (hty : v.node.type = "attribute")
    (hobj : childByFieldName v.node.children "object" = some obj)
    (hattr : childByFieldName v.node.children "attribute" = some attr)
    (hoty : obj.type = "identifier") (haty : attr.type = "identifier") :
    (obj.text, attr.text) ∈ (vs.foldl usageStep usage).Attrs := by
  induction vs generalizing usage with
  | nil => cases hv
  | cons a rest ih =>
    rw [List.foldl_cons]
    rcases List.mem_cons.mp hv with h | h
    · rw [← h]
      exact foldl_usageStep_attrs_mono rest _ _
        (usageStep_attrs_add usage v obj attr hty hobj hattr hoty haty)
    · exact ih _ h

theorem mem_collectUsage_attrs (functionNode : Node) (v : Visit) (obj attr : Node)
    (hv : v ∈ walk functionNode) (hty : v.node.type = "attribute")
    (hobj : childByFieldName v.node.children "object" = some obj)
    (hattr : childByFieldName v.node.children "attribute" = some attr)
    (hoty : obj.type = "identifier") (haty : attr.type = "identifier") :
    (obj.text, attr.text) ∈ (collectUsage functionNode).Attrs :=
  foldl_usageStep_attrs_add _ _ v obj attr hv hty hobj hattr hoty haty

theorem attribute_object_counted (functionNode : Node) (v : Visit) (obj : Node)
    (hv : v ∈ walk functionNode) (hty : v.node.type = "attribute")
    (hobj : childByFieldName v.node.children "object" = some obj)
    (hoty : obj.type = "identifier") :
    obj.text ∈ (collectUsage functionNode).Names := by
  have hw : (⟨some v.node.type, "object", obj⟩ : Visit) ∈ walk functionNode :=
    walk_child functionNode v "object" obj hv (childByFieldName_mem _ _ _ hobj)
  rw [hty] at hw
  exact mem_collectUsage_names functionNode ⟨some "attribute", "object", obj⟩ hw hoty rfl

/-! ## The tables a body is resolved with, when the body has no import of its own -/

theorem buildModuleInfo_tables_nodup (modulePath filePath : String) (tree : Node) :
    ((buildModuleInfo modulePath filePath tree).ModuleImports.map Prod.fst).Nodup ∧
    ((buildModuleInfo modulePath filePath tree).FromImports.map Prod.fst).Nodup := by
  show ((collectImports tree _).1.map Prod.fst).Nodup ∧
    ((collectImports tree _).2.map Prod.fst).Nodup
  rw [collectImports_eq]
  exact ⟨mapCopy_nodup _ [] List.nodup_nil, mapCopy_nodup _ [] List.nodup_nil⟩

theorem mapGet_merged_fallback {V : Type} (m bs : List (String × V)) (k : String)
    (hm : (m.map Prod.fst).Nodup) (h : mapGet (mapCopy [] bs) k = none) :
    mapGet (mapCopy (mapCopy [] m) (mapCopy [] bs)) k = mapGet m k := by
  rw [mapGet_mapCopy_table, h]
  simp only
  rw [mapGet_mapCopy_nil, lastBinding_eq_mapGet _ _ hm]

theorem resolveCallTarget_name_from (moduleInfo : ModuleInfo)
    (moduleMap : List (String × String)) (currentClass name M N p : String)
    (hn : name ≠ "") (hf : mapGet moduleInfo.Functions name = none)
    (hi : mapGet moduleInfo.FromImports name = some ⟨M, N⟩)
    (hm : mapGet moduleMap M = some p) :
    resolveCallTarget ⟨"name", name, "", ""⟩ moduleInfo moduleMap currentClass =
      some (M, "", N) := by
  unfold resolveCallTarget
  simp only [true_and]
  rw [if_pos hn, hf]
  simp only
  rw [hi]
  simp only
  rw [hm]

theorem resolveCallTarget_attr_module (moduleInfo : ModuleInfo)
    (moduleMap : List (String × String)) (currentClass base attr M p : String)
    (hb : base ≠ "") (ha : attr ≠ "") (hs : base ≠ "self") (hc : base ≠ "cls")
    (hi : mapGet moduleInfo.ModuleImports base = some M)
    (hm : mapGet moduleMap M = some p) :
    resolveCallTarget ⟨"attr", "", base, attr⟩ moduleInfo moduleMap currentClass =
      some (M, "", attr) := by
  have h0 : ¬ ("attr" = "name") := by decide
  unfold resolveCallTarget
  simp only [h0, false_and, if_false, true_and]
  rw [if_pos ⟨hb, ha⟩]
  simp only [hs, hc, or_self, false_and, if_false, hi, hm]
  rfl

end Modex

namespace Modex

/-- C6: a module path is a model module exactly when one of its dot-separated components
(the dot-free pieces whose join with dots is the path, which is what splitting on dots yields)
is the word models; the five paths named by the claim are decided accordingly. -/
theorem isModelModule_iff_models_component :
    (∀ p : String, isModelModule p = true ↔
      ∃ parts : List String, (∀ x ∈ parts, '.' ∉ x.data) ∧ Strings.Join parts "." = p ∧
        "models" ∈ parts) ∧
    (∀ p : String, isModelModule p = true ↔ "models" ∈ Strings.Split p ".") ∧
    isModelModule "app.models.user" = true ∧ isModelModule "a.models.b" = true ∧
    isModelModule "app.modelsx.user" = false ∧ isModelModule "a.modelsx.b" = false ∧
    isModelModule "" = false := by
  refine ⟨fun p => ?_, isModelModule_iff_mem, by decide, by decide, by decide, by decide,
    by decide⟩
  rw [isModelModule_iff_mem]
  constructor
  · intro h
    exact ⟨Strings.Split p ".", Split_dot_no_dot p, Join_Split_dot p, h⟩
  · rintro ⟨parts, hdot, hjoin, hmem⟩
    have hne : parts ≠ [] := by
      intro e; rw [e] at hmem; cases hmem
    rw [← hjoin, Split_dot_Join parts hne hdot]
    exact hmem

end Modex

namespace Modex

/-- C7 (as amended): resolveRelativeImport agrees with the reference definition written from
the specification for every current path, imported path, level and package flag; when the
level is positive and does not exceed the base, the result is empty exactly when the list of
components is empty or is the single empty component; and every entry of a from-import table
built by collectImports has a non-empty target module. -/
theorem resolveRelativeImport_matches_reference :
    (∀ (current module : String) (level : Nat) (isPackage : Bool),
      resolveRelativeImport current module level isPackage =
        resolveRelativeImportSpec current module level isPackage) ∧
    (∀ (current module : String) (level : Nat) (isPackage : Bool),
      level ≠ 0 → ¬ (level - 1 > (components (specBase current isPackage)).length) →
      (resolveRelativeImport current module level isPackage = "" ↔
        specParts current module level isPackage = [] ∨
        specParts current module level isPackage = [""])) ∧
    (∀ (node : Node) (moduleInfo : ModuleInfo) (entry : String × ImportFromTarget),
      entry ∈ (collectImports node moduleInfo).2 → entry.2.Module ≠ "") := by
  refine ⟨resolveRelativeImport_eq_spec, ?_, collectImports_module_ne⟩
  intro current module level isPackage h0 h1
  rw [resolveRelativeImport_eq_spec]
  unfold resolveRelativeImportSpec
  simp only [h0, h1, if_false]
  exact Join_eq_empty _

/-- C7, counterexample to the clause that the result is empty only when the list of
components is empty: in the package whose path is .x, a level 2 import of nothing resolves
to the empty string although the list of components is the one empty component. -/
theorem resolveRelativeImport_empty_with_component :
    resolveRelativeImport ".x" "" 2 true = "" ∧
    specParts ".x" "" 2 true = [""] ∧
    specParts ".x" "" 2 true ≠ [] ∧
    ¬ (2 - 1 > (components (specBase ".x" true)).length) := by
  decide

end Modex

namespace Modex

/-- C8 (as amended): a relative from-import keeps the imported name apart from the module.
For `from . import sibling` the entry of alias sibling has name sibling and module pkg when
the statement stands in the initializer of pkg or in the plain module pkg.sub, and module
pkg.sub when it stands in the initializer of package pkg.sub; for `from .. import other` in
the plain module pkg.sub.mod the entry has module pkg and name other.  The paths pkg.sibling
and pkg.other are the compound paths module + "." + name of these entries. -/
theorem relative_import_examples :
    Example.fromImportOf Example.relFs "pkg" "pkg/__init__.py" "sibling" =
      some ⟨"pkg", "sibling"⟩ ∧
    Example.fromImportOf Example.relFs "pkg.sub" "pkg/sub.py" "sibling" =
      some ⟨"pkg", "sibling"⟩ ∧
    Example.fromImportOf Example.relFs "pkg.sub" "pkg/sub/__init__.py" "sibling" =
      some ⟨"pkg.sub", "sibling"⟩ ∧
    Example.fromImportOf Example.relFs "pkg.sub.mod" "pkg/sub/mod.py" "other" =
      some ⟨"pkg", "other"⟩ ∧
    resolveRelativeImport "pkg" "" 1 true = "pkg" ∧
    resolveRelativeImport "pkg.sub" "" 1 false = "pkg" ∧
    resolveRelativeImport "pkg.sub" "" 1 true = "pkg.sub" ∧
    resolveRelativeImport "pkg.sub.mod" "" 2 false = "pkg" ∧
    "pkg" ++ "." ++ "sibling" = "pkg.sibling" ∧ "pkg" ++ "." ++ "other" = "pkg.other" := by
  decide

/-- C8, counterexample: the module a relative import is resolved to is not the compound
path.  Wherever `from . import sibling` stands (initializer of pkg, plain module pkg.sub,
initializer of pkg.sub) the result of resolveRelativeImport and the Module of the entry of
sibling differ from pkg.sibling, and for `from .. import other` in pkg.sub.mod they differ
from pkg.other. -/
theorem relative_import_module_not_compound :
    resolveRelativeImport "pkg" "" 1 true ≠ "pkg.sibling" ∧
    resolveRelativeImport "pkg.sub" "" 1 false ≠ "pkg.sibling" ∧
    resolveRelativeImport "pkg.sub" "" 1 true ≠ "pkg.sibling" ∧
    resolveRelativeImport "pkg.sub.mod" "" 2 false ≠ "pkg.other" ∧
    (Example.fromImportOf Example.relFs "pkg" "pkg/__init__.py" "sibling").map
      ImportFromTarget.Module ≠ some "pkg.sibling" ∧
    (Example.fromImportOf Example.relFs "pkg.sub" "pkg/sub.py" "sibling").map
      ImportFromTarget.Module ≠ some "pkg.sibling" ∧
    (Example.fromImportOf Example.relFs "pkg.sub" "pkg/sub/__init__.py" "sibling").map
      ImportFromTarget.Module ≠ some "pkg.sibling" ∧
    (Example.fromImportOf Example.relFs "pkg.sub.mod" "pkg/sub/mod.py" "other").map
      ImportFromTarget.Module ≠ some "pkg.other" := by
  decide

end Modex

namespace Modex

/-- C9: in analyzeFunctionModels, an attribute pair of the body whose base is a from-import
alias with target (M, N) and no plain-import alias contributes the model (M.N, attr) when the
compound path M.N is a key of the module map and a model module, else the model (M, N) when M
is a model module, else nothing; and what it contributes is in the returned set. -/
theorem attribute_pair_of_from_import (functionNode : Node) (moduleInfo : ModuleInfo)
    (moduleMap : List (String × String)) (base attr M N : String)
    (hpair : (base, attr) ∈ (collectUsage functionNode).Attrs)
    (hplain : mapGet (mergedModuleImports functionNode moduleInfo) base = none)
    (hfrom : mapGet (mergedFromImports functionNode moduleInfo) base = some ⟨M, N⟩) :
    attrModel (mergedModuleImports functionNode moduleInfo)
        (mergedFromImports functionNode moduleInfo) moduleMap (base, attr) =
      (if (mapGet moduleMap (M ++ "." ++ N)).isSome = true ∧
          isModelModule (M ++ "." ++ N) = true then
        some ⟨M ++ "." ++ N, attr⟩
      else if isModelModule M = true then some ⟨M, N⟩
      else none) ∧
    (∀ r, attrModel (mergedModuleImports functionNode moduleInfo)
        (mergedFromImports functionNode moduleInfo) moduleMap (base, attr) = some r →
      r ∈ analyzeFunctionModels functionNode moduleInfo moduleMap) := by
  refine ⟨attrModel_of_from _ _ _ base attr M N hplain hfrom, ?_⟩
  intro r hr
  rw [mem_analyzeFunctionModels]
  exact Or.inr ⟨(base, attr), hpair, hr⟩

/-- C9, witness: in `def show(): return user.User` under `from app.models import user`, with
app.models.user an indexed module, the pair (user, User) contributes the model
(app.models.user, User). -/
theorem attribute_pair_of_from_import_witness :
    ("user", "User") ∈ (collectUsage Example.showNode).Attrs ∧
    mapGet (mergedModuleImports Example.showNode Example.viewsInfo) "user" = none ∧
    mapGet (mergedFromImports Example.showNode Example.viewsInfo) "user" =
      some ⟨"app.models", "user"⟩ ∧
    attrModel (mergedModuleImports Example.showNode Example.viewsInfo)
        (mergedFromImports Example.showNode Example.viewsInfo) Example.viewsMap
        ("user", "User") = some ⟨"app.models.user", "User"⟩ ∧
    (⟨"app.models.user", "User"⟩ : ModelRef) ∈
      analyzeFunctionModels Example.showNode Example.viewsInfo Example.viewsMap :=
  have h := attribute_pair_of_from_import Example.showNode Example.viewsInfo Example.viewsMap
    "user" "User" "app.models" "user" (by decide) (by decide) (by decide)
  ⟨by decide, by decide, by decide, by decide, h.2 _ (by decide)⟩

end Modex

namespace Modex

/-- C10: analyzeFunctionModels resolves a body with the module-level tables overridden key by
key by the tables of the function node.  The value of an alias in either merged table is the
one its last binding gives it in the list made of the module-level entries followed by
the import statements of the function subtree in document order; so an alias bound in the
function-local table has its function-local target, and within the function-local table the
last statement binding an alias wins.  In the example, `f` imports User from app.models.b
locally while the module's own table binds User to app.models.c, and the model reported for
`f` is (app.models.b, User). -/
theorem local_imports_override :
    (∀ (functionNode : Node) (moduleInfo : ModuleInfo) (moduleMap : List (String × String)),
      analyzeFunctionModels functionNode moduleInfo moduleMap =
        resolveModels (mergedModuleImports functionNode moduleInfo)
          (mergedFromImports functionNode moduleInfo) moduleMap (collectUsage functionNode)) ∧
    (∀ (functionNode : Node) (moduleInfo : ModuleInfo) (k : String),
      mapGet (mergedModuleImports functionNode moduleInfo) k =
        lastBinding (moduleInfo.ModuleImports ++
          (statementsOf functionNode).flatMap plainBindings) k) ∧
    (∀ (functionNode : Node) (moduleInfo : ModuleInfo) (k : String),
      mapGet (mergedFromImports functionNode moduleInfo) k =
        lastBinding (moduleInfo.FromImports ++
          (statementsOf functionNode).flatMap (fromBindings moduleInfo)) k) ∧
    (∀ (functionNode : Node) (moduleInfo : ModuleInfo) (k v : String),
      mapGet (collectImports functionNode moduleInfo).1 k = some v →
      mapGet (mergedModuleImports functionNode moduleInfo) k = some v) ∧
    (∀ (functionNode : Node) (moduleInfo : ModuleInfo) (k : String) (t : ImportFromTarget),
      mapGet (collectImports functionNode moduleInfo).2 k = some t →
      mapGet (mergedFromImports functionNode moduleInfo) k = some t) ∧
    (∀ (node : Node) (moduleInfo : ModuleInfo) (k : String),
      mapGet (collectImports node moduleInfo).1 k =
        lastBinding ((statementsOf node).flatMap plainBindings) k ∧
      mapGet (collectImports node moduleInfo).2 k =
        lastBinding ((statementsOf node).flatMap (fromBindings moduleInfo)) k) ∧
    (mapGet Example.handlersInfo.FromImports "User" = some ⟨"app.models.c", "User"⟩ ∧
      mapGet (collectImports Example.localB Example.handlersInfo).2 "User" =
        some ⟨"app.models.b", "User"⟩ ∧
      analyzeFunctionModels Example.localB Example.handlersInfo [] =
        [⟨"app.models.b", "User"⟩]) := by
  refine ⟨fun _ _ _ => rfl, ?_, ?_, ?_, ?_, ?_, by decide⟩
  · intro functionNode moduleInfo k
    unfold mergedModuleImports statementsOf
    rw [collectImports_eq, mapGet_mapCopy_table, mapGet_mapCopy_nil, mapGet_mapCopy_nil,
      lastBinding_append]
  · intro functionNode moduleInfo k
    unfold mergedFromImports statementsOf
    rw [collectImports_eq, mapGet_mapCopy_table, mapGet_mapCopy_nil, mapGet_mapCopy_nil,
      lastBinding_append]
  · intro functionNode moduleInfo k v h
    unfold mergedModuleImports
    rw [collectImports_eq] at h ⊢
    rw [mapGet_mapCopy_table, h]
  · intro functionNode moduleInfo k t h
    unfold mergedFromImports
    rw [collectImports_eq] at h ⊢
    rw [mapGet_mapCopy_table, h]
  · intro node moduleInfo k
    unfold statementsOf
    rw [collectImports_eq]
    exact ⟨mapGet_mapCopy_nil _ k, mapGet_mapCopy_nil _ k⟩

end Modex

namespace Modex

/-- C1: the model set returned by collectModelsForEntrypoint is the union of
analyzeFunctionModels over the bodies of exactly the triples that are reachable from the
seeds of getEntrySeeds along the edges "u is the result of resolveCallTarget on a call of
the body of t" and that have a body in their module's index.  It holds for every file
system, so also when every indexed module loads. -/
theorem collected_models_eq_reachable_union (fs : FileSystem)
    (moduleMap : List (String × String)) (pathLookup : String → Option String)
    (order : SeedOrder) (entrypoint : String) (r : ModelRef) :
    r ∈ (collectModelsForEntrypoint fs moduleMap pathLookup order entrypoint).models ↔
      ∃ t moduleInfo funcNode,
        Reachable analyzeFunctionCalls fs moduleMap
          (entrySeeds fs moduleMap pathLookup entrypoint) t ∧
        bodyOf fs moduleMap t = some (moduleInfo, funcNode) ∧
        r ∈ analyzeFunctionModels funcNode moduleInfo moduleMap := by
  rw [(collect_models fs moduleMap pathLookup order entrypoint).1]
  unfold traverse
  rw [traverseWith_models]
  constructor
  · rintro ⟨t, info, node, hreach, hb, hr⟩
    exact ⟨t, info, node, reachable_mono _ _ fs moduleMap _ _
      (fun u hu => (seedOrder_mem order _ u).mp hu) (fun _ _ hc => hc) t hreach, hb, hr⟩
  · rintro ⟨t, info, node, hreach, hb, hr⟩
    exact ⟨t, info, node, reachable_mono _ _ fs moduleMap _ _
      (fun u hu => (seedOrder_mem order _ u).mpr hu) (fun _ _ hc => hc) t hreach, hb, hr⟩

end Modex

namespace Modex

/-- C2: for every file system, module map and seed list the loop of the traversal ends with
an empty queue within traversalFuel iterations (more iterations change nothing), no triple
has its body analysed twice, and a triple has its body analysed exactly once precisely when
it is reachable and has a body; the visited set has no repetition and holds exactly the
reachable triples with a function name.  With `def A(): B()` and `def B(): A()` and seed A, each
function enqueues the other, the loop ends, and the bodies analysed are A once and B once. -/
theorem traversal_terminates_each_body_once :
    (∀ (fs : FileSystem) (moduleMap : List (String × String)) (seeds : List Triple),
      (traverse fs moduleMap seeds).queue = [] ∧
      (∀ extra : Nat,
        loop analyzeFunctionCalls fs moduleMap
          (traversalFuel analyzeFunctionCalls fs moduleMap seeds + extra) (initState seeds) =
        traverse fs moduleMap seeds) ∧
      (traverse fs moduleMap seeds).visited.Nodup ∧
      (∀ t : Triple, t ∈ (traverse fs moduleMap seeds).visited ↔
        (Reachable analyzeFunctionCalls fs moduleMap seeds t ∧ t.2.2 ≠ "")) ∧
      (∀ t : Triple, timesAnalysed (traverse fs moduleMap seeds) t ≤ 1) ∧
      (∀ t : Triple, timesAnalysed (traverse fs moduleMap seeds) t = 1 ↔
        (Reachable analyzeFunctionCalls fs moduleMap seeds t ∧
          (bodyOf fs moduleMap t).isSome = true))) ∧
    (succs analyzeFunctionCalls Example.mutualFs Example.mutualMap ("m", "", "A") =
        [("m", "", "B")] ∧
      succs analyzeFunctionCalls Example.mutualFs Example.mutualMap ("m", "", "B") =
        [("m", "", "A")] ∧
      (traverse Example.mutualFs Example.mutualMap [("m", "", "A")]).queue = [] ∧
      (traverse Example.mutualFs Example.mutualMap [("m", "", "A")]).analysed =
        [("m", "", "A"), ("m", "", "B")]) := by
  refine ⟨fun fs moduleMap seeds => ⟨traverseWith_queue _ fs moduleMap seeds, ?_,
    (traverseWith_inv _ fs moduleMap seeds).vis_nodup,
    traverseWith_visited _ fs moduleMap seeds, ?_, ?_⟩, by decide⟩
  · intro extra
    exact loop_add _ fs moduleMap _ extra _ (traverseWith_queue _ fs moduleMap seeds)
  · intro t
    exact timesAnalysed_le_one _ t (traverseWith_analysed_nodup _ fs moduleMap seeds)
  · intro t
    rw [← traverseWith_analysed]
    constructor
    · intro h
      exact (timesAnalysed_pos _ t).mp (by unfold traverse at h; omega)
    · intro h
      have h1 := timesAnalysed_le_one _ t
        (traverseWith_analysed_nodup analyzeFunctionCalls fs moduleMap seeds)
      have h2 := (timesAnalysed_pos _ t).mpr h
      unfold traverse
      omega

end Modex

namespace Modex

/-- C3, the code at the failing input: tracing the whole module app.service, whose functions
f and g each call an imported class, prints the two ERROR lines in the order in which the
run enumerated the Functions map, so two runs on the same tree print different text. -/
theorem error_lines_follow_seed_order :
    report true (collectModelsForEntrypoint Example.twoErrorsFs Example.twoErrorsMap
        (fun _ => none) SeedOrder.id "app.service") =
      ⟨["ERROR: Function not found: app.a:.U", "ERROR: Function not found: app.b:.V"], 2⟩ ∧
    report true (collectModelsForEntrypoint Example.twoErrorsFs Example.twoErrorsMap
        (fun _ => none) SeedOrder.reversed "app.service") =
      ⟨["ERROR: Function not found: app.b:.V", "ERROR: Function not found: app.a:.U"], 2⟩ ∧
    report true (collectModelsForEntrypoint Example.twoErrorsFs Example.twoErrorsMap
        (fun _ => none) SeedOrder.id "app.service") ≠
      report true (collectModelsForEntrypoint Example.twoErrorsFs Example.twoErrorsMap
        (fun _ => none) SeedOrder.reversed "app.service") := by
  decide

end Modex

namespace Modex

/-- C4: the final model set and the final usage keys of every model do not depend on the
order of the work queue: the traversal from any rearrangement of the seed list, with the
calls of every body taken in any order, ends with the same members in the model set and
the same usage keys for each model. -/
theorem traversal_result_order_independent (calls2 : Node → List CallTarget)
    (fs : FileSystem) (moduleMap : List (String × String)) (seeds seeds2 : List Triple)
    (hseeds : seeds2.Perm seeds) (hcalls : ∀ n, (calls2 n).Perm (analyzeFunctionCalls n)) :
    (∀ r, r ∈ (traverseWith calls2 fs moduleMap seeds2).models ↔
      r ∈ (traverse fs moduleMap seeds).models) ∧
    (∀ r k, k ∈ (mapGet (traverseWith calls2 fs moduleMap seeds2).modelUsage r).getD [] ↔
      k ∈ (mapGet (traverse fs moduleMap seeds).modelUsage r).getD []) := by
  have hreach : ∀ t, Reachable calls2 fs moduleMap seeds2 t ↔
      Reachable analyzeFunctionCalls fs moduleMap seeds t := by
    intro t
    constructor
    · exact reachable_mono _ _ fs moduleMap _ _ (fun u hu => hseeds.mem_iff.mp hu)
        (fun n c hc => (hcalls n).mem_iff.mp hc) t
    · exact reachable_mono _ _ fs moduleMap _ _ (fun u hu => hseeds.mem_iff.mpr hu)
        (fun n c hc => (hcalls n).mem_iff.mpr hc) t
  constructor
  · intro r
    unfold traverse
    rw [traverseWith_models, traverseWith_models]
    simp only [hreach]
  · intro r k
    unfold traverse
    rw [traverseWith_usage, traverseWith_usage]
    simp only [hreach]

/-- C4, witness: in the module app.jobs the seeds f, g and g, f, with the calls of each body
reversed, yield the same models and usage keys. -/
theorem traversal_result_order_independent_witness :
    [("app.jobs", "", "g"), ("app.jobs", "", "f")].Perm
      [("app.jobs", "", "f"), ("app.jobs", "", "g")] ∧
    (∀ n, (analyzeFunctionCalls n).reverse.Perm (analyzeFunctionCalls n)) ∧
    (∀ r, r ∈ (traverseWith (fun n => (analyzeFunctionCalls n).reverse) Example.jobsFs
        Example.jobsMap [("app.jobs", "", "g"), ("app.jobs", "", "f")]).models ↔
      r ∈ (traverse Example.jobsFs Example.jobsMap
        [("app.jobs", "", "f"), ("app.jobs", "", "g")]).models) ∧
    (∀ r k, k ∈ (mapGet (traverseWith (fun n => (analyzeFunctionCalls n).reverse)
        Example.jobsFs Example.jobsMap
        [("app.jobs", "", "g"), ("app.jobs", "", "f")]).modelUsage r).getD [] ↔
      k ∈ (mapGet (traverse Example.jobsFs Example.jobsMap
        [("app.jobs", "", "f"), ("app.jobs", "", "g")]).modelUsage r).getD []) :=
  have hp : [("app.jobs", "", "g"), ("app.jobs", "", "f")].Perm
      [("app.jobs", "", "f"), ("app.jobs", "", "g")] := List.Perm.swap _ _ _
  have hc : ∀ n, (analyzeFunctionCalls n).reverse.Perm (analyzeFunctionCalls n) :=
    fun _ => List.reverse_perm _
  have h := traversal_result_order_independent (fun n => (analyzeFunctionCalls n).reverse)
    Example.jobsFs Example.jobsMap _ _ hp hc
  ⟨hp, hc, h.1, h.2⟩

end Modex

namespace Modex

/-- C5: in the source tree where app.models.user defines class User and app.service holds
`from app.models.user import User` and `def load(id): return User.objects.get(id)`, tracing
the entrypoint app.service:load yields no diagnostic, the model set with the one model
(app.models.user, User), printed app.models.user.User, and for that model the usage set
with the one key app.service:load. -/
theorem scenario_load_reports_user (pathLookup : String → Option String) (order : SeedOrder) :
    (collectModelsForEntrypoint Example.scenarioFs Example.scenarioMap pathLookup order
        "app.service:load").errors = [] ∧
    (collectModelsForEntrypoint Example.scenarioFs Example.scenarioMap pathLookup order
        "app.service:load").models = [⟨"app.models.user", "User"⟩] ∧
    (collectModelsForEntrypoint Example.scenarioFs Example.scenarioMap pathLookup order
        "app.service:load").modelUsage =
      [(⟨"app.models.user", "User"⟩, ["app.service:load"])] ∧
    report false (collectModelsForEntrypoint Example.scenarioFs Example.scenarioMap pathLookup
        order "app.service:load") = ⟨["app.models.user.User"], 0⟩ ∧
    report true (collectModelsForEntrypoint Example.scenarioFs Example.scenarioMap pathLookup
        order "app.service:load") = ⟨["app.models.user.User", "  - app.service:load"], 0⟩ := by
  have hpath : entryModulePath Example.scenarioMap pathLookup "app.service:load" =
      "app.service" := by
    have hsplit : splitEntrypoint "app.service:load" = ("app.service", "load") := by decide
    have hget : mapGet Example.scenarioMap "app.service" = some "app/service.py" := by decide
    have hne : ¬ ("app.service" = "") := by decide
    unfold entryModulePath resolveEntrypointModule
    rw [hsplit]
    simp only [hne, if_false, hget]
  have hseeds : entrySeeds Example.scenarioFs Example.scenarioMap pathLookup
      "app.service:load" = [("app.service", "", "load")] := by
    unfold entrySeeds
    rw [hpath]
    decide
  have hord : order.apply [("app.service", "", "load")] = [("app.service", "", "load")] :=
    List.perm_singleton.mp (order.perm _)
  have hm := collect_models Example.scenarioFs Example.scenarioMap pathLookup order
    "app.service:load"
  have he := collect_of_seeds Example.scenarioFs Example.scenarioMap pathLookup order
    "app.service:load" (by rw [hseeds]; decide)
  rw [hseeds, hord] at hm he
  have h1 : (traverse Example.scenarioFs Example.scenarioMap
      [("app.service", "", "load")]).errors = [] := by decide
  have h2 : (traverse Example.scenarioFs Example.scenarioMap
      [("app.service", "", "load")]).models = [⟨"app.models.user", "User"⟩] := by decide
  have h3 : (traverse Example.scenarioFs Example.scenarioMap
      [("app.service", "", "load")]).modelUsage =
      [(⟨"app.models.user", "User"⟩, ["app.service:load"])] := by decide
  have e1 := he.trans h1
  have e2 := hm.1.trans h2
  have e3 := hm.2.trans h3
  refine ⟨e1, e2, e3, ?_, ?_⟩
  · unfold report
    rw [e1, e2, e3]
    decide
  · unfold report
    rw [e1, e2, e3]
    decide

end Modex

namespace Modex

/-- C11 (as amended): for an attribute call base.attr(...) that no earlier rule of
resolveCallTarget resolves (base is not self/cls with a matching method of the current
class, no plain-import alias of a known module, no from-import alias whose compound path is
a known module), when base names a class of the current module's class index the call
resolves to (current module, base, attr) if attr is a method recorded for that class, and
is not resolved otherwise. -/
theorem resolveCallTarget_class_rule (call : CallTarget) (moduleInfo : ModuleInfo)
    (moduleMap : List (String × String)) (currentClass : String)
    (methods : List (String × Node))
    (hkind : call.Kind = "attr") (hbase : call.Base ≠ "") (hattr : call.Attr ≠ "")
    (hself : ¬ ((call.Base = "self" ∨ call.Base = "cls") ∧ currentClass ≠ "" ∧
      (mapGet ((mapGet moduleInfo.Classes currentClass).getD []) call.Attr).isSome = true))
    (hplain : ∀ p, mapGet moduleInfo.ModuleImports call.Base = some p →
      mapGet moduleMap p = none)
    (hfrom : ∀ t, mapGet moduleInfo.FromImports call.Base = some t →
      mapGet moduleMap (t.Module ++ "." ++ t.Name) = none)
    (hclass : mapGet moduleInfo.Classes call.Base = some methods) :
    resolveCallTarget call moduleInfo moduleMap currentClass =
      if (mapGet methods call.Attr).isSome = true then
        some (moduleInfo.ModulePath, call.Base, call.Attr)
      else none := by
  have hname : ¬ (call.Kind = "name" ∧ call.Name ≠ "") := by
    rw [hkind]
    intro h
    exact absurd h.1 (by decide)
  unfold resolveCallTarget
  rw [if_neg hname, if_pos ⟨hkind, hbase, hattr⟩]
  have h1 : (if (call.Base = "self" ∨ call.Base = "cls") ∧ currentClass ≠ "" then
      match mapGet ((mapGet moduleInfo.Classes currentClass).getD []) call.Attr with
      | some _ => some (moduleInfo.ModulePath, currentClass, call.Attr)
      | none => none
      else none) = (none : Option Triple) := by
    by_cases hc : (call.Base = "self" ∨ call.Base = "cls") ∧ currentClass ≠ ""
    · rw [if_pos hc]
      cases hm : mapGet ((mapGet moduleInfo.Classes currentClass).getD []) call.Attr with
      | none => rfl
      | some n => exact absurd ⟨hc.1, hc.2, by rw [hm]; rfl⟩ hself
    · rw [if_neg hc]
  have h2 : (match mapGet moduleInfo.ModuleImports call.Base with
      | some modulePath =>
        match mapGet moduleMap modulePath with
        | some _ => some (modulePath, "", call.Attr)
        | none => none
      | none => none) = (none : Option Triple) := by
    cases hm : mapGet moduleInfo.ModuleImports call.Base with
    | none => rfl
    | some p => simp only [hplain p hm]
  have h3 : (match mapGet moduleInfo.FromImports call.Base with
      | some target =>
        match mapGet moduleMap (target.Module ++ "." ++ target.Name) with
        | some _ => some (target.Module ++ "." ++ target.Name, "", call.Attr)
        | none => none
      | none => none) = (none : Option Triple) := by
    cases hm : mapGet moduleInfo.FromImports call.Base with
    | none => rfl
    | some t => simp only [hfrom t hm]
  simp only [h1, h2, h3, hclass]
  cases hm : mapGet methods call.Attr with
  | none => simp
  | some n => simp

/-- C11, witness: in pkg.service, whose class Handler has the methods get and post, the call
Handler.get() resolves to (pkg.service, Handler, get). -/
theorem resolveCallTarget_class_rule_witness :
    resolveCallTarget ⟨"attr", "", "Handler", "get"⟩ Example.handlerInfo Example.handlerMap "" =
      (if (mapGet [("get", Example.funcDef "get" [Example.passStmt]),
            ("post", Example.funcDef "post" [Example.passStmt])] "get").isSome = true then
        some (Example.handlerInfo.ModulePath, "Handler", "get")
      else none) ∧
    resolveCallTarget ⟨"attr", "", "Handler", "get"⟩ Example.handlerInfo Example.handlerMap "" =
      some ("pkg.service", "Handler", "get") :=
  ⟨resolveCallTarget_class_rule ⟨"attr", "", "Handler", "get"⟩ Example.handlerInfo
      Example.handlerMap ""
      [("get", Example.funcDef "get" [Example.passStmt]),
        ("post", Example.funcDef "post" [Example.passStmt])]
      rfl (by decide) (by decide) (by decide)
      (fun _ h => Option.noConfusion
        ((by decide : mapGet Example.handlerInfo.ModuleImports "Handler" = none).symm.trans h))
      (fun _ h => Option.noConfusion
        ((by decide : mapGet Example.handlerInfo.FromImports "Handler" = none).symm.trans h))
      rfl,
    by decide⟩

/-- C11, counterexample: Handler is a class of the current module and no earlier rule
applies, yet the call Handler.missing() is not resolved, because missing is not a method of
Handler; the claimed target (pkg.service, Handler, missing) is not returned. -/
theorem resolveCallTarget_class_needs_method :
    (mapGet Example.handlerInfo.Classes "Handler").isSome = true ∧
    mapGet Example.handlerInfo.ModuleImports "Handler" = none ∧
    mapGet Example.handlerInfo.FromImports "Handler" = none ∧
    resolveCallTarget ⟨"attr", "", "Handler", "missing"⟩ Example.handlerInfo
      Example.handlerMap "" = none ∧
    resolveCallTarget ⟨"attr", "", "Handler", "missing"⟩ Example.handlerInfo
      Example.handlerMap "" ≠ some ("pkg.service", "Handler", "missing") := by
  decide

end Modex

namespace Modex

/-- C12: seed expansion.  For a class C of the entry module (a name without colon), with
`methods` its method index: the object spec C, when no module-level function is called C,
and the object spec C:: both yield one seed (module, C, m) for every entry m of the method
index, in a list without repetition whose members are exactly the triples of the methods of
C; the object spec C::m yields the single seed (module, C, m) when m is a method of C and
no seed otherwise. -/
theorem entry_seed_expansion (modulePath filePath : String) (tree : Node) (C : String)
    (methods : List (String × Node)) (hC : C ≠ "") (hcolon : ':' ∉ C.data)
    (hclass : mapGet (buildModuleInfo modulePath filePath tree).Classes C = some methods) :
    (mapGet (buildModuleInfo modulePath filePath tree).Functions C = none →
      seedsOfObject (buildModuleInfo modulePath filePath tree) C =
        methods.map (fun m => (modulePath, C, m.1))) ∧
    seedsOfObject (buildModuleInfo modulePath filePath tree) (C ++ "::" ++ "") =
      methods.map (fun m => (modulePath, C, m.1)) ∧
    (∀ m : String, m ≠ "" →
      seedsOfObject (buildModuleInfo modulePath filePath tree) (C ++ "::" ++ m) =
        if (mapGet methods m).isSome = true then [(modulePath, C, m)] else []) ∧
    (methods.map (fun m => ((modulePath, C, m.1) : Triple))).Nodup ∧
    (∀ m : String, ((modulePath, C, m) : Triple) ∈
        methods.map (fun m => ((modulePath, C, m.1) : Triple)) ↔
      (mapGet methods m).isSome = true) := by
  have hu := uniqueKeys_collectDefinitions tree
  rw [buildModuleInfo_classes] at hclass
  have hnodup : (methods.map Prod.fst).Nodup := hu.2.2 _ (mem_of_mapGet _ _ _ hclass)
  refine ⟨?_, ?_, ?_, method_seeds_nodup modulePath C methods hnodup, ?_⟩
  · intro hfun
    unfold seedsOfObject
    rw [splitObject_plain C hcolon]
    unfold getEntrySeeds
    simp only [buildModuleInfo_path, buildModuleInfo_classes, hclass, hfun, hC]
    simp
  · unfold seedsOfObject
    rw [splitObject_method C "" hcolon]
    unfold getEntrySeeds
    simp only [buildModuleInfo_path, buildModuleInfo_classes, hclass, hC]
    simp [hC]
  · intro m hm
    unfold seedsOfObject
    rw [splitObject_method C m hcolon]
    unfold getEntrySeeds
    simp only [buildModuleInfo_path, buildModuleInfo_classes, hclass, hC, hm]
    cases hg : mapGet methods m <;> simp [hC, hm]
  · intro m
    rw [mapGet_isSome_iff]
    simp only [List.mem_map, Prod.mk.injEq, true_and]

/-- C12, witness: in pkg.service the class Handler has the methods get and post; the
entrypoint pkg.service:Handler (and pkg.service:Handler::) yields both as seeds, the
entrypoint pkg.service:Handler::get yields only get, and a method that Handler does not
have yields no seed. -/
theorem entry_seed_expansion_witness :
    seedsOfObject Example.handlerInfo ("Handler" ++ "::" ++ "") =
      [("pkg.service", "Handler", "get"), ("pkg.service", "Handler", "post")] ∧
    entrySeeds Example.handlerFs Example.handlerMap (fun _ => none) "pkg.service:Handler" =
      [("pkg.service", "Handler", "get"), ("pkg.service", "Handler", "post")] ∧
    entrySeeds Example.handlerFs Example.handlerMap (fun _ => none) "pkg.service:Handler::" =
      [("pkg.service", "Handler", "get"), ("pkg.service", "Handler", "post")] ∧
    entrySeeds Example.handlerFs Example.handlerMap (fun _ => none)
      "pkg.service:Handler::get" = [("pkg.service", "Handler", "get")] ∧
    entrySeeds Example.handlerFs Example.handlerMap (fun _ => none)
      "pkg.service:Handler::put" = [] :=
  ⟨(entry_seed_expansion "pkg.service" "pkg/service.py" Example.handlerTree "Handler"
      [("get", Example.funcDef "get" [Example.passStmt]),
        ("post", Example.funcDef "post" [Example.passStmt])]
      (by decide) (by decide) rfl).2.1,
    by decide, by decide, by decide, by decide⟩

end Modex

namespace Modex

/-- C13: when the module of the entrypoint is a key of the module map and loads, but
getEntrySeeds yields no triple, collectModelsForEntrypoint returns the empty model set, the
empty usage index and the single diagnostic "Entrypoint object not found: ... in ...", and
the run prints that one ERROR line, no model line, and exits with code 2. -/
theorem entrypoint_object_not_found (fs : FileSystem) (moduleMap : List (String × String))
    (pathLookup : String → Option String) (order : SeedOrder) (entrypoint : String)
    (explain : Bool) (nArg : Nat) (filePath : String) (entryModule : ModuleInfo)
    (hentry : entrypoint ≠ "")
    (hmodule : mapGet moduleMap (entryModulePath moduleMap pathLookup entrypoint) =
      some filePath)
    (hload : getModuleInfo fs moduleMap (entryModulePath moduleMap pathLookup entrypoint) =
      .ok entryModule)
    (hseeds : seedsOfObject entryModule (splitEntrypoint entrypoint).2 = []) :
    (collectModelsForEntrypoint fs moduleMap pathLookup order entrypoint).models = [] ∧
    (collectModelsForEntrypoint fs moduleMap pathLookup order entrypoint).modelUsage = [] ∧
    (collectModelsForEntrypoint fs moduleMap pathLookup order entrypoint).errors =
      ["Entrypoint object not found: " ++
        entryLabel (splitObject (splitEntrypoint entrypoint).2).1
          (splitObject (splitEntrypoint entrypoint).2).2.1
          (splitObject (splitEntrypoint entrypoint).2).2.2 ++
        " in " ++ entryModulePath moduleMap pathLookup entrypoint] ∧
    main fs moduleMap pathLookup order entrypoint explain nArg =
      ⟨["ERROR: " ++ ("Entrypoint object not found: " ++
        entryLabel (splitObject (splitEntrypoint entrypoint).2).1
          (splitObject (splitEntrypoint entrypoint).2).2.1
          (splitObject (splitEntrypoint entrypoint).2).2.2 ++
        " in " ++ entryModulePath moduleMap pathLookup entrypoint)], 2⟩ := by
  unfold seedsOfObject at hseeds
  have hcollect : collectModelsForEntrypoint fs moduleMap pathLookup order entrypoint =
      ⟨[], [], ["Entrypoint object not found: " ++
        entryLabel (splitObject (splitEntrypoint entrypoint).2).1
          (splitObject (splitEntrypoint entrypoint).2).2.1
          (splitObject (splitEntrypoint entrypoint).2).2.2 ++
        " in " ++ entryModulePath moduleMap pathLookup entrypoint]⟩ := by
    unfold collectModelsForEntrypoint
    dsimp only
    rw [hmodule]
    dsimp only
    rw [hload]
    dsimp only
    rw [hseeds, seedOrder_nil]
    rfl
  refine ⟨by rw [hcollect], by rw [hcollect], by rw [hcollect], ?_⟩
  unfold main
  have h1 : ¬ (nArg = 0 ∧ entrypoint = "") := fun h => hentry h.2
  rw [if_neg h1, if_neg hentry, hcollect]
  rfl

/-- C13, witness: in the scenario tree the entrypoint app.service:missing names no function
and no class of app.service; the run prints the one line
"ERROR: Entrypoint object not found: missing in app.service" and exits with code 2. -/
theorem entrypoint_object_not_found_witness :
    main Example.scenarioFs Example.scenarioMap (fun _ => none) SeedOrder.id
      "app.service:missing" true 0 =
      ⟨["ERROR: Entrypoint object not found: missing in app.service"], 2⟩ ∧
    (collectModelsForEntrypoint Example.scenarioFs Example.scenarioMap (fun _ => none)
      SeedOrder.id "app.service:missing").models = [] :=
  have h := entrypoint_object_not_found Example.scenarioFs Example.scenarioMap
    (fun _ => none) SeedOrder.id "app.service:missing" true 0 "app/service.py"
    (buildModuleInfo "app.service" "app/service.py" Example.serviceTree)
    (by decide) (by decide) rfl (by decide)
  ⟨by decide, h.1⟩

end Modex

namespace Modex

/-- C14 (as amended): when the value of the entrypoint flag is empty the exit code is 2 if
at least one positional argument remains; with no positional argument the program prints
its usage text and ends normally, with exit code 0. -/
theorem missing_entrypoint_exit_code (fs : FileSystem) (moduleMap : List (String × String))
    (pathLookup : String → Option String) (order : SeedOrder) (explain : Bool) :
    (∀ nArg : Nat, (main fs moduleMap pathLookup order "" explain (nArg + 1)).exitCode = 2) ∧
    (main fs moduleMap pathLookup order "" explain 0).exitCode = 0 ∧
    (main fs moduleMap pathLookup order "" explain 0).stdout = [] := by
  refine ⟨fun nArg => ?_, ?_, ?_⟩
  · unfold main
    have h1 : ¬ (nArg + 1 = 0 ∧ ("" : String) = "") := fun h => Nat.succ_ne_zero _ h.1
    rw [if_neg h1, if_pos rfl]
  · unfold main
    rw [if_pos ⟨rfl, rfl⟩]
  · unfold main
    rw [if_pos ⟨rfl, rfl⟩]

/-- C14, counterexample: with the entrypoint flag missing and no positional argument the
exit code is 0, not 2. -/
theorem missing_entrypoint_no_args_exit_zero :
    (main Example.scenarioFs Example.scenarioMap (fun _ => none) SeedOrder.id "" false
      0).exitCode = 0 ∧
    (main Example.scenarioFs Example.scenarioMap (fun _ => none) SeedOrder.id "" false
      0).exitCode ≠ 2 := by
  decide

end Modex

namespace Modex

/-- C15: at the end of a traversal the model set has no repetition, the keys of the usage
index have no repetition and are exactly the models of the model set, and the usage set of
a model holds exactly the usage keys module:[Class.]function of the triples whose body was
analysed (the reachable triples with a body) and whose models contain it.  Triples whose
class and function names contain neither a dot nor a colon and that differ have different
usage keys; when the analysed triples have such names the usage set of a model is a
rearrangement of the keys of the analysed triples that reference it, one entry per triple;
and the usage set of a model of the model set is never empty.  In the example the model A is
read by f and by g: it occurs once, with the two usage keys. -/
theorem usage_index_of_traversal (fs : FileSystem) (moduleMap : List (String × String))
    (seeds : List Triple) :
    (traverse fs moduleMap seeds).models.Nodup ∧
    ((traverse fs moduleMap seeds).modelUsage.map Prod.fst).Nodup ∧
    (∀ r, r ∈ (traverse fs moduleMap seeds).modelUsage.map Prod.fst ↔
      r ∈ (traverse fs moduleMap seeds).models) ∧
    (∀ r k, k ∈ (mapGet (traverse fs moduleMap seeds).modelUsage r).getD [] ↔
      ∃ t ∈ (traverse fs moduleMap seeds).analysed,
        r ∈ modelsOf fs moduleMap t ∧ k = usageKeyOf t) ∧
    (∀ t, t ∈ (traverse fs moduleMap seeds).analysed ↔
      (Reachable analyzeFunctionCalls fs moduleMap seeds t ∧
        (bodyOf fs moduleMap t).isSome = true)) ∧
    (∀ t u : Triple, plainNames t → plainNames u → usageKeyOf t = usageKeyOf u → t = u) ∧
    (∀ r, (∀ t ∈ (traverse fs moduleMap seeds).analysed, plainNames t) →
      ((mapGet (traverse fs moduleMap seeds).modelUsage r).getD []).Perm
        (((traverse fs moduleMap seeds).analysed.filter
          (fun t => decide (r ∈ modelsOf fs moduleMap t))).map usageKeyOf)) ∧
    (∀ r, r ∈ (traverse fs moduleMap seeds).models →
      (mapGet (traverse fs moduleMap seeds).modelUsage r).getD [] ≠ []) ∧
    ((traverse Example.sharedFs Example.sharedMap [("app.shared", "", "f")]).models =
        [⟨"app.models.a", "A"⟩] ∧
      (traverse Example.sharedFs Example.sharedMap [("app.shared", "", "f")]).modelUsage =
        [(⟨"app.models.a", "A"⟩, ["app.shared:f", "app.shared:g"])]) := by
  have hm := traverseWith_modelsInv analyzeFunctionCalls fs moduleMap seeds
  have hi := traverseWith_inv analyzeFunctionCalls fs moduleMap seeds
  have hnd := traverseWith_analysed_nodup analyzeFunctionCalls fs moduleMap seeds
  refine ⟨hm.models_nodup, hm.keys_nodup, hm.keys_iff, hi.usage_iff,
    traverseWith_analysed analyzeFunctionCalls fs moduleMap seeds, usageKeyOf_inj, ?_, ?_,
    by decide⟩
  · intro r hplain
    apply (List.perm_ext_iff_of_nodup (usage_list_nodup _ r hm.usage_nodup) ?_).mpr
    · intro k
      unfold traverse at hplain ⊢
      rw [hi.usage_iff]
      simp only [List.mem_map, List.mem_filter, decide_eq_true_eq]
      constructor
      · rintro ⟨t, ht, hr, hk⟩
        exact ⟨t, ⟨ht, hr⟩, hk.symm⟩
      · rintro ⟨t, ⟨ht, hr⟩, hk⟩
        exact ⟨t, ht, hr, hk.symm⟩
    · apply List.Nodup.map_on
      · intro t ht u hu hkey
        exact usageKeyOf_inj t u (hplain t (List.mem_filter.mp ht).1)
          (hplain u (List.mem_filter.mp hu).1) hkey
      · exact List.Nodup.filter _ hnd
  · intro r hr
    unfold traverse at hr ⊢
    obtain ⟨t, ht, hrt⟩ := (hi.models_iff r).mp hr
    intro he
    have : usageKeyOf t ∈ (mapGet (traverseWith analyzeFunctionCalls fs moduleMap
        seeds).modelUsage r).getD [] := (hi.usage_iff r _).mpr ⟨t, ht, hrt, rfl⟩
    rw [he] at this
    cases this

end Modex

namespace Modex

/-- C16: a "Function not found" diagnostic is recorded exactly when the loop pops a triple
with a function name that is not yet visited, whose module is a key of the module map and
loads, and whose function index (or the method index of the named class) has no entry for
the function name; the loop then goes on with the rest of the queue and changes nothing
else than the visited set.  A popped triple that is already visited, or whose module is
unknown, or whose body is found, records no diagnostic, and a module that fails to load
records the load error instead.  In the example the call U() of an imported class resolves
to (app.a, "", U), app.a has no function U, and the run records that one diagnostic. -/
theorem function_not_found_diagnostic :
    (∀ (fs : FileSystem) (moduleMap : List (String × String)) (s : State) (t : Triple)
        (q : List Triple) (filePath : String) (moduleInfo : ModuleInfo),
      s.queue = t :: q → t.2.2 ≠ "" → t ∉ s.visited →
      mapGet moduleMap t.1 = some filePath →
      getModuleInfo fs moduleMap t.1 = .ok moduleInfo →
      findBody moduleInfo t.2.1 t.2.2 = none →
      step analyzeFunctionCalls fs moduleMap s =
        { s with
          queue := q
          visited := t :: s.visited
          errors := s.errors ++
            ["Function not found: " ++ t.1 ++ ":" ++ t.2.1 ++ "." ++ t.2.2] }) ∧
    (∀ (fs : FileSystem) (moduleMap : List (String × String)) (s : State) (t : Triple)
        (q : List Triple),
      s.queue = t :: q → t ∈ s.visited →
      (step analyzeFunctionCalls fs moduleMap s).errors = s.errors) ∧
    (∀ (fs : FileSystem) (moduleMap : List (String × String)) (s : State) (t : Triple)
        (q : List Triple),
      s.queue = t :: q → mapGet moduleMap t.1 = none →
      (step analyzeFunctionCalls fs moduleMap s).errors = s.errors) ∧
    (∀ (fs : FileSystem) (moduleMap : List (String × String)) (s : State) (t : Triple)
        (q : List Triple) (moduleInfo : ModuleInfo) (funcNode : Node),
      s.queue = t :: q → bodyOf fs moduleMap t = some (moduleInfo, funcNode) →
      (step analyzeFunctionCalls fs moduleMap s).errors = s.errors) ∧
    (∀ (fs : FileSystem) (moduleMap : List (String × String)) (s : State) (t : Triple)
        (q : List Triple) (filePath e : String),
      s.queue = t :: q → t.2.2 ≠ "" → t ∉ s.visited →
      mapGet moduleMap t.1 = some filePath →
      getModuleInfo fs moduleMap t.1 = .error e →
      (step analyzeFunctionCalls fs moduleMap s).errors = s.errors ++ [e]) ∧
    (∀ (fs : FileSystem) (moduleMap : List (String × String)) (seeds : List Triple)
        (msg : String),
      msg ∈ (traverse fs moduleMap seeds).errors ↔
        ∃ t ∈ (traverse fs moduleMap seeds).visited, errorOf fs moduleMap t = some msg) ∧
    (resolveCallTarget ⟨"name", "U", "", ""⟩
        (buildModuleInfo "app.service" "app/service.py"
          (Example.moduleOf "..." [Example.fromImport "app.a" "U",
            Example.fromImport "app.b" "V", Example.funcDef "f" [Example.callStmt "U"],
            Example.funcDef "g" [Example.callStmt "V"]]))
        Example.twoErrorsMap "" = some ("app.a", "", "U") ∧
      (mapGet (buildModuleInfo "app.a" "app/a.py"
          (Example.moduleOf "class U: pass" [Example.classDef "U"])).Functions "U").isSome =
        false ∧
      (collectModelsForEntrypoint Example.twoErrorsFs Example.twoErrorsMap (fun _ => none)
        SeedOrder.id "app.service:f").errors = ["Function not found: app.a:.U"]) := by
  refine ⟨?_, ?_, ?_, ?_, ?_, ?_, by decide⟩
  · intro fs moduleMap s t q filePath moduleInfo hq hname hvis hm hg hb
    have hbody : bodyOf fs moduleMap t = none := by
      unfold bodyOf
      simp only [hm, hg, hb]
    have herr : errorOf fs moduleMap t =
        some ("Function not found: " ++ t.1 ++ ":" ++ t.2.1 ++ "." ++ t.2.2) := by
      unfold errorOf
      simp only [hm, hg, hb]
    rw [step_nobody _ fs moduleMap s t q hq hname hvis hbody, herr]
    rfl
  · intro fs moduleMap s t q hq hvis
    rw [step_skip _ fs moduleMap s t q hq (Or.inr hvis)]
  · intro fs moduleMap s t q hq hm
    by_cases hskip : t.2.2 = "" ∨ t ∈ s.visited
    · rw [step_skip _ fs moduleMap s t q hq hskip]
    · have hbody : bodyOf fs moduleMap t = none := by
        unfold bodyOf
        simp only [hm]
      have herr : errorOf fs moduleMap t = none := by
        unfold errorOf
        simp only [hm]
      rw [step_nobody _ fs moduleMap s t q hq (fun e => hskip (Or.inl e))
        (fun e => hskip (Or.inr e)) hbody, herr]
      simp
  · intro fs moduleMap s t q moduleInfo funcNode hq hb
    by_cases hvis : t ∈ s.visited
    · rw [step_skip _ fs moduleMap s t q hq (Or.inr hvis)]
    · rw [step_body _ fs moduleMap s t q moduleInfo funcNode hq hvis hb]
  · intro fs moduleMap s t q filePath e hq hname hvis hm hg
    have hbody : bodyOf fs moduleMap t = none := by
      unfold bodyOf
      simp only [hm, hg]
    have herr : errorOf fs moduleMap t = some e := by
      unfold errorOf
      simp only [hm, hg]
    rw [step_nobody _ fs moduleMap s t q hq hname hvis hbody, herr]
    rfl
  · intro fs moduleMap seeds msg
    unfold traverse
    rw [(traverseWith_inv analyzeFunctionCalls fs moduleMap seeds).errors_eq]
    simp only [List.mem_filterMap, List.mem_reverse]

end Modex

namespace Modex

/-- C17: collectDefinitions keeps the class context when it walks into the body of a
function: the walk of a function definition records it and goes on through its children
with the same context, so a definition nested in a module-level function is recorded in the
function index under its own name and a definition nested in a method is recorded as a
method of that class.  The entry of a name in the function index is the last named function
definition of that name that the walk meets outside every class context, nested or not, in
document order, so a nested definition overwrites an earlier top-level one of the same
name.  In the examples, helper ends up bound to the definition nested in outer, and inner is
a method of K. -/
theorem nested_definitions_recorded :
    (∀ (tx : String) (cs : List (String × Node)) (currentClass : String)
        (st : List (String × Node) × List (String × List (String × Node))),
      walkDefs (.mk "function_definition" tx cs) currentClass st =
        walkDefsList cs currentClass
          (recordFunction (.mk "function_definition" tx cs) currentClass st)) ∧
    (∀ (node : Node) (st : List (String × Node) × List (String × List (String × Node))),
      defName node ≠ "" →
      mapGet (recordFunction node "" st).1 (defName node) = some node) ∧
    (∀ (node : Node) (currentClass : String)
        (st : List (String × Node) × List (String × List (String × Node))),
      defName node ≠ "" → currentClass ≠ "" →
      mapGet ((mapGet (recordFunction node currentClass st).2 currentClass).getD [])
        (defName node) = some node) ∧
    (∀ root : Node,
      collectDefinitions root = (defEvents root "").foldl applyEvent ([], [])) ∧
    (∀ (root : Node) (name : String),
      mapGet (collectDefinitions root).1 name =
        lastBinding (functionBindings (defEvents root "")) name) ∧
    ((collectDefinitions Example.shadowTree).1.map (fun e => (e.1, e.2.text)) =
        [("helper", "def helper(): return 1"),
          ("outer", "def outer(): def helper(): return 1")] ∧
      (functionBindings (defEvents Example.shadowTree "")).map (fun e => (e.1, e.2.text)) =
        [("helper", "def helper(): pass"),
          ("outer", "def outer(): def helper(): return 1"),
          ("helper", "def helper(): return 1")] ∧
      (collectDefinitions Example.nestedMethodTree).2.map
          (fun c => (c.1, c.2.map (fun e => (e.1, e.2.text)))) =
        [("K", [("m", "def m(self): def inner(): pass"), ("inner", "def inner(): pass")])] ∧
      (collectDefinitions Example.nestedMethodTree).1.map Prod.fst = []) := by
  refine ⟨?_, recordFunction_module_level, recordFunction_in_class, ?_,
    collectDefinitions_functions, by decide⟩
  · intro tx cs currentClass st
    rw [walkDefs]
    simp
  · intro root
    unfold collectDefinitions
    exact walkDefs_eq_events root "" ([], [])

end Modex

namespace Modex

/-- C18, the code at the failing input: in `def f(x=DEFAULT): return g(key=VALUE)` the
identifier DEFAULT, the value child of the default_parameter node, is not recorded in the
name set, while the value VALUE of the keyword argument is; shouldCountIdentifier rejects
every identifier whose parent is a default_parameter, whatever its field.  So for
`def f(m=User): pass` under `from app.models.user import User` no model is reported. -/
theorem default_value_identifier_not_counted :
    shouldCountIdentifier ⟨some "default_parameter", "value", Example.ident "DEFAULT"⟩ =
      false ∧
    shouldCountIdentifier ⟨some "default_parameter", "name", Example.ident "x"⟩ = false ∧
    shouldCountIdentifier ⟨some "keyword_argument", "value", Example.ident "VALUE"⟩ = true ∧
    shouldCountIdentifier ⟨some "keyword_argument", "name", Example.ident "key"⟩ = false ∧
    (collectUsage Example.defaultParamNode).Names = ["g", "VALUE"] ∧
    "DEFAULT" ∉ (collectUsage Example.defaultParamNode).Names ∧
    (collectUsage Example.defaultModelNode).Names = [] ∧
    analyzeFunctionModels Example.defaultModelNode Example.formsInfo [] = [] := by
  decide

end Modex

namespace Modex

/-- C19: every model that analyzeFunctionModels returns has a module for which
isModelModule holds, for every function body, import tables and module map; hence so has
every model of the model set and every key of the usage index that
collectModelsForEntrypoint returns. -/
theorem reported_models_in_model_modules :
    (∀ (moduleImports : List (String × String))
        (fromImports : List (String × ImportFromTarget)) (moduleMap : List (String × String))
        (usage : usageInfo) (r : ModelRef),
      r ∈ resolveModels moduleImports fromImports moduleMap usage →
      isModelModule r.Module = true) ∧
    (∀ (functionNode : Node) (moduleInfo : ModuleInfo) (moduleMap : List (String × String))
        (r : ModelRef),
      r ∈ analyzeFunctionModels functionNode moduleInfo moduleMap →
      isModelModule r.Module = true) ∧
    (∀ (fs : FileSystem) (moduleMap : List (String × String))
        (pathLookup : String → Option String) (order : SeedOrder) (entrypoint : String)
        (r : ModelRef),
      r ∈ (collectModelsForEntrypoint fs moduleMap pathLookup order entrypoint).models →
      isModelModule r.Module = true) ∧
    (∀ (fs : FileSystem) (moduleMap : List (String × String))
        (pathLookup : String → Option String) (order : SeedOrder) (entrypoint : String)
        (e : ModelRef × List String),
      e ∈ (collectModelsForEntrypoint fs moduleMap pathLookup order entrypoint).modelUsage →
      isModelModule e.1.Module = true) := by
  have hmodels : ∀ (fs : FileSystem) (moduleMap : List (String × String))
      (seeds : List Triple) (r : ModelRef),
      r ∈ (traverse fs moduleMap seeds).models → isModelModule r.Module = true := by
    intro fs moduleMap seeds r hr
    unfold traverse at hr
    obtain ⟨t, info, node, _, _, hmem⟩ := (traverseWith_models _ fs moduleMap seeds r).mp hr
    exact analyzeFunctionModels_module node info moduleMap r hmem
  refine ⟨resolveModels_module, analyzeFunctionModels_module, ?_, ?_⟩
  · intro fs moduleMap pathLookup order entrypoint r hr
    rw [(collect_models fs moduleMap pathLookup order entrypoint).1] at hr
    exact hmodels fs moduleMap _ r hr
  · intro fs moduleMap pathLookup order entrypoint e he
    rw [(collect_models fs moduleMap pathLookup order entrypoint).2] at he
    have hkey : e.1 ∈ (traverse fs moduleMap
        (order.apply (entrySeeds fs moduleMap pathLookup entrypoint))).modelUsage.map
        Prod.fst := List.mem_map.mpr ⟨e, he, rfl⟩
    exact hmodels fs moduleMap _ e.1
      (((traverseWith_modelsInv analyzeFunctionCalls fs moduleMap _).keys_iff e.1).mp hkey)

end Modex

namespace Modex

/-- C20: at every iteration of the loop of collectModelsForEntrypoint, started from the seeds
of the entrypoint in any order, every triple in the work queue (a seed or an enqueued call
target) has a module that is a key of the module map and a function name that is not empty;
these are the two conditions the checks at the pop of a triple test, so for the head of the
queue neither check discards it. -/
theorem queue_triples_known_and_named (fs : FileSystem) (moduleMap : List (String × String))
    (pathLookup : String → Option String) (order : SeedOrder) (entrypoint : String)
    (n : Nat) (t : Triple)
    (h : t ∈ (loop analyzeFunctionCalls fs moduleMap n
      (initState (order.apply (entrySeeds fs moduleMap pathLookup entrypoint)))).queue) :
    (mapGet moduleMap t.1).isSome = true ∧ t.2.2 ≠ "" := by
  refine loop_queue_known analyzeFunctionCalls fs moduleMap n _ ?_ t h
  intro u hu
  exact mem_entrySeeds fs moduleMap pathLookup entrypoint u
    ((seedOrder_mem order _ u).mp hu)

/-- In `def A(): B()` and `def B(): A()` with entrypoint `m:A`, after one iteration the queue
holds the call target B of module m, an indexed module. -/
theorem queue_triples_known_and_named_witness :
    ("m", "", "B") ∈ (loop analyzeFunctionCalls Example.mutualFs Example.mutualMap 1
      (initState (SeedOrder.id.apply
        (entrySeeds Example.mutualFs Example.mutualMap (fun _ => none) "m:A")))).queue ∧
    ((mapGet Example.mutualMap "m").isSome = true ∧ "B" ≠ "") :=
  ⟨by decide, queue_triples_known_and_named Example.mutualFs Example.mutualMap
    (fun _ => none) SeedOrder.id "m:A" 1 ("m", "", "B") (by decide)⟩

end Modex

namespace Modex

/-- C21: the import tables parseModule builds for a module come from the walk of the whole
tree: the value of an alias in ModuleImports or FromImports is the one its last binding
gives it among the import statements of all the nodes of the tree in document order, at
any depth.  The body of every function and method in the indexes of the module is a node of
that tree and so is every node under it, so each alias an import statement inside such a
body binds is a key of the module table.  A body with no binding of its own for an alias
has its models resolved with the entry of the module table, and resolveCallTarget looks the
callee up in the module tables.  In the example the module has no import at top level,
`setup` holds the three import statements, and the models and the call target of `g` are
resolved through them. -/
theorem nested_imports_feed_module_tables :
    (∀ (modulePath filePath : String) (tree : Node) (k : String),
      mapGet (buildModuleInfo modulePath filePath tree).ModuleImports k =
        lastBinding ((statementsOf tree).flatMap plainBindings) k ∧
      mapGet (buildModuleInfo modulePath filePath tree).FromImports k =
        lastBinding ((statementsOf tree).flatMap
          (fromBindings (buildModuleInfo modulePath filePath tree))) k) ∧
    (∀ (modulePath filePath : String) (tree : Node) (className funcName : String)
        (body stmt : Node),
      findBody (buildModuleInfo modulePath filePath tree) className funcName = some body →
      stmt ∈ statementsOf body →
      stmt ∈ statementsOf tree ∧
      (∀ e ∈ plainBindings stmt,
        ∃ v, mapGet (buildModuleInfo modulePath filePath tree).ModuleImports e.1 = some v) ∧
      (∀ e ∈ fromBindings (buildModuleInfo modulePath filePath tree) stmt,
        ∃ t, mapGet (buildModuleInfo modulePath filePath tree).FromImports e.1 = some t)) ∧
    (∀ (modulePath filePath : String) (tree : Node) (functionNode : Node) (k : String),
      (mapGet (collectImports functionNode (buildModuleInfo modulePath filePath tree)).1 k =
          none →
        mapGet (mergedModuleImports functionNode (buildModuleInfo modulePath filePath tree)) k =
          mapGet (buildModuleInfo modulePath filePath tree).ModuleImports k) ∧
      (mapGet (collectImports functionNode (buildModuleInfo modulePath filePath tree)).2 k =
          none →
        mapGet (mergedFromImports functionNode (buildModuleInfo modulePath filePath tree)) k =
          mapGet (buildModuleInfo modulePath filePath tree).FromImports k)) ∧
    (∀ (moduleInfo : ModuleInfo) (moduleMap : List (String × String))
        (currentClass name M N p : String),
      name ≠ "" → mapGet moduleInfo.Functions name = none →
      mapGet moduleInfo.FromImports name = some ⟨M, N⟩ → mapGet moduleMap M = some p →
      resolveCallTarget ⟨"name", name, "", ""⟩ moduleInfo moduleMap currentClass =
        some (M, "", N)) ∧
    (∀ (moduleInfo : ModuleInfo) (moduleMap : List (String × String))
        (currentClass base attr M p : String),
      base ≠ "" → attr ≠ "" → base ≠ "self" → base ≠ "cls" →
      mapGet moduleInfo.ModuleImports base = some M → mapGet moduleMap M = some p →
      resolveCallTarget ⟨"attr", "", base, attr⟩ moduleInfo moduleMap currentClass =
        some (M, "", attr)) ∧
    ((statementsOf Example.nestedImportsTree).flatMap plainBindings = [("models", "models")] ∧
      Example.nestedImportsTree.children.map (fun c => c.2.type) =
        ["function_definition", "function_definition"] ∧
      Example.nestedImportsInfo.ModuleImports = [("models", "models")] ∧
      Example.nestedImportsInfo.FromImports =
        [("User", ⟨"app.models.user", "User"⟩), ("helper", ⟨"app.util", "helper"⟩)] ∧
      collectImports Example.usesNode Example.nestedImportsInfo = ([], []) ∧
      analyzeFunctionModels Example.usesNode Example.nestedImportsInfo
          Example.nestedImportsMap =
        [⟨"app.models.user", "User"⟩, ⟨"models", "Order"⟩] ∧
      enqueueTargets (analyzeFunctionCalls Example.usesNode) Example.nestedImportsInfo
          Example.nestedImportsMap "" = [("app.util", "", "helper")]) := by
  refine ⟨fun modulePath filePath tree k =>
      ⟨buildModuleInfo_moduleImports modulePath filePath tree k,
        buildModuleInfo_fromImports modulePath filePath tree k⟩, ?_, ?_,
    resolveCallTarget_name_from, resolveCallTarget_attr_module, by decide⟩
  · intro modulePath filePath tree className funcName body stmt hb hs
    have hmem : stmt ∈ statementsOf tree :=
      statementsOf_closed tree body stmt
        (findBody_mem_statementsOf modulePath filePath tree className funcName body hb) hs
    refine ⟨hmem, ?_, ?_⟩
    · intro e he
      rw [buildModuleInfo_moduleImports]
      exact lastBinding_of_mem _ e (List.mem_flatMap.mpr ⟨stmt, hmem, he⟩)
    · intro e he
      rw [buildModuleInfo_fromImports]
      exact lastBinding_of_mem _ e (List.mem_flatMap.mpr ⟨stmt, hmem, he⟩)
  · intro modulePath filePath tree functionNode k
    have hn := buildModuleInfo_tables_nodup modulePath filePath tree
    constructor
    · intro h
      unfold mergedModuleImports
      rw [collectImports_eq] at h ⊢
      exact mapGet_merged_fallback _ _ k hn.1 h
    · intro h
      unfold mergedFromImports
      rw [collectImports_eq] at h ⊢
      exact mapGet_merged_fallback _ _ k hn.2 h

end Modex

namespace Modex

/-- C22, amended: for a function body that contains an attribute access whose object is an
identifier `base` bound in the from-import table of the body to the target (M, N), with M a
model module, the walk of collectUsage counts `base` as a bare name and
analyzeFunctionModels reports the model (M, N).  When moreover the attribute is an
identifier `attr`, `base` is not bound in the plain-import table of the body, and M.N is a
key of the module map, the result also holds the model (M.N, attr), so the submodule M.N is
itself reported as the model (M, N). -/
theorem attribute_base_reported_as_model (functionNode : Node) (moduleInfo : ModuleInfo)
    (moduleMap : List (String × String)) (v : Visit) (obj : Node) (M N : String)
    (hv : v ∈ walk functionNode) (hty : v.node.type = "attribute")
    (hobj : childByFieldName v.node.children "object" = some obj)
    (hoty : obj.type = "identifier")
    (hfrom : mapGet (mergedFromImports functionNode moduleInfo) obj.text = some ⟨M, N⟩)
    (hM : isModelModule M = true) :
    obj.text ∈ (collectUsage functionNode).Names ∧
    (⟨M, N⟩ : ModelRef) ∈ analyzeFunctionModels functionNode moduleInfo moduleMap ∧
    (∀ attr : Node, childByFieldName v.node.children "attribute" = some attr →
      attr.type = "identifier" →
      mapGet (mergedModuleImports functionNode moduleInfo) obj.text = none →
      (mapGet moduleMap (M ++ "." ++ N)).isSome = true →
      isModelModule (M ++ "." ++ N) = true ∧
      (⟨M ++ "." ++ N, attr.text⟩ : ModelRef) ∈
        analyzeFunctionModels functionNode moduleInfo moduleMap) := by
  have hname := attribute_object_counted functionNode v obj hv hty hobj hoty
  refine ⟨hname, ?_, ?_⟩
  · rw [mem_analyzeFunctionModels]
    refine Or.inl ⟨obj.text, hname, ?_⟩
    unfold nameModel
    rw [hfrom]
    simp only
    rw [if_pos hM]
  · intro attr hattr haty hplain hidx
    have hMN := isModelModule_compound M N hM
    refine ⟨hMN, ?_⟩
    rw [mem_analyzeFunctionModels]
    refine Or.inr ⟨(obj.text, attr.text),
      mem_collectUsage_attrs functionNode v obj attr hv hty hobj hattr hoty haty, ?_⟩
    rw [attrModel_of_from _ _ _ obj.text attr.text M N hplain hfrom, if_pos ⟨hidx, hMN⟩]

/-- C22, witness: in `def show(): return user.User` under `from app.models import user`, with
app.models.user an indexed module, the name `user` is counted and the models reported are
(app.models, user) and (app.models.user, User). -/
theorem attribute_base_reported_as_model_witness :
    (walk Example.showNode)[10]? =
      some ⟨some "return_statement", "", Example.attrOf "user" "User"⟩ ∧
    mapGet (mergedFromImports Example.showNode Example.viewsInfo) "user" =
      some ⟨"app.models", "user"⟩ ∧
    isModelModule "app.models" = true ∧
    "user" ∈ (collectUsage Example.showNode).Names ∧
    (⟨"app.models", "user"⟩ : ModelRef) ∈
      analyzeFunctionModels Example.showNode Example.viewsInfo Example.viewsMap ∧
    (⟨"app.models.user", "User"⟩ : ModelRef) ∈
      analyzeFunctionModels Example.showNode Example.viewsInfo Example.viewsMap :=
  have h := attribute_base_reported_as_model Example.showNode Example.viewsInfo
    Example.viewsMap ⟨some "return_statement", "", Example.attrOf "user" "User"⟩
    (Example.ident "user") "app.models" "user"
    (List.getElem?_mem (rfl : (walk Example.showNode)[10]? = some _)) rfl rfl rfl
    (by decide) (by decide)
  ⟨rfl, by decide, by decide, h.1, h.2.1,
    (h.2.2 (Example.ident "User") rfl rfl (by decide) (by decide)).2⟩

/-- C22, counterexample: in the module `import user`, `from app.models import user`,
`def show(): return user.User`, the base `user` of the attribute access is a from-import
alias with target (app.models, user), app.models is a model module and app.models.user is
an indexed model module, yet the result is the one model (app.models, user): the pair
(user, User) is resolved through the plain-import table, where `user` is bound to the
module `user`, and (app.models.user, User) is not reported. -/
theorem attribute_base_also_plain_import :
    (walk Example.showNode)[10]? =
      some ⟨some "return_statement", "", Example.attrOf "user" "User"⟩ ∧
    mapGet (mergedFromImports Example.showNode Example.twiceBoundInfo) "user" =
      some ⟨"app.models", "user"⟩ ∧
    mapGet (mergedModuleImports Example.showNode Example.twiceBoundInfo) "user" =
      some "user" ∧
    isModelModule "app.models" = true ∧
    isModelModule "app.models.user" = true ∧
    (mapGet Example.viewsMap "app.models.user").isSome = true ∧
    analyzeFunctionModels Example.showNode Example.twiceBoundInfo Example.viewsMap =
      [⟨"app.models", "user"⟩] ∧
    (⟨"app.models.user", "User"⟩ : ModelRef) ∉
      analyzeFunctionModels Example.showNode Example.twiceBoundInfo Example.viewsMap :=
  ⟨rfl, by decide, by decide, by decide, by decide, by decide, by decide, by decide⟩

end Modex
